import Mathlib

/-!
# Ducker: a shallow embedding of the container runtime's pure core

Go strings are byte sequences, so they are modelled as lists of bytes.
Machine integers are natural numbers reduced modulo the word size wherever
the Go code can overflow.  Library routines of the Go standard library that
the repository calls (MD5, decimal and hexadecimal formatting, UTF-8
decoding of a range loop, IPv4 CIDR parsing) are modelled next to the
repository function that calls them.
-/

namespace Ducker

/-! ## Go strings -/

/-- One byte of a Go string. -/
abbrev Byte := Fin 256

/-- A Go string: an immutable sequence of bytes, not necessarily valid UTF-8. -/
abbrev GoString := List Byte

/-- The byte with the given value (reduced modulo 256). -/
def byte (n : Nat) : Byte := ⟨n % 256, Nat.mod_lt _ (by decide)⟩

/-- The Go string literal with the given ASCII text. -/
def str (s : String) : GoString := s.toList.map (fun c => byte c.toNat)

/-- The table `ldigits` of package fmt, restricted to the sixteen hex digits. -/
def ldigits : GoString := str ("0123456789abcdef")

/-- Lower-case hexadecimal rendering of a byte slice, two digits per byte
(the verb `%x` applied to a byte slice). -/
def hexEncode : List Byte → GoString
  | [] => []
  | b :: rest => ldigits.getD (b.val / 16) 0 :: ldigits.getD (b.val % 16) 0 :: hexEncode rest

/-- Left padding with `'0'` up to the given width (the `0` flag with a width). -/
def zeroPad (width : Nat) (s : GoString) : GoString :=
  List.replicate (width - s.length) (byte 48) ++ s

/-- The digit loop of `fmt.fmtInteger` in base 16: digits are produced from the
least significant end while `u >= 16`, then the last digit is written.
Sixteen rounds are enough for any 64-bit value. -/
def fmtHexLoop : Nat → Nat → GoString → GoString
  | 0, _, acc => acc
  | fuel + 1, u, acc =>
    if 16 ≤ u then fmtHexLoop fuel (u / 16) (ldigits.getD (u % 16) 0 :: acc)
    else ldigits.getD u 0 :: acc

/-- The result of `fmt.Sprintf("%012x", u)` for a non-negative 64-bit integer. -/
def sprintf012x (u : Nat) : GoString := zeroPad 12 (fmtHexLoop 16 u [])

/-- The two-complement bit pattern of an `int64`, as a natural number below `2^64`. -/
def int64Bits (x : Int) : Nat := (x % 18446744073709551616).toNat

/-! ## crypto/md5 (RFC 1321) -/

namespace md5

/-- Per-round left-rotation amounts. -/
def shifts : List Nat :=
  [7, 12, 17, 22, 7, 12, 17, 22, 7, 12, 17, 22, 7, 12, 17, 22,
   5, 9, 14, 20, 5, 9, 14, 20, 5, 9, 14, 20, 5, 9, 14, 20,
   4, 11, 16, 23, 4, 11, 16, 23, 4, 11, 16, 23, 4, 11, 16, 23,
   6, 10, 15, 21, 6, 10, 15, 21, 6, 10, 15, 21, 6, 10, 15, 21]

/-- The sine-derived round constants. -/
def table : List Nat :=
  [0xd76aa478, 0xe8c7b756, 0x242070db, 0xc1bdceee, 0xf57c0faf, 0x4787c62a, 0xa8304613, 0xfd469501,
   0x698098d8, 0x8b44f7af, 0xffff5bb1, 0x895cd7be, 0x6b901122, 0xfd987193, 0xa679438e, 0x49b40821,
   0xf61e2562, 0xc040b340, 0x265e5a51, 0xe9b6c7aa, 0xd62f105d, 0x02441453, 0xd8a1e681, 0xe7d3fbc8,
   0x21e1cde6, 0xc33707d6, 0xf4d50d87, 0x455a14ed, 0xa9e3e905, 0xfcefa3f8, 0x676f02d9, 0x8d2a4c8a,
   0xfffa3942, 0x8771f681, 0x6d9d6122, 0xfde5380c, 0xa4beea44, 0x4bdecfa9, 0xf6bb4b60, 0xbebfbc70,
   0x289b7ec6, 0xeaa127fa, 0xd4ef3085, 0x04881d05, 0xd9d4d039, 0xe6db99e5, 0x1fa27cf8, 0xc4ac5665,
   0xf4292244, 0x432aff97, 0xab9423a7, 0xfc93a039, 0x655b59c3, 0x8f0ccc92, 0xffeff47d, 0x85845dd1,
   0x6fa87e4f, 0xfe2ce6e0, 0xa3014314, 0x4e0811a1, 0xf7537e82, 0xbd3af235, 0x2ad7d2bb, 0xeb86d391]

/-- The modulus of 32-bit words. -/
def w32 : Nat := 4294967296

/-- Rotation of a 32-bit word to the left. -/
def rotl (x s : Nat) : Nat := ((x <<< s) % w32) ||| (x >>> (32 - s))

/-- Bitwise complement of a 32-bit word. -/
def not32 (x : Nat) : Nat := x ^^^ 0xffffffff

/-- The four chaining words. -/
structure Digest where
  a : Nat
  b : Nat
  c : Nat
  d : Nat
deriving DecidableEq, Repr

/-- The initial chaining value. -/
def initial : Digest := ⟨0x67452301, 0xefcdab89, 0x98badcfe, 0x10325476⟩

/-- The little-endian 32-bit word at the head of a byte sequence. -/
def leWord (bs : List Byte) : Nat :=
  (bs.getD 0 0).val + (bs.getD 1 0).val * 256 + (bs.getD 2 0).val * 65536
    + (bs.getD 3 0).val * 16777216

/-- The first `n` little-endian words of a byte sequence. -/
def words : Nat → List Byte → List Nat
  | 0, _ => []
  | n + 1, bs => leWord bs :: words n (bs.drop 4)

/-- One of the 64 operations on a block. -/
def step (m : List Nat) (st : Digest) (i : Nat) : Digest :=
  let f := if i < 16 then (st.b &&& st.c) ||| (not32 st.b &&& st.d)
    else if i < 32 then (st.d &&& st.b) ||| (not32 st.d &&& st.c)
    else if i < 48 then st.b ^^^ st.c ^^^ st.d
    else st.c ^^^ (st.b ||| not32 st.d)
  let g := if i < 16 then i else if i < 32 then (5 * i + 1) % 16
    else if i < 48 then (3 * i + 5) % 16 else (7 * i) % 16
  let f2 := (f + st.a + table.getD i 0 + m.getD g 0) % w32
  ⟨st.d, (st.b + rotl f2 (shifts.getD i 0)) % w32, st.b, st.c⟩

/-- The compression of one 64-byte block into the chaining value. -/
def block (st : Digest) (chunk : List Byte) : Digest :=
  let r := (List.range 64).foldl (step (words 16 chunk)) st
  ⟨(st.a + r.a) % w32, (st.b + r.b) % w32, (st.c + r.c) % w32, (st.d + r.d) % w32⟩

/-- The compression of `n` consecutive blocks. -/
def blocks : Nat → Digest → List Byte → Digest
  | 0, st, _ => st
  | n + 1, st, bs => blocks n (block st bs) (bs.drop 64)

/-- The `n` low-order bytes of a number, least significant first. -/
def leBytes : Nat → Nat → List Byte
  | 0, _ => []
  | n + 1, x => byte x :: leBytes n (x / 256)

/-- The message followed by the padding and the 64-bit length in bits. -/
def pad (msg : List Byte) : List Byte :=
  msg ++ [byte 0x80] ++ List.replicate ((119 - msg.length % 64) % 64) (byte 0)
    ++ leBytes 8 ((msg.length * 8) % 18446744073709551616)

/-- The 16-byte digest `md5.Sum(msg)`. -/
def Sum (msg : List Byte) : List Byte :=
  let p := pad msg
  let r := blocks (p.length / 64) initial p
  leBytes 4 r.a ++ leBytes 4 r.b ++ leBytes 4 r.c ++ leBytes 4 r.d

end md5

/-! ## util/id.go -/

namespace util

/-- The rune yielded for bytes that do not start a valid encoding. -/
def runeError : Nat := 0xFFFD

/-- The continuation-byte test `locb <= b && b <= hicb` of the runtime decoder. -/
def isCont (b : Byte) : Bool := 0x80 ≤ b.val && b.val ≤ 0xBF

/-- The rune and width the range loop over a string decodes at the head of a
non-empty byte sequence `b :: rest` (the runtime's `decoderune`, with the
single-byte fast path of the loop for bytes below `0x80`). -/
def decodeRune (b : Byte) (rest : List Byte) : Nat × Nat :=
  if b.val < 0x80 then (b.val, 1)
  else if 0xC0 ≤ b.val ∧ b.val < 0xE0 then
    match rest with
    | b1 :: _ =>
      let r := (b.val % 32) * 64 + b1.val % 64
      if isCont b1 ∧ 0x7F < r then (r, 2) else (runeError, 1)
    | _ => (runeError, 1)
  else if 0xE0 ≤ b.val ∧ b.val < 0xF0 then
    match rest with
    | b1 :: b2 :: _ =>
      let r := (b.val % 16) * 4096 + (b1.val % 64) * 64 + b2.val % 64
      if isCont b1 ∧ isCont b2 ∧ 0x7FF < r ∧ ¬ (0xD800 ≤ r ∧ r ≤ 0xDFFF) then (r, 3)
      else (runeError, 1)
    | _ => (runeError, 1)
  else if 0xF0 ≤ b.val ∧ b.val < 0xF8 then
    match rest with
    | b1 :: b2 :: b3 :: _ =>
      let r := (b.val % 8) * 262144 + (b1.val % 64) * 4096 + (b2.val % 64) * 64 + b3.val % 64
      if isCont b1 ∧ isCont b2 ∧ isCont b3 ∧ 0xFFFF < r ∧ r ≤ 0x10FFFF then (r, 4)
      else (runeError, 1)
    | _ => (runeError, 1)
  else (runeError, 1)

/-- The runes a `for _, c := range s` loop visits; `skip` counts the bytes of
the current rune that are still to be stepped over. -/
def rangeRunes : Nat → GoString → List Nat
  | _, [] => []
  | skip + 1, _ :: rest => rangeRunes skip rest
  | 0, b :: rest => (decodeRune b rest).1 :: rangeRunes ((decodeRune b rest).2 - 1) rest

/-- The body of the loop of `IsValidID`: the first rune outside `0-9a-f`
makes it return false. -/
def validLoop : List Nat → Bool
  | [] => true
  | c :: rest =>
    if !((48 ≤ c && c ≤ 57) || (97 ≤ c && c ≤ 102)) then false else validLoop rest

/-- Whether `s` is a valid 12-hex ID (`IsValidID`): `len(s)` counts bytes. -/
def IsValidID (s : GoString) : Bool :=
  if s.length ≠ 12 then false else validLoop (rangeRunes 0 s)

/-- The function `GenerateID`.  The two environment reads of the random
branch, `time.Now().UnixNano()` and `rand.Int63()`, are the parameters
`timestamp` and `randomValue` (both `int64`). -/
def GenerateID (name : GoString) (timestamp randomValue : Int) : GoString :=
  if name.length > 0 then
    let hash := md5.Sum name
    zeroPad 12 (hexEncode (hash.take 6))
  else
    let combinedHash := int64Bits timestamp ^^^ int64Bits randomValue
    sprintf012x (combinedHash &&& 0xffffffffffff)

end util

/-- The characters `0-9` and `a-f`, by code point. -/
def IsLowerHex (c : Nat) : Prop := (48 ≤ c ∧ c ≤ 57) ∨ (97 ≤ c ∧ c ≤ 102)

/-! ## crypto/sha256 (FIPS 180-4) -/

namespace sha256

/-- The modulus of 32-bit words. -/
def w32 : Nat := 4294967296

/-- The round constants (fractional parts of the cube roots of the first 64 primes). -/
def table : List Nat :=
  [1116352408, 1899447441, 3049323471, 3921009573, 961987163, 1508970993,
   2453635748, 2870763221, 3624381080, 310598401, 607225278, 1426881987,
   1925078388, 2162078206, 2614888103, 3248222580, 3835390401, 4022224774,
   264347078, 604807628, 770255983, 1249150122, 1555081692, 1996064986,
   2554220882, 2821834349, 2952996808, 3210313671, 3336571891, 3584528711,
   113926993, 338241895, 666307205, 773529912, 1294757372, 1396182291,
   1695183700, 1986661051, 2177026350, 2456956037, 2730485921, 2820302411,
   3259730800, 3345764771, 3516065817, 3600352804, 4094571909, 275423344,
   430227734, 506948616, 659060556, 883997877, 958139571, 1322822218,
   1537002063, 1747873779, 1955562222, 2024104815, 2227730452, 2361852424,
   2428436474, 2756734187, 3204031479, 3329325298]

/-- The initial hash value. -/
def initial : List Nat :=
  [1779033703, 3144134277, 1013904242, 2773480762, 1359893119, 2600822924,
   528734635, 1541459225]

/-- Rotation of a 32-bit word to the right. -/
def rotr (x s : Nat) : Nat := (x >>> s) ||| ((x <<< (32 - s)) % w32)

/-- Bitwise complement of a 32-bit word. -/
def not32 (x : Nat) : Nat := x ^^^ 0xffffffff

/-- The big-endian 32-bit word at the head of a byte sequence. -/
def beWord (bs : List Byte) : Nat :=
  (bs.getD 0 0).val * 16777216 + (bs.getD 1 0).val * 65536 + (bs.getD 2 0).val * 256
    + (bs.getD 3 0).val

/-- The first `n` big-endian words of a byte sequence. -/
def words : Nat → List Byte → List Nat
  | 0, _ => []
  | n + 1, bs => beWord bs :: words n (bs.drop 4)

/-- Extends the schedule `w` (most recent word first) by `n` words. -/
def schedule : Nat → List Nat → List Nat
  | 0, w => w
  | n + 1, w =>
    let w2 := w.getD 1 0
    let w7 := w.getD 6 0
    let w15 := w.getD 14 0
    let w16 := w.getD 15 0
    let s0 := rotr w15 7 ^^^ rotr w15 18 ^^^ (w15 >>> 3)
    let s1 := rotr w2 17 ^^^ rotr w2 19 ^^^ (w2 >>> 10)
    schedule n (((w16 + s0 + w7 + s1) % w32) :: w)

/-- One of the 64 rounds, on the eight working variables, with its constant and schedule word. -/
def round (st : List Nat) (kw : Nat × Nat) : List Nat :=
  match st with
  | [a, b, c, d, e, f, g, h] =>
    let s1 := rotr e 6 ^^^ rotr e 11 ^^^ rotr e 25
    let ch := (e &&& f) ^^^ (not32 e &&& g)
    let t1 := (h + s1 + ch + kw.1 + kw.2) % w32
    let s0 := rotr a 2 ^^^ rotr a 13 ^^^ rotr a 22
    let maj := (a &&& b) ^^^ (a &&& c) ^^^ (b &&& c)
    let t2 := (s0 + maj) % w32
    [(t1 + t2) % w32, a, b, c, (d + t1) % w32, e, f, g]
  | _ => st

/-- The compression of one 64-byte block into the hash value. -/
def block (st : List Nat) (chunk : List Byte) : List Nat :=
  let w := (schedule 48 (words 16 chunk).reverse).reverse
  let r := (table.zip w).foldl round st
  List.zipWith (fun x y => (x + y) % w32) st r

/-- The compression of `n` consecutive blocks. -/
def blocks : Nat → List Nat → List Byte → List Nat
  | 0, st, _ => st
  | n + 1, st, bs => blocks n (block st bs) (bs.drop 64)

/-- The `n` low-order bytes of a number, most significant first. -/
def beBytes : Nat → Nat → List Byte
  | 0, _ => []
  | n + 1, x => beBytes n (x / 256) ++ [byte x]

/-- The message followed by the padding and the 64-bit length in bits. -/
def pad (msg : List Byte) : List Byte :=
  msg ++ [byte 0x80] ++ List.replicate ((119 - msg.length % 64) % 64) (byte 0)
    ++ beBytes 8 ((msg.length * 8) % 18446744073709551616)

/-- The 32-byte digest of the bytes written to a `sha256.New()` hasher. -/
def Sum (msg : List Byte) : List Byte :=
  let p := pad msg
  (blocks (p.length / 64) initial p).flatMap (beBytes 4)

end sha256

/-! ## strings -/

namespace strings

/-- Whether `s` begins with `p`. -/
def startsWith : GoString → GoString → Bool
  | _, [] => true
  | [], _ :: _ => false
  | a :: s, b :: p => a = b && startsWith s p

/-- The function `strings.Contains(s, substr)`: `substr` occurs at some offset of `s`. -/
def Contains : GoString → GoString → Bool
  | [], substr => startsWith [] substr
  | c :: rest, substr => startsWith (c :: rest) substr || Contains rest substr

end strings

/-! ## image/image.go, image/manager.go, image/builder.go -/

namespace image

/-- The default run configuration of an image. -/
structure RunOptions where
  WorkDir : GoString
  Env : List GoString
  Port : List GoString
  Cmd : List GoString
deriving DecidableEq

/-- The image manifest (`config.json`); `CreatedAt` is kept as a number of
nanoseconds and `RunOptions` is a pointer that may be nil. -/
structure Image where
  Tag : GoString
  ID : GoString
  CreatedAt : Int
  Layers : List GoString
  Size : Int
  Hidden : Bool
  RunOptions : Option RunOptions
deriving DecidableEq

/-- The manifests of the image store, by image ID: the decoded content of
`images/<id>/config.json`, or none when that file is missing. -/
abbrev ImageStore := GoString → Option Image

/-- The store after `config.json` of image `id` is written. -/
def ImageStore.write (store : ImageStore) (id : GoString) (img : Image) : ImageStore :=
  fun k => if k = id then some img else store k

/-- The function `normalizeTag`: a tag without `:` gets the suffix `:latest`. -/
def normalizeTag (tag : GoString) : GoString :=
  if !strings.Contains tag (str (":")) then tag ++ str (":latest") else tag

/-- The function `Get`: the manifest `util.FindBy` reads for a tag or an ID
(none is the not-found error).  `now` and `rnd` are the clock and random
reads `GenerateID` would make for an empty name. -/
def Get (store : ImageStore) (tagOrID : GoString) (now rnd : Int) : Option Image :=
  let imageID :=
    if util.IsValidID tagOrID then tagOrID
    else util.GenerateID (normalizeTag tagOrID) now rnd
  store imageID

/-- A layer added by the build: its hash and its scratch path. -/
structure layer where
  hash : GoString
  tmpPath : GoString
deriving DecidableEq

/-- The builder of an image. -/
structure Builder where
  baseImg : Image
  tag : GoString
  opts : RunOptions
  layers : List layer
deriving DecidableEq

/-- The function `NewBuilder`: options start as a copy of the base image's and
are replaced wholesale by `opts` when given; the tag is normalized. -/
def NewBuilder (baseImg : Image) (tag : GoString) (opts : Option RunOptions) : Builder :=
  let newOpts : RunOptions := ⟨[], [], [], []⟩
  let newOpts := match baseImg.RunOptions with
    | some o => o
    | none => newOpts
  let newOpts := match opts with
    | some o => o
    | none => newOpts
  { baseImg := baseImg, tag := normalizeTag tag, opts := newOpts, layers := [] }

/-- The method `Builder.createImage` on the path where every directory
operation succeeds: the manifest is written under the ID generated from the
builder's tag.  `size` is what `GetDirSize` measures when the manifest is
saved, `created` the clock read for `CreatedAt`. -/
def Builder.createImage (b : Builder) (store : ImageStore) (created size now rnd : Int) :
    ImageStore :=
  let allLayers := b.baseImg.Layers ++ b.layers.map (fun l => l.hash)
  let imageID := util.GenerateID b.tag now rnd
  let img : Image :=
    { Tag := b.tag, ID := imageID, CreatedAt := created, Layers := allLayers,
      Size := size, Hidden := false, RunOptions := some b.opts }
  store.write imageID img

/-- The function `Load` on the path where the archive extracts and the image
directory is moved into place: `archived` is the manifest inside the archive.
The manifest is rewritten with the new tag and ID unless its run options are
nil, in which case `saveConfig` fails and the archive's manifest stays. -/
def Load (store : ImageStore) (archived : Image) (tag : GoString) (size now rnd : Int) :
    Option Image × ImageStore :=
  let tag := normalizeTag tag
  let imageID := util.GenerateID tag now rnd
  let store := store.write imageID archived
  let img := { archived with Tag := tag, ID := imageID }
  match img.RunOptions with
  | none => (none, store)
  | some _ =>
    let img := { img with Size := size }
    (some img, store.write imageID img)

end image

/-- The image store with no manifest. -/
def image.emptyStore : image.ImageStore := fun _ => none

/-- A base image with one layer and default options, used in examples. -/
def image.sampleBase : image.Image :=
  { Tag := str ("alpine:latest"), ID := str ("b2c7fc0a42a1"), CreatedAt := 0,
    Layers := [str ("0123456789ab")], Size := 0, Hidden := false,
    RunOptions := some ⟨[], [], [], [str ("/bin/sh")]⟩ }

/-! ## path/filepath, sort and util/file.go -/

/-- A path at or below the root of a walk, kept as the root and the
slash-separated remainder. -/
structure Path where
  root : GoString
  rel : GoString
deriving DecidableEq

namespace filepath

/-- The path `filepath.Join(dir, rel)` of an entry below `dir`. -/
def Join (dir rel : GoString) : Path := ⟨dir, rel⟩

/-- The result of `relPath, _ := filepath.Rel(dir, path)`: the remainder of
`path` below `dir`, and the empty string (with an error that the caller
drops) when `path` is not below `dir`. -/
def Rel (dir : GoString) (path : Path) : GoString :=
  if path.root = dir then path.rel else []

end filepath

namespace sort

/-- The comparison `a < b` of Go strings: byte-wise lexicographic. -/
def stringLess : GoString → GoString → Bool
  | _, [] => false
  | [], _ :: _ => true
  | a :: s, b :: t => decide (a.val < b.val) || (decide (a = b) && stringLess s t)

/-- The result of `sort.Strings`: the strings in ascending order. -/
def Strings (x : List GoString) : List GoString :=
  List.insertionSort (fun a b => stringLess b a = false) x

end sort

namespace util

/-- One entry of the directory tree being hashed: its path relative to the
root, whether the walk reports an error for it, whether it is a directory,
and the bytes `os.Open` and `io.Copy` read from it (none when either fails). -/
structure Entry where
  name : GoString
  walkErr : Bool
  isDir : Bool
  content : Option (List Byte)
deriving DecidableEq

/-- The calls `filepath.Walk(dir, fn)` makes to `fn`, in the order of the
listing: the path, `info.IsDir()`, and whether `err` is non-nil. -/
def Walk (dir : GoString) (fs : List Entry) : List (Path × Bool × Bool) :=
  fs.map (fun e => (filepath.Join dir e.name, e.isDir, e.walkErr))

/-- The walk callback of `HashDir` run over the calls of the walk: an error
aborts the walk, a non-directory appends its relative path to `files`. -/
def walkLoop (dir : GoString) : List (Path × Bool × Bool) → List GoString → Option (List GoString)
  | [], files => some files
  | (path, isDir, err) :: rest, files =>
    if err then none
    else if !isDir then walkLoop dir rest (files ++ [filepath.Rel dir path])
    else walkLoop dir rest files

/-- The bytes read from the file at `path`: those of the entry of the tree
below `dir` with that path; none when there is no such entry, when it is a
directory, or when reading fails. -/
def readFile (dir : GoString) (fs : List Entry) (path : Path) : Option (List Byte) :=
  match fs.find? (fun e => decide (filepath.Join dir e.name = path)) with
  | some e => if e.isDir then none else e.content
  | none => none

/-- The second loop of `HashDir`: each relative path is written to the
hasher, followed by the content of the file; `written` is everything the
hasher has received.  None is the error return. -/
def hashLoop (dir : GoString) (fs : List Entry) : List GoString → List Byte → Option (List Byte)
  | [], written => some written
  | relPath :: rest, written =>
    let written := written ++ relPath
    match readFile dir fs (filepath.Join dir relPath) with
    | none => none
    | some data => hashLoop dir fs rest (written ++ data)

/-- The function `HashDir` on the directory `dir` whose tree is `fs`; none
is the error return. -/
def HashDir (dir : GoString) (fs : List Entry) : Option GoString :=
  match walkLoop dir (Walk dir fs) [] with
  | none => none
  | some files =>
    match hashLoop dir fs (sort.Strings files) [] with
    | none => none
    | some written => some ((hexEncode (sha256.Sum written)).take 12)

/-- The files of a tree: the pairs of relative path and content of its
entries that are not directories. -/
def files (fs : List Entry) : List (GoString × Option (List Byte)) :=
  (fs.filter (fun e => !e.isDir)).map (fun e => (e.name, e.content))

end util

/-- A tree with a sub-directory and two files, used in examples. -/
def util.sampleTree : List util.Entry :=
  [ ⟨str ("sub"), false, true, none⟩,
    ⟨str ("sub/b"), false, false, some (str ("x"))⟩,
    ⟨str ("a.txt"), false, false, some (str ("hello"))⟩ ]

/-- The same files as `sampleTree`, visited in another order, with an
additional empty directory. -/
def util.sampleTree2 : List util.Entry :=
  [ ⟨str ("a.txt"), false, false, some (str ("hello"))⟩,
    ⟨str ("empty"), false, true, none⟩,
    ⟨str ("sub"), false, true, none⟩,
    ⟨str ("sub/b"), false, false, some (str ("x"))⟩ ]

/-! ## net, net/netip and fmt: IPv4 addresses and CIDR text

Only IPv4 is modelled: an address (`net.IP`) is the 32-bit value that
`binary.BigEndian.Uint32` reads from its four bytes, a natural number; the nil
`net.IP` is `none`.  Text for which Go would build an IPv6 address does not
parse here.  (The
repository itself handles IPv4 only: `setRange` reads `network.IP.To4()`.) -/

namespace net

/-- The modulus of `uint32` arithmetic. -/
def u32 : Nat := 4294967296

/-- The network of a parsed CIDR (`net.IPNet`): the masked address and the
prefix length of the mask `CIDRMask(ones, 32)`. -/
structure IPNet where
  IP : Nat
  ones : Nat
deriving DecidableEq

/-- The state of the loop of `netip.parseIPv4Fields`: the value and the
number of digits of the current octet, the index of the current field, the
fields stored so far, and the previous byte `s[i-1]` (none when `i == 0`). -/
structure V4State where
  val : Nat
  pos : Nat
  digLen : Nat
  fields : List Nat
  prev : Option Byte
deriving DecidableEq

/-- One iteration of the loop of `parseIPv4Fields` on the byte `c`; `last`
says whether `i == len(s)-1`.  None is an error return. -/
def v4Step (st : V4State) (c : Byte) (last : Bool) : Option V4State :=
  if 48 ≤ c.val ∧ c.val ≤ 57 then
    if st.digLen = 1 ∧ st.val = 0 then none
    else
      let val := st.val * 10 + c.val - 48
      if val > 255 then none
      else some { st with val := val, digLen := st.digLen + 1, prev := some c }
  else if c = byte 46 then
    if st.prev = none ∨ last = true ∨ st.prev = some (byte 46) then none
    else if st.pos = 3 then none
    else some { val := 0, pos := st.pos + 1, digLen := 0,
                fields := st.fields ++ [st.val], prev := some c }
  else none

/-- The loop of `parseIPv4Fields` over the rest of the string. -/
def v4Loop : V4State → List Byte → Option V4State
  | st, [] => some st
  | st, c :: rest =>
    match v4Step st c rest.isEmpty with
    | none => none
    | some st2 => v4Loop st2 rest

/-- The four fields `netip.parseIPv4Fields` stores for a dotted-decimal
address, or none on an error. -/
def parseIPv4Fields (s : GoString) : Option (List Nat) :=
  match v4Loop ⟨0, 0, 0, [], none⟩ s with
  | none => none
  | some st => if st.pos < 3 then none else some (st.fields ++ [st.val])

/-- The value of a four-byte address (`binary.BigEndian.Uint32`). -/
def Uint32 (fields : List Nat) : Nat :=
  fields.getD 0 0 * 16777216 + fields.getD 1 0 * 65536 + fields.getD 2 0 * 256
    + fields.getD 3 0

/-- The function `netip.ParseAddr`, for IPv4: the text is scanned for the
first of `.`, `:` and `%`; a `.` selects the IPv4 parser.  A `:` selects the
IPv6 parser of Go, which is not modelled: such text does not parse here. -/
def ParseAddr (s : GoString) : Option Nat :=
  match s.find? (fun c => c = byte 46 || c = byte 58 || c = byte 37) with
  | some c => if c = byte 46 then (parseIPv4Fields s).map Uint32 else none
  | none => none

/-- The loop of `dtoi` of package net: decimal to integer, giving the number,
the count of characters consumed, and success; a number of `0xFFFFFF` or
more is an overflow. -/
def dtoiLoop : Nat → Nat → List Byte → Nat × Nat × Bool
  | n, i, [] => if i = 0 then (0, 0, false) else (n, i, true)
  | n, i, c :: rest =>
    if 48 ≤ c.val ∧ c.val ≤ 57 then
      let n2 := n * 10 + (c.val - 48)
      if n2 ≥ 0xFFFFFF then (0xFFFFFF, i, false) else dtoiLoop n2 (i + 1) rest
    else if i = 0 then (0, 0, false) else (n, i, true)

/-- The function `dtoi`. -/
def dtoi (s : GoString) : Nat × Nat × Bool := dtoiLoop 0 0 s

/-- The text before and after the first occurrence of the byte `c`
(`bytealg.IndexByteString` followed by the two slices), none when `c` is absent. -/
def cutByte (c : Byte) : GoString → Option (GoString × GoString)
  | [] => none
  | x :: rest =>
    if x = c then some ([], rest)
    else match cutByte c rest with
      | none => none
      | some (a, b) => some (x :: a, b)

/-- The address with only its top `ones` bits kept (`IP.Mask(CIDRMask(ones, 32))`). -/
def maskIP (ip : Nat) (ones : Nat) : Nat := ip / 2 ^ (32 - ones) * 2 ^ (32 - ones)

/-- The function `net.ParseCIDR`, for IPv4 text `a.b.c.d/n`: the address and
the network; none is the error return. -/
def ParseCIDR (s : GoString) : Option (Nat × IPNet) :=
  match cutByte (byte 47) s with
  | none => none
  | some (addr, mask) =>
    match ParseAddr addr with
    | none => none
    | some ipAddr =>
      let (n, i, ok) := dtoi mask
      if !ok || i ≠ mask.length || n > 32 then none
      else some (ipAddr, ⟨maskIP ipAddr n, n⟩)

/-- The function `netip.appendDecimal`: the decimal digits of a byte,
appended to `b`. -/
def appendDecimal (b : GoString) (x : Nat) : GoString :=
  let b := if x ≥ 100 then b ++ [byte (48 + x / 100)] else b
  let b := if x ≥ 10 then b ++ [byte (48 + x / 10 % 10)] else b
  b ++ [byte (48 + x % 10)]

/-- The method `IP.String()` of an IPv4 address: dotted decimal. -/
def IP.String (ip : Nat) : GoString :=
  let b := appendDecimal [] (ip / 16777216 % 256)
  let b := appendDecimal (b ++ [byte 46]) (ip / 65536 % 256)
  let b := appendDecimal (b ++ [byte 46]) (ip / 256 % 256)
  appendDecimal (b ++ [byte 46]) (ip % 256)

/-- The digit loop of `fmt.fmtInteger` in base 10; twenty rounds are enough
for any 64-bit value. -/
def fmtDecLoop : Nat → Nat → GoString → GoString
  | 0, _, acc => acc
  | fuel + 1, u, acc =>
    if 10 ≤ u then fmtDecLoop fuel (u / 10) (byte (48 + u % 10) :: acc)
    else byte (48 + u) :: acc

/-- The text of the verb `%d` for a non-negative integer. -/
def sprintfD (u : Nat) : GoString := fmtDecLoop 20 u []

/-! ## net/ip_manager.go -/

/-- The allocator of a network.  `mask` is the prefix length of the IPv4 mask
taken from the CIDR, none while the mask is nil; `rangeMin` and `rangeMax` are
`uint32`. -/
structure IPManager where
  CIDR : GoString
  Range : GoString
  Gateway : GoString
  Allocated : List GoString
  mask : Option Nat
  rangeMin : Nat
  rangeMax : Nat
deriving DecidableEq

/-- The result `ones, bits := mask.Size()`; a nil mask gives `0, 0`. -/
def maskSize (mask : Option Nat) : Nat × Nat :=
  match mask with
  | none => (0, 0)
  | some ones => (ones, 32)

/-- The function `uint32ToIP`. -/
def uint32ToIP (ipValue : Nat) : Nat := ipValue % u32

/-- The method `setRange`: first and last host address of `network`, in
`uint32` arithmetic. -/
def IPManager.setRange (m : IPManager) (network : IPNet) : IPManager :=
  let networkIP := network.IP
  let (ones, bits) := maskSize (some network.ones)
  let broadcast := networkIP ||| (((1 <<< (bits - ones)) % u32 + u32 - 1) % u32)
  { m with rangeMin := (networkIP + 1) % u32, rangeMax := (broadcast + u32 - 1) % u32 }

/-- The method `init`; none is an error return. -/
def IPManager.init (m : IPManager) : Option IPManager :=
  match ParseCIDR m.CIDR with
  | none => none
  | some (_, network) =>
    let m := { m with mask := some network.ones }
    let m := m.setRange network
    if m.Range ≠ [] then
      match ParseCIDR m.Range with
      | none => none
      | some (_, rangeNet) => some (m.setRange rangeNet)
    else some m

/-- The function `newIPManager`; none is an error return. -/
def newIPManager (cidr ipRange gateway : GoString) : Option IPManager :=
  IPManager.init
    { CIDR := cidr, Range := ipRange, Gateway := gateway, Allocated := [],
      mask := none, rangeMin := 0, rangeMax := 0 }

/-- The method `GatewayIP`: the address of the configured gateway (nil when
it does not parse as a CIDR), or the network address plus one when no gateway
is configured.  In that second case the Go code dereferences the network of
`m.CIDR` without a check; after `init` that parse has succeeded. -/
def IPManager.GatewayIP (m : IPManager) : Option Nat :=
  if m.Gateway ≠ [] then
    match ParseCIDR m.Gateway with
    | some (ip, _) => some ip
    | none => none
  else
    match ParseCIDR m.CIDR with
    | some (_, network) => some (uint32ToIP (network.IP + 1))
    | none => none

/-- The loop of `usedIPs` over the allocated list: the keys set to true. -/
def usedLoop : List GoString → List GoString
  | [] => []
  | cidr :: rest =>
    match ParseCIDR cidr with
    | some (ip, _) => IP.String ip :: usedLoop rest
    | none => usedLoop rest

/-- The method `usedIPs`: the keys of the map it builds. -/
def IPManager.usedIPs (m : IPManager) : List GoString :=
  let used := usedLoop m.Allocated
  match m.GatewayIP with
  | some gw => used ++ [IP.String gw]
  | none => used

/-- The method `toCIDR`. -/
def IPManager.toCIDR (m : IPManager) (ip : Nat) : GoString :=
  let (ones, _) := maskSize m.mask
  IP.String ip ++ [byte 47] ++ sprintfD ones

/-- The loop of `Allocate` from the counter value `i`: the first address
that is not a key of `used`; `some none` when the loop ends without one, and
none when `fuel` iterations do not finish it.  The counter is a `uint32`, so
`i++` wraps. -/
def allocLoop (used : List GoString) (rangeMax : Nat) : Nat → Nat → Option (Option Nat)
  | 0, _ => none
  | fuel + 1, i =>
    if i ≤ rangeMax then
      if !used.contains (IP.String (uint32ToIP i)) then some (some i)
      else allocLoop used rangeMax fuel ((i + 1) % u32)
    else some none

/-- The method `Allocate`: the returned CIDR (none for the error
`no available IP in range`) and the state afterwards.  The outer none stands
for a call that does not return: the loop visits each of the `2^32` counter
values at most once before it repeats itself. -/
def IPManager.Allocate (m : IPManager) : Option (Option GoString × IPManager) :=
  let used := m.usedIPs
  match allocLoop used m.rangeMax 4294967296 m.rangeMin with
  | none => none
  | some none => some (none, m)
  | some (some i) =>
    let ip := uint32ToIP i
    let cidr := m.toCIDR ip
    some (some cidr, { m with Allocated := m.Allocated ++ [cidr] })

/-- The loop of `Release`: the list without the first entry equal to `cidr`. -/
def releaseLoop (cidr : GoString) : List GoString → List GoString
  | [] => []
  | v :: rest => if v = cidr then rest else v :: releaseLoop cidr rest

/-- The method `Release`. -/
def IPManager.Release (m : IPManager) (cidr : GoString) : IPManager :=
  { m with Allocated := releaseLoop cidr m.Allocated }

/-- A run of `n` calls of `Allocate` that all succeed: the returned CIDRs in
order and the final state; none when one of the calls fails or does not
return. -/
def allocateSeq : Nat → IPManager → Option (List GoString × IPManager)
  | 0, m => some ([], m)
  | n + 1, m =>
    match m.Allocate with
    | some (some cidr, m2) =>
      match allocateSeq n m2 with
      | some (rs, mf) => some (cidr :: rs, mf)
      | none => none
    | _ => none

end net

/-- The bytes that are decimal digits. -/
def IsDigit (c : Byte) : Prop := 48 ≤ c.val ∧ c.val ≤ 57

namespace net

/-- The addresses of the entries of an allocated list: those of the entries
that parse as a CIDR, in order. -/
def entryAddrs (l : List GoString) : List Nat :=
  l.filterMap (fun e => (ParseCIDR e).map Prod.fst)

/-- An address is used when it is the address of an entry of the allocated
list or the gateway address. -/
def IPManager.IsUsed (m : IPManager) (a : Nat) : Prop :=
  a ∈ entryAddrs m.Allocated ∨ m.GatewayIP = some a

end net

/-- The invariant of the IPv4 field loop. -/
def V4Inv (st : net.V4State) : Prop :=
  st.val ≤ 255 ∧ (∀ f ∈ st.fields, f ≤ 255) ∧ st.fields.length = st.pos ∧ st.pos ≤ 3

/-- The allocator of the network `10.0.0.0/24` with gateway `10.0.0.1/24`
after `init`, with nothing allocated. -/
def net.sampleManager : net.IPManager :=
  { CIDR := str ("10.0.0.0/24"), Range := [], Gateway := str ("10.0.0.1/24"), Allocated := [],
    mask := some 24, rangeMin := 167772161, rangeMax := 167772414 }

/-- The address `a` is the smallest address of the window of `m` that is
not used. -/
def IsLeastFree (m : net.IPManager) (a : Nat) : Prop :=
  m.rangeMin ≤ a ∧ a ≤ m.rangeMax ∧ ¬ m.IsUsed a
    ∧ ∀ j, m.rangeMin ≤ j → j < a → m.IsUsed j

/-- The invariant of a run of allocations on a network with prefix length
`p`, window `lo .. hi` and gateway address `g`: the state has that mask,
window and gateway, the counter cannot wrap, the allocated entries are
pairwise distinct, each parses, and their addresses are pairwise distinct,
inside the window and different from the gateway. -/
def SeqInv (p lo hi g : Nat) (m : net.IPManager) : Prop :=
  m.mask = some p ∧ p ≤ 32 ∧ m.rangeMin = lo ∧ m.rangeMax = hi ∧ lo < 4294967296
    ∧ hi < 4294967295 ∧ m.GatewayIP = some g ∧ m.Allocated.Nodup ∧ (net.entryAddrs m.Allocated).Nodup
    ∧ (net.entryAddrs m.Allocated).length = m.Allocated.length
    ∧ ∀ a ∈ net.entryAddrs m.Allocated, lo ≤ a ∧ a ≤ hi ∧ a ≠ g

/-- The allocator of the network `10.0.0.0/24` with the sub-range
`192.168.0.0/24`, which is not part of the network, after `init`. -/
def net.strayRangeManager : net.IPManager :=
  { CIDR := str ("10.0.0.0/24"), Range := str ("192.168.0.0/24"),
    Gateway := str ("10.0.0.1/24"), Allocated := [], mask := some 24,
    rangeMin := 3232235521, rangeMax := 3232235774 }

/-- The configuration of the network `10.0.0.0/24` with the sub-range
`10.0.0.128/25`, before `init`. -/
def net.halfRangeConfig : net.IPManager :=
  { CIDR := str ("10.0.0.0/24"), Range := str ("10.0.0.128/25"),
    Gateway := str ("10.0.0.1/24"), Allocated := [], mask := none,
    rangeMin := 0, rangeMax := 0 }

/-- The allocator of `halfRangeConfig` after `init`. -/
def net.halfRangeManager : net.IPManager :=
  { net.halfRangeConfig with mask := some 24, rangeMin := 167772289, rangeMax := 167772414 }

/-- The configuration of the network `10.0.0.0/30` with gateway `10.0.0.1/30`
and the one entry `10.0.0.2/30`, before `init`. -/
def net.fullConfig : net.IPManager :=
  { CIDR := str ("10.0.0.0/30"), Range := [], Gateway := str ("10.0.0.1/30"),
    Allocated := [str ("10.0.0.2/30")], mask := none, rangeMin := 0, rangeMax := 0 }

/-- The allocator of `fullConfig` after `init`: its window `10.0.0.1 ..
10.0.0.2` is used up. -/
def net.fullManager : net.IPManager :=
  { net.fullConfig with mask := some 30, rangeMin := 167772161, rangeMax := 167772162 }

/-- The byte stream `HashDir` has written to the hasher when it calls
`h.Sum`: the relative paths in sorted order, each followed by the content
of its file; none is the error return. -/
def util.hashInput (dir : GoString) (fs : List util.Entry) : Option (List Byte) :=
  match util.walkLoop dir (util.Walk dir fs) [] with
  | none => none
  | some files => util.hashLoop dir fs (sort.Strings files) []

/-- The concatenation of each path of a list followed by the bytes `g`
gives for it. -/
def util.pathStream (g : GoString → List Byte) : List GoString → List Byte
  | [] => []
  | n :: rest => n ++ (g n ++ util.pathStream g rest)

/-- A tree with the single file `a` of content `b`. -/
def util.treeA : List util.Entry := [⟨str ("a"), false, false, some (str ("b"))⟩]

/-- A tree with the single, empty file `ab`. -/
def util.treeAB : List util.Entry := [⟨str ("ab"), false, false, some []⟩]

/-- The tree `treeA` with a second file `n` added. -/
def util.treeAN : List util.Entry :=
  [⟨str ("a"), false, false, some (str ("b"))⟩, ⟨str ("n"), false, false, some (str ("x"))⟩]

/-- The tree `treeA` with the content of its file changed. -/
def util.treeA2 : List util.Entry := [⟨str ("a"), false, false, some (str ("cd"))⟩]

/-! ## syscall, time -/

namespace syscall

/-- The signal number of `SIGKILL`. -/
def SIGKILL : Nat := 9

/-- The signal number of `SIGTERM`. -/
def SIGTERM : Nat := 15

end syscall

/-- The value an `int64` holds after arithmetic whose exact result is `x`. -/
def int64Wrap (x : Int) : Int := (x + 9223372036854775808) % 18446744073709551616 - 9223372036854775808

/-! ## container/container.go, container/manager.go -/

set_option linter.dupNamespace false

namespace container

/-- The constant `StatusRunning`. -/
def StatusRunning : GoString := str ("running")

/-- The constant `StatusExited`. -/
def StatusExited : GoString := str ("exited")

/-- The run configuration of a container.  Maps are kept as lists of pairs;
the field `CPUs`, a float that none of the functions below reads, is left
out. -/
structure RunOptions where
  Interactive : Bool
  AutoRemove : Bool
  Volume : List (GoString × GoString)
  Ports : List (GoString × GoString)
  Network : GoString
  WorkDir : GoString
  Env : List GoString
  Cmd : List GoString
  Memory : Nat
deriving DecidableEq

/-- The container manifest (`config.json`); `CreatedAt` is kept as a number
of nanoseconds, `Status` is the string type of the source. -/
structure container where
  ID : GoString
  Name : GoString
  ImageTag : GoString
  CreatedAt : Int
  PID : Int
  Status : GoString
  RunOptions : RunOptions
deriving DecidableEq

/-- The manifests of the container store, by container ID: the decoded
content of `containers/<id>/config.json`, or none when that file is missing
or does not decode. -/
abbrev Store := GoString → Option container

/-- The store after `config.json` of container `id` is written. -/
def Store.write (store : Store) (id : GoString) (c : container) : Store :=
  fun k => if k = id then some c else store k

/-- The store after the directory of container `id` is removed. -/
def Store.remove (store : Store) (id : GoString) : Store :=
  fun k => if k = id then none else store k

/-- What the host answers to the calls made during one operation: the clock
and random reads of `GenerateID`, the clock read for `CreatedAt`, whether
each fallible step succeeds, the PID of the spawned child, whether the first
signal-0 probe of `stop` finds the process, the successive readings of
`time.Now()` in `waitProcessExit` (nanoseconds), and whether each probe of
its loop reports the process gone. -/
structure Host where
  now : Int
  rnd : Int
  created : Int
  layersOk : Bool
  rootfsOk : Bool
  saveOk : Bool
  prepareOk : Bool
  startOk : Bool
  pid : Int
  limitOk : Bool
  volumeOk : Bool
  connectOk : Bool
  portsOk : Bool
  unmountOk : Bool
  removeAllOk : Bool
  alive : Bool
  clock : List Int
  gone : List Bool

/-- The outcome of a method of a container: whether it returns an error, the
record and the store afterwards, and the calls of `syscall.Kill` it made, in
order, as pairs of PID and signal. -/
structure Result where
  err : Bool
  c : container
  store : Store
  kills : List (Int × Nat)

/-- The method `saveConfig`: the store afterwards and whether an error is
returned. -/
def container.saveConfig (c : container) (store : Store) (host : Host) : Store × Bool :=
  if host.saveOk then (store.write c.ID c, false) else (store, true)

/-- The function `newContainer`: none is the error return. -/
def newContainer (name imageTag : GoString) (opts : RunOptions) (store : Store) (host : Host) :
    Option container × Store :=
  let id := util.GenerateID name host.now host.rnd
  let c : container :=
    { Name := name, ID := id, ImageTag := imageTag, CreatedAt := host.created, PID := 0,
      Status := StatusExited, RunOptions := opts }
  if !host.layersOk then (none, store)
  else if !host.rootfsOk then (none, store)
  else
    match c.saveConfig store host with
    | (store, true) => (none, store)
    | (store, false) => (some c, store)

/-- The method `killAndReset`: the record afterwards and the signal sent. -/
def container.killAndReset (c : container) : container × List (Int × Nat) :=
  ({ c with Status := StatusExited, PID := 0 }, [(c.PID, syscall.SIGKILL)])

/-- The method `setupResources`: whether it returns an error, and the record
afterwards (an empty network name is replaced by the default one before the
network is connected). -/
def container.setupResources (c : container) (host : Host) : Bool × container :=
  if !host.limitOk then (true, c)
  else if c.RunOptions.Volume ≠ [] ∧ !host.volumeOk then (true, c)
  else
    let c := if c.RunOptions.Network = [] then
        { c with RunOptions := { c.RunOptions with Network := str ("ducker") } }
      else c
    if !host.connectOk then (true, c)
    else if c.RunOptions.Ports.length > 0 ∧ !host.portsOk then (true, c)
    else (false, c)

/-- The method `remove`: the store afterwards and whether an error is
returned. -/
def container.remove (c : container) (store : Store) (host : Host) : Store × Bool :=
  if c.Status = StatusRunning then (store, true)
  else if !host.unmountOk then (store, true)
  else if !host.removeAllOk then (store, true)
  else (store.remove c.ID, false)

/-- The method `waitAndCleanup`, after `cmd.Wait()` has returned. -/
def container.waitAndCleanup (c : container) (store : Store) (host : Host) :
    container × Store :=
  let c := { c with Status := StatusExited, PID := 0 }
  let store := (c.saveConfig store host).1
  if c.RunOptions.AutoRemove then (c, (c.remove store host).1) else (c, store)

/-- The method `start`. -/
def container.start (c : container) (store : Store) (host : Host) : Result :=
  if c.Status = StatusRunning then ⟨true, c, store, []⟩
  else if !host.prepareOk then ⟨true, c, store, []⟩
  else if !host.startOk then ⟨true, c, store, []⟩
  else
    let c := { c with PID := host.pid, Status := StatusRunning }
    match c.setupResources host with
    | (true, c) => ⟨true, c.killAndReset.1, store, c.killAndReset.2⟩
    | (false, c) =>
      let store := (c.saveConfig store host).1
      if c.RunOptions.Interactive then
        ⟨false, (c.waitAndCleanup store host).1, (c.waitAndCleanup store host).2, []⟩
      else ⟨false, c, store, []⟩

/-- The loop of `waitProcessExit`: each round reads the clock and, before the
deadline, probes the process with signal 0.  The result is the return value
and the probes made; none when the readings end before the loop returns. -/
def waitLoop (pid deadline : Int) : List Int → List Bool → Option (Bool × List (Int × Nat))
  | [], _ => none
  | t :: clock, gone =>
    if t < deadline then
      match gone with
      | [] => none
      | g :: gone =>
        if g then some (true, [(pid, 0)])
        else (waitLoop pid deadline clock gone).map (fun r => (r.1, (pid, 0) :: r.2))
    else some (false, [])

/-- The method `waitProcessExit`: whether it returns true, and the probes it
made. -/
def container.waitProcessExit (c : container) (timeoutSec : Int) (host : Host) :
    Option (Bool × List (Int × Nat)) :=
  if timeoutSec ≤ 0 then some (true, [])
  else
    match host.clock with
    | [] => none
    | t :: clock => waitLoop c.PID (t + int64Wrap (timeoutSec * 1000000000)) clock host.gone

/-- The method `stop`; none when the wait loop does not return within the
readings of the host. -/
def container.stop (c : container) (timeoutSec : Int) (store : Store) (host : Host) :
    Option Result :=
  if c.Status ≠ StatusRunning then some ⟨true, c, store, []⟩
  else
    let kills : Option (List (Int × Nat)) :=
      if 0 < c.PID then
        if host.alive then
          match c.waitProcessExit timeoutSec host with
          | none => none
          | some (exited, probes) =>
            some ([(c.PID, 0), (c.PID, syscall.SIGTERM)] ++ probes
              ++ (if !exited then [(c.PID, syscall.SIGKILL)] else []))
        else some [(c.PID, 0)]
      else some []
    kills.map (fun kills =>
      let c := { c with Status := StatusExited, PID := 0 }
      ⟨(c.saveConfig store host).2, c, (c.saveConfig store host).1, kills⟩)

/-- The function `Get`: none is the not-found error.  `now` and `rnd` are the
clock and random reads `GenerateID` would make for an empty name. -/
def Get (store : Store) (nameOrID : GoString) (now rnd : Int) : Option container :=
  let containerID :=
    if util.IsValidID nameOrID then nameOrID else util.GenerateID nameOrID now rnd
  match store containerID with
  | none => none
  | some cont =>
    if !util.IsValidID nameOrID && decide (cont.Name ≠ nameOrID) then none else some cont

/-- The three errors of `Run`. -/
inductive RunError where
  | alreadyExists
  | create
  | run
deriving DecidableEq

/-- The function `Run`: the error returned, if any, the container returned,
the store afterwards and the signals sent. -/
def Run (store : Store) (name imageTag : GoString) (opts : RunOptions) (host : Host) :
    Option RunError × Option container × Store × List (Int × Nat) :=
  if name ≠ [] ∧ (Get store name host.now host.rnd).isSome then
    (some RunError.alreadyExists, none, store, [])
  else
    match newContainer name imageTag opts store host with
    | (none, store) => (some RunError.create, none, store, [])
    | (some cont, store) =>
      let r := cont.start store host
      if r.err then (some RunError.run, none, r.store, r.kills)
      else (none, some r.c, r.store, r.kills)

/-- The body of the loop of `Rm` for one target: a running container is
stopped with timeout 0 when `force` is set, then removed.  The result is
whether an error is returned, the store afterwards and the signals sent. -/
def rmTarget (store : Store) (target : GoString) (force : Bool) (host : Host) :
    Option (Bool × Store × List (Int × Nat)) :=
  match Get store target host.now host.rnd with
  | none => some (true, store, [])
  | some cont =>
    if cont.Status = StatusRunning then
      if !force then some (true, store, [])
      else
        match cont.stop 0 store host with
        | none => none
        | some r =>
          if r.err then some (true, r.store, r.kills)
          else some ((r.c.remove r.store host).2, (r.c.remove r.store host).1, r.kills)
    else some ((cont.remove store host).2, (cont.remove store host).1, [])

/-- The invariant of a record: the PID is non-zero exactly when the status
is running. -/
def PidInv (c : container) : Prop := c.PID ≠ 0 ↔ c.Status = StatusRunning

instance (c : container) : Decidable (PidInv c) := by
  unfold PidInv
  exact inferInstance


/-- Run options of a detached container without volumes or ports. -/
def sampleOpts : RunOptions :=
  { Interactive := false, AutoRemove := false, Volume := [], Ports := [], Network := [],
    WorkDir := [], Env := [], Cmd := [str ("/bin/sh")], Memory := 0 }

/-- A host on which every step succeeds; the spawned child has PID `pid`, the
process answers the probes of `stop` as alive, and the clock advances by
100 ms per reading from `created`. -/
def sampleHost (created pid : Int) : Host :=
  { now := created, rnd := 7, created := created, layersOk := true, rootfsOk := true,
    saveOk := true, prepareOk := true, startOk := true, pid := pid, limitOk := true,
    volumeOk := true, connectOk := true, portsOk := true, unmountOk := true,
    removeAllOk := true, alive := true,
    clock := (List.range 40).map (fun k => created + 100000000 * (k : Int)),
    gone := List.replicate 40 false }

/-- The container store with no manifest. -/
def emptyStore : Store := fun _ => none

/-- The store after `run --name abcdef012345` on an empty store. -/
def hexNameStore : Store :=
  (Run emptyStore (str ("abcdef012345")) (str ("alpine")) sampleOpts
    (sampleHost 1000 4242)).2.2.1

/-- The store after `run --name web` on an empty store. -/
def webStore : Store :=
  (Run emptyStore (str ("web")) (str ("alpine")) sampleOpts
    (sampleHost 1000 4242)).2.2.1

/-- A running container with PID 4242. -/
def sampleRunning : container :=
  { ID := str ("2567a5ec9705"), Name := str ("web"), ImageTag := str ("alpine"),
    CreatedAt := 1000, PID := 4242, Status := StatusRunning,
    RunOptions := sampleOpts }

end container

/-! ## net/bridge_driver.go, net/manager.go -/

namespace net

/-- The lookup `v, ok := m[k]` in a Go map kept as a list of pairs with
distinct keys. -/
def mapGet (m : List (GoString × GoString)) (k : GoString) : Option GoString :=
  (m.find? (fun p => decide (p.1 = k))).map (fun p => p.2)

/-- The assignment `m[k] = v`. -/
def mapSet (m : List (GoString × GoString)) (k v : GoString) : List (GoString × GoString) :=
  if (mapGet m k).isSome then m.map (fun p => if p.1 = k then (k, v) else p)
  else m ++ [(k, v)]

/-- The statement `delete(m, k)`. -/
def mapDelete (m : List (GoString × GoString)) (k : GoString) : List (GoString × GoString) :=
  m.filter (fun p => decide (p.1 ≠ k))

/-- The network driver: the exported fields of the manifest and the keys of
the in-memory map `veths`. -/
structure BridgeDriver where
  ID : GoString
  Name : GoString
  IPM : IPManager
  ContainerIPs : List (GoString × GoString)
  veths : List GoString
deriving DecidableEq

/-- What the host answers to the netlink and file calls of one operation:
whether each fallible step succeeds.  `linkAddOk` is about failures of
`LinkAdd` other than a name that is taken. -/
structure NetHost where
  linkAddOk : Bool
  setMasterOk : Bool
  setUpOk : Bool
  setNsOk : Bool
  nsSetupOk : Bool
  saveOk : Bool

/-- How a call ends: it returns nil, returns an error, or panics. -/
inductive Outcome where
  | ok
  | error
  | panic
deriving DecidableEq

/-- The outcome of a method of the driver: how it ends, the driver in memory
and the names of the links of the host namespace afterwards, and whether
`saveConfig` has written the driver to its manifest. -/
structure DriverResult where
  out : Outcome
  d : BridgeDriver
  links : List GoString
  saved : Bool
deriving DecidableEq

/-- The slice expression `containerID[:6]`; none is the run-time panic for a
string shorter than six bytes. -/
def short (containerID : GoString) : Option GoString :=
  if containerID.length < 6 then none else some (containerID.take 6)

/-- The links left when `netlink.LinkDel` deletes the veth end `name`: the
peer end goes with it. -/
def linkDel (links : List GoString) (name peer : GoString) : List GoString :=
  links.filter (fun l => decide (l ≠ name ∧ l ≠ peer))

/-- The method `connect` (with `createVethPair`, `attachToBridge` and
`configureContainer` in line); none when `Allocate` does not return. -/
def BridgeDriver.connect (d : BridgeDriver) (links : List GoString) (containerID : GoString)
    (host : NetHost) : Option DriverResult :=
  match short containerID with
  | none => some ⟨Outcome.panic, d, links, false⟩
  | some sh =>
    let vethName := str ("veth-") ++ sh
    let peerName := str ("ceth-") ++ sh
    if vethName ∈ links ∨ peerName ∈ links ∨ !host.linkAddOk then
      some ⟨Outcome.error, d, links, false⟩
    else
      let links := links ++ [vethName, peerName]
      let d := { d with veths := d.veths ++ [containerID] }
      if vethName ∉ links then some ⟨Outcome.error, d, links, false⟩
      else if !host.setMasterOk then some ⟨Outcome.error, d, links, false⟩
      else if !host.setUpOk then some ⟨Outcome.error, d, links, false⟩
      else if peerName ∉ links then some ⟨Outcome.error, d, links, false⟩
      else
        match d.IPM.Allocate with
        | none => none
        | some (none, _) => some ⟨Outcome.error, d, links, false⟩
        | some (some ipCIDR, ipm) =>
          let d := { d with IPM := ipm,
                            ContainerIPs := mapSet d.ContainerIPs containerID ipCIDR }
          if !host.setNsOk then some ⟨Outcome.error, d, links, false⟩
          else
            let links := links.filter (fun l => decide (l ≠ peerName))
            if !host.nsSetupOk then some ⟨Outcome.error, d, links, false⟩
            else if !host.saveOk then some ⟨Outcome.error, d, links, false⟩
            else some ⟨Outcome.ok, d, links, true⟩

/-- The method `disconnect`. -/
def BridgeDriver.disconnect (d : BridgeDriver) (links : List GoString)
    (containerID : GoString) (host : NetHost) : DriverResult :=
  match short containerID with
  | none => ⟨Outcome.panic, d, links, false⟩
  | some sh =>
    let vethName := str ("veth-") ++ sh
    let links := if vethName ∈ links then linkDel links vethName (str ("ceth-") ++ sh) else links
    let d := { d with veths := d.veths.filter (fun k => decide (k ≠ containerID)) }
    let d := match mapGet d.ContainerIPs containerID with
      | some ipCIDR =>
        { d with IPM := d.IPM.Release ipCIDR,
                 ContainerIPs := mapDelete d.ContainerIPs containerID }
      | none => d
    if !host.saveOk then ⟨Outcome.error, d, links, false⟩ else ⟨Outcome.ok, d, links, true⟩

/-- The manifests of the network store, by network ID. -/
abbrev NetStore := GoString → Option BridgeDriver

/-- The state the operations on networks share: the manifests on disk and
the names of the links of the host namespace. -/
structure World where
  store : NetStore
  links : List GoString

/-- What `saveConfig` writes: the exported fields. -/
def BridgeDriver.persisted (d : BridgeDriver) : BridgeDriver :=
  { d with veths := [], IPM := { d.IPM with mask := none, rangeMin := 0, rangeMax := 0 } }

/-- The world after a method of the driver has run. -/
def World.after (w : World) (r : DriverResult) : World :=
  { store := if r.saved then fun k => if k = r.d.ID then some r.d.persisted else w.store k
             else w.store,
    links := r.links }

/-- The function `get`: the driver read from its manifest, with the
allocator initialised; none is an error return. -/
def get (store : NetStore) (nameOrID : GoString) (now rnd : Int) : Option BridgeDriver :=
  if nameOrID = [] then none
  else
    let networkID :=
      if util.IsValidID nameOrID then nameOrID else util.GenerateID nameOrID now rnd
    match store networkID with
    | none => none
    | some driver =>
      match driver.IPM.init with
      | none => none
      | some ipm => some { driver with IPM := ipm, veths := [] }

/-- The function `Connect`; none when `Allocate` does not return. -/
def Connect (w : World) (networkName containerID : GoString) (host : NetHost) :
    Option (Outcome × World) :=
  match get w.store networkName 0 0 with
  | none => some (Outcome.error, w)
  | some driver =>
    (driver.connect w.links containerID host).map (fun r => (r.out, w.after r))

/-- The function `Disconnect`. -/
def Disconnect (w : World) (networkName containerID : GoString) (host : NetHost) :
    Outcome × World :=
  match get w.store networkName 0 0 with
  | none => (Outcome.error, w)
  | some driver =>
    ((driver.disconnect w.links containerID host).out,
      w.after (driver.disconnect w.links containerID host))

/-- The function `Create` on the path where the directory, the bridge and
the NAT rules are set up: the manifest of the new network is written unless
a network of that name exists or the allocator rejects the configuration. -/
def Create (w : World) (name subnet gateway ipRange : GoString) : Outcome × World :=
  if (get w.store name 0 0).isSome then (Outcome.error, w)
  else
    match newIPManager subnet ipRange gateway with
    | none => (Outcome.error, w)
    | some ipm =>
      let d : BridgeDriver :=
        { ID := util.GenerateID name 0 0, Name := name, IPM := ipm, ContainerIPs := [],
          veths := [] }
      (Outcome.ok, { w with store := fun k => if k = d.ID then some d.persisted else w.store k })

/-- A host on which every step succeeds. -/
def okHost : NetHost := ⟨true, true, true, true, true, true⟩

/-- The world with the network `ducker` of the default subnet and no
container link. -/
def newWorld : World :=
  (Create ⟨fun _ => none, []⟩ (str ("ducker")) (str ("172.18.0.0/16")) (str ("172.18.0.1/16"))
    []).2

/-- The allocated list and the container addresses in the manifest of the
network `ducker`. -/
def World.lists (w : World) : Option (List GoString × List (GoString × GoString)) :=
  (w.store (util.GenerateID (str ("ducker")) 0 0)).map (fun d => (d.IPM.Allocated, d.ContainerIPs))

end net

namespace net

/-- A host on which `LinkSetMaster` fails. -/
def noMasterHost : NetHost := { okHost with setMasterOk := false }

/-- A host on which `LinkSetNsPid` fails. -/
def noNsHost : NetHost := { okHost with setNsOk := false }

/-- The invariant of the lists of a network: the values of `ContainerIPs`
are pairwise distinct and are exactly the entries of the allocated list. -/
def ListsInv (l : List GoString × List (GoString × GoString)) : Prop :=
  (l.2.map (fun p => p.2)).Nodup ∧ (l.2.map (fun p => p.2)).Perm l.1

instance (l : List GoString × List (GoString × GoString)) : Decidable (ListsInv l) := by
  unfold ListsInv
  exact inferInstance

/-- The world after the container `abcdef111111` is connected to the new
network `ducker`. -/
def connectedWorld : Option World :=
  (Connect newWorld (str ("ducker")) (str ("abcdef111111")) okHost).map (fun r => r.2)

/-- The outcome and the world after the container `abcdef111111` is
connected, the identifier `abcdef222222` is disconnected, and the container
`abcdef111111` is connected again, on a host where every step succeeds. -/
def reconnectedWorld : Option (Outcome × World) :=
  connectedWorld.bind (fun w =>
    Connect (Disconnect w (str ("ducker")) (str ("abcdef222222")) okHost).2 (str ("ducker"))
      (str ("abcdef111111")) okHost)

end net

namespace image

/-- The names of the directories under `layers/` after `util.CopyDir(src,
layers/<name>)` has run `cp -raf`: a missing directory `name` is created; an
existing one receives the copy inside itself and the names stay as they are. -/
def copyDir (dirs : List GoString) (name : GoString) : List GoString :=
  if name ∈ dirs then dirs else dirs ++ [name]

/-- The names of the directories under `layers/` of the image after the two
copy loops of `createImage` have succeeded; `existing` are the names found
there after `EnsureDir`.  A base layer is copied under the last element of
its source path, which is the layer's name. -/
def Builder.layerDirs (b : Builder) (existing : List GoString) : List GoString :=
  (b.layers.map (fun l => l.hash)).foldl copyDir (b.baseImg.Layers.foldl copyDir existing)

/-- The layer list of the manifest `createImage` writes. -/
def Builder.manifestLayers (b : Builder) : Option (List GoString) :=
  ((b.createImage emptyStore 0 0 0 0) (util.GenerateID b.tag 0 0)).map (fun img => img.Layers)

/-- The builder of `demo` on `sampleBase` after two steps whose layers both
hash to `e3b0c44298fc`, the hash of a directory without files. -/
def twinBuilder : Builder :=
  { NewBuilder sampleBase (str ("demo")) none with
    layers := [⟨str ("e3b0c44298fc"), str ("/tmp/ducker-run-1/upper")⟩,
               ⟨str ("e3b0c44298fc"), str ("/tmp/ducker-run-2/upper")⟩] }

/-- The builder of `demo` on `sampleBase` after one step whose layer has the
hash of the base layer. -/
def echoBuilder : Builder :=
  { NewBuilder sampleBase (str ("demo")) none with
    layers := [⟨str ("0123456789ab"), str ("/tmp/ducker-layer-1")⟩] }

end image

/-! ## unicode, unicode/utf8, strings, regexp, path/filepath: text functions of the parser -/

namespace unicode

/-- The function `unicode.IsSpace` on a rune. -/
def IsSpace (r : Nat) : Bool :=
  r = 9 || r = 10 || r = 11 || r = 12 || r = 13 || r = 32 || r = 0x85 || r = 0xA0
    || r = 0x1680 || (0x2000 ≤ r && r ≤ 0x200a) || r = 0x2028 || r = 0x2029 || r = 0x202f
    || r = 0x205f || r = 0x3000

end unicode

namespace utf8

/-- The function `utf8.RuneStart`: the byte is not a continuation byte. -/
def RuneStart (b : Byte) : Bool := b.val / 64 ≠ 2

/-- The rune and width `utf8.DecodeRuneInString` gives for a segment that
has to be consumed whole: the rune at its head when the width is the length
of the segment, the error rune with width 1 otherwise. -/
def decodeWhole (seg : GoString) : Nat × Nat :=
  match seg with
  | [] => (util.runeError, 1)
  | b :: rest =>
    if (util.decodeRune b rest).2 = seg.length then util.decodeRune b rest
    else (util.runeError, 1)

/-- The function `utf8.DecodeLastRuneInString` on a non-empty string given
back to front, as its last byte `b` and the bytes before it, nearest first:
an ASCII byte is its own rune; otherwise the decoder looks back over up to
three bytes for the nearest start byte and decodes from there. -/
def decodeLast (b : Byte) (prev : GoString) : Nat × Nat :=
  if b.val < 0x80 then (b.val, 1)
  else
    match prev with
    | [] => (util.runeError, 1)
    | p1 :: prev1 =>
      if RuneStart p1 then decodeWhole [p1, b]
      else
        match prev1 with
        | [] => (util.runeError, 1)
        | p2 :: prev2 =>
          if RuneStart p2 then decodeWhole [p2, p1, b]
          else
            match prev2 with
            | [] => (util.runeError, 1)
            | p3 :: _ =>
              if RuneStart p3 then decodeWhole [p3, p2, p1, b] else (util.runeError, 1)

end utf8

namespace strings

/-- Whether `s` ends with `p` (`strings.HasSuffix`). -/
def endsWith (s p : GoString) : Bool := startsWith s.reverse p.reverse

/-- The function `strings.TrimLeftFunc(s, unicode.IsSpace)`: the runes at the
head that are white space are dropped.  `fuel` bounds the number of runes. -/
def trimLeftSpace : Nat → GoString → GoString
  | 0, s => s
  | _ + 1, [] => []
  | fuel + 1, b :: rest =>
    if unicode.IsSpace (util.decodeRune b rest).1 then
      trimLeftSpace fuel ((b :: rest).drop (util.decodeRune b rest).2)
    else b :: rest

/-- The function `strings.TrimRightFunc(s, unicode.IsSpace)` on the string
given back to front: the runes at the end that are white space are dropped. -/
def trimRightSpaceRev : Nat → GoString → GoString
  | 0, s => s
  | _ + 1, [] => []
  | fuel + 1, b :: prev =>
    if unicode.IsSpace (utf8.decodeLast b prev).1 then
      trimRightSpaceRev fuel ((b :: prev).drop (utf8.decodeLast b prev).2)
    else b :: prev

/-- The function `strings.TrimSpace`: leading and trailing white space, as
defined by Unicode, is removed. -/
def TrimSpace (s : GoString) : GoString :=
  let t := trimLeftSpace s.length s
  (trimRightSpaceRev t.length t.reverse).reverse

/-- The function `strings.Trim(s, cutset)` for a cutset of ASCII bytes: the
leading and trailing bytes that are in the cutset are removed. -/
def Trim (s cutset : GoString) : GoString :=
  (((s.dropWhile (fun b => decide (b ∈ cutset))).reverse).dropWhile
    (fun b => decide (b ∈ cutset))).reverse

/-- The function `strings.Split(s, sep)` for a separator `sep` of one byte:
the pieces of `s` between the occurrences of the byte. -/
def Split : GoString → Byte → List GoString
  | [], _ => [[]]
  | c :: rest, sep =>
    if c = sep then [] :: Split rest sep
    else
      match Split rest sep with
      | [] => [[c]]
      | p :: ps => (c :: p) :: ps

/-- The loop of `strings.FieldsFunc(s, unicode.IsSpace)` over the runes of
the string: `skip` counts the bytes of the current rune still to be stepped
over, `inSpace` tells whether that rune is white space, `cur` is the field
being read (empty when none is open). -/
def fieldsLoop : Nat → Bool → GoString → GoString → List GoString
  | _, _, cur, [] => if cur = [] then [] else [cur]
  | skip + 1, true, cur, _ :: rest => fieldsLoop skip true cur rest
  | skip + 1, false, cur, b :: rest => fieldsLoop skip false (cur ++ [b]) rest
  | 0, _, cur, b :: rest =>
    if unicode.IsSpace (util.decodeRune b rest).1 then
      if cur = [] then fieldsLoop ((util.decodeRune b rest).2 - 1) true [] rest
      else cur :: fieldsLoop ((util.decodeRune b rest).2 - 1) true [] rest
    else fieldsLoop ((util.decodeRune b rest).2 - 1) false (cur ++ [b]) rest

/-- The function `strings.Fields`: the maximal runs of runes that are not
white space. -/
def Fields (s : GoString) : List GoString := fieldsLoop 0 false [] s

/-- The function `strings.ToUpper` on a string of ASCII bytes. -/
def ToUpper (s : GoString) : GoString :=
  s.map (fun b => if 97 ≤ b.val ∧ b.val ≤ 122 then byte (b.val - 32) else b)

/-- The function `strings.Join(elems, sep)`. -/
def Join : List GoString → GoString → GoString
  | [], _ => []
  | [a], _ => a
  | a :: b :: rest, sep => a ++ (sep ++ Join (b :: rest) sep)

end strings
namespace regexp

/-- The class `\w`: an ASCII letter, digit or underscore. -/
def isWord (b : Byte) : Bool :=
  (48 ≤ b.val && b.val ≤ 57) || (65 ≤ b.val && b.val ≤ 90) || b.val = 95
    || (97 ≤ b.val && b.val ≤ 122)

/-- The class `\s`: tab, newline, form feed, carriage return or space. -/
def isSpace (b : Byte) : Bool :=
  b.val = 9 || b.val = 10 || b.val = 12 || b.val = 13 || b.val = 32

/-- The two groups `FindStringSubmatch` returns for the expression
`^(\w+)\s+(.*)$`; none when the line does not match.  Both repetitions are
greedy, and the last group, which cannot cross a newline, has to reach the
end of the text. -/
def lineMatch (line : GoString) : Option (GoString × GoString) :=
  let word := line.takeWhile isWord
  let rest := line.dropWhile isWord
  let gap := rest.takeWhile isSpace
  let args := rest.dropWhile isSpace
  if word = [] ∨ gap = [] ∨ byte 10 ∈ args then none else some (word, args)

end regexp

namespace filepath

/-- The function `filepath.IsAbs` on Unix. -/
def IsAbs (path : GoString) : Bool := strings.startsWith path (str ("/"))

/-- The loop of `filepath.Clean` over the elements of a path: `out` holds
the elements kept so far, last first.  An element `..` removes the element
before it; at the root it is dropped, and at the start of a relative path
it is kept. -/
def cleanLoop (rooted : Bool) : List GoString → List GoString → List GoString
  | [], out => out
  | e :: rest, out =>
    if e = [] ∨ e = str (".") then cleanLoop rooted rest out
    else if e = str ("..") then
      match out with
      | top :: below =>
        if top = str ("..") then cleanLoop rooted rest (e :: out)
        else cleanLoop rooted rest below
      | [] => if rooted then cleanLoop rooted rest [] else cleanLoop rooted rest [e]
    else cleanLoop rooted rest (e :: out)

/-- The function `filepath.Clean` on Unix. -/
def Clean (path : GoString) : GoString :=
  let rooted := strings.startsWith path (str ("/"))
  let out := (cleanLoop rooted (strings.Split path (byte 47)) []).reverse
  let body := strings.Join out (str ("/"))
  if rooted then str ("/") ++ body
  else if body = [] then str (".") else body

/-- The call `filepath.Join(a, b)` of two elements: the non-empty ones are
joined by a slash and the result is cleaned; the empty string when both are
empty. -/
def Join2 (a b : GoString) : GoString :=
  if a = [] then (if b = [] then [] else Clean b)
  else if b = [] then Clean a
  else Clean (a ++ str ("/") ++ b)

end filepath

namespace image

/-- One instruction of a duckerfile. -/
structure instruction where
  command : GoString
  args : List GoString
  raw : GoString
deriving DecidableEq

/-- The function `isCommandSupported`. -/
def isCommandSupported (command : GoString) : Bool :=
  decide (command ∈ [str ("FROM"), str ("RUN"), str ("ENV"), str ("WORKDIR"), str ("EXPOSE"),
    str ("CMD"), str ("COPY")])

/-- The loop of `parseCMDArgs` over the parts. -/
def cmdLoop : List GoString → List GoString → List GoString
  | [], args => args
  | part :: rest, args =>
    let part := strings.TrimSpace part
    let part := strings.Trim part [byte 39, byte 34]
    if part ≠ [] then cmdLoop rest (args ++ [part]) else cmdLoop rest args

/-- The method `parseCMDArgs`; none is the error return. -/
def parseCMDArgs (argsStr : GoString) : Option (List GoString) :=
  let argsStr := strings.TrimSpace argsStr
  if strings.startsWith argsStr (str ("[")) && strings.endsWith argsStr (str ("]")) then
    let argsStr := strings.Trim argsStr (str ("[]"))
    let parts := strings.Split argsStr (byte 44)
    some (cmdLoop parts [])
  else none

/-- The loop of `parseEnvArgs`: whether no part makes it return an error. -/
def envLoop : List GoString → Bool
  | [] => true
  | part :: rest =>
    let part := strings.TrimSpace part
    if !strings.Contains part (str ("=")) then false else envLoop rest

/-- The method `parseEnvArgs`; none is the error return. -/
def parseEnvArgs (argsStr : GoString) : Option (List GoString) :=
  let parts := strings.Fields argsStr
  if envLoop parts then some parts else none

/-- The method `parseCopyArgs`; none is the error return. -/
def parseCopyArgs (contextPath argsStr : GoString) : Option (List GoString) :=
  let parts := strings.Split argsStr (byte 32)
  match parts with
  | [src, dst] =>
    if filepath.IsAbs src then some [src, dst]
    else some [filepath.Join2 contextPath src, dst]
  | _ => none

/-- The method `parseCommand`; none is the error return. -/
def parseCommand (contextPath command argsStr : GoString) : Option (List GoString) :=
  if command = str ("CMD") then parseCMDArgs argsStr
  else if command = str ("ENV") then parseEnvArgs argsStr
  else if command = str ("COPY") then parseCopyArgs contextPath argsStr
  else if command = str ("EXPOSE") then some (strings.Fields argsStr)
  else some [argsStr]

/-- The method `parseLine`; none is the error return, with which no
instruction is returned. -/
def parseLine (contextPath line : GoString) : Option instruction :=
  match regexp.lineMatch line with
  | none => none
  | some (word, rest) =>
    let command := strings.ToUpper word
    let argsStr := strings.TrimSpace rest
    if !isCommandSupported command then none
    else
      match parseCommand contextPath command argsStr with
      | none => none
      | some args => some { command := command, args := args, raw := line }

/-- The loop of the method `parse` over the lines the scanner yields: the
base image tag and the instructions collected; none is the error return. -/
def parseLoop (contextPath : GoString) :
    List GoString → GoString × List instruction → Option (GoString × List instruction)
  | [], st => some st
  | text :: rest, (baseImageTag, instructions) =>
    let line := strings.TrimSpace text
    if line = [] ∨ strings.startsWith line (str ("#")) then
      parseLoop contextPath rest (baseImageTag, instructions)
    else
      match parseLine contextPath line with
      | none => none
      | some inst =>
        let baseImageTag :=
          if inst.command = str ("FROM") ∧ inst.args.length > 0 then inst.args.headD []
          else baseImageTag
        parseLoop contextPath rest (baseImageTag, instructions ++ [inst])

/-- The method `Builder.execute`.  `made` is the layer the file operations
of a COPY or RUN step create (its hash and scratch path), none when one of
them fails; the result none is an error return or, for a WORKDIR
instruction without argument, the panic of `inst.args[0]`. -/
def Builder.execute (b : Builder) (inst : instruction) (made : Option layer) : Option Builder :=
  if inst.command = str ("FROM") then some b
  else if inst.command = str ("WORKDIR") then
    match inst.args with
    | [] => none
    | a :: _ => some { b with opts := { b.opts with WorkDir := a } }
  else if inst.command = str ("ENV") then
    some { b with opts := { b.opts with Env := b.opts.Env ++ inst.args } }
  else if inst.command = str ("EXPOSE") then
    some { b with opts := { b.opts with Port := b.opts.Port ++ inst.args } }
  else if inst.command = str ("CMD") then
    some { b with opts := { b.opts with Cmd := inst.args } }
  else if inst.command = str ("COPY") then
    if inst.args.length < 2 then none
    else made.map (fun l => { b with layers := b.layers ++ [l] })
  else if inst.command = str ("RUN") then
    if inst.args.length < 1 then none
    else made.map (fun l => { b with layers := b.layers ++ [l] })
  else some b

/-- The escape of one byte in a JSON string, following the words of the spec
(a JSON array of strings): the double quote and the backslash are preceded
by a backslash, a control byte is written with four hex digits, any other
byte stands for itself. -/
def jsonEscape (b : Byte) : GoString :=
  if b.val = 34 then [byte 92, byte 34]
  else if b.val = 92 then [byte 92, byte 92]
  else if b.val < 32 then
    [byte 92, byte 117, byte 48, byte 48, ldigits.getD (b.val / 16) 0, ldigits.getD (b.val % 16) 0]
  else [b]

/-- The text of a JSON string for `s`: the escaped bytes between double
quotes. -/
def jsonString (s : GoString) : GoString :=
  [byte 34] ++ ((s.map jsonEscape).foldr (fun e acc => e ++ acc) [] ++ [byte 34])

/-- The bracketed JSON array encoding of a list of strings, following the
words of the spec: `["a","b"]`. -/
def jsonArray (l : List GoString) : GoString :=
  [byte 91] ++ (strings.Join (l.map jsonString) [byte 44] ++ [byte 93])

/-- An element that the parser of CMD leaves intact: it is not empty, holds
no comma, double quote, backslash or control byte, and neither begins nor
ends with a single quote. -/
def PlainArg (x : GoString) : Prop :=
  x ≠ [] ∧ (∀ b ∈ x, b.val ≠ 44 ∧ b.val ≠ 34 ∧ b.val ≠ 92 ∧ 32 ≤ b.val)
    ∧ x.head? ≠ some (byte 39) ∧ x.getLast? ≠ some (byte 39)

instance (x : GoString) : Decidable (PlainArg x) := by
  unfold PlainArg
  exact inferInstance

end image

/-- A token of the form `KEY=VALUE` with a non-empty `KEY`, following the
words of the spec: the token holds an equals sign and the text before the
first one is not empty. -/
def image.IsKeyValue (token : GoString) : Prop :=
  byte 61 ∈ token ∧ token.takeWhile (fun b => decide (b ≠ byte 61)) ≠ []

instance (token : GoString) : Decidable (image.IsKeyValue token) := by
  unfold image.IsKeyValue
  exact inferInstance

namespace image

/-- The loop of the method `Builder.Apply` from the `k`-th instruction on:
the first instruction that fails ends it with an error (none).  `made k` is
the layer the file operations of the `k`-th step create, none when they
fail. -/
def Builder.applyLoop (made : Nat → Option layer) : Nat → List instruction → Builder → Option Builder
  | _, [], b => some b
  | k, inst :: rest, b =>
    match b.execute inst (made k) with
    | none => none
    | some b2 => Builder.applyLoop made (k + 1) rest b2

/-- The method `Builder.Apply`. -/
def Builder.Apply (b : Builder) (instructions : List instruction) (made : Nat → Option layer) :
    Option Builder :=
  Builder.applyLoop made 0 instructions b

/-- The instructions of a recipe with the command `command`, in file order. -/
def directives (command : GoString) (insts : List instruction) : List instruction :=
  insts.filter (fun i => decide (i.command = command))

/-- All arguments of a list of instructions, in order. -/
def allArgs (insts : List instruction) : List GoString :=
  (insts.map (fun i => i.args)).foldr (fun a acc => a ++ acc) []

/-- The options a recipe of FROM, WORKDIR, ENV, EXPOSE and CMD directives
should yield from the options `o`, following the words of the spec: the
working directory is the argument of the last WORKDIR (else that of `o`),
the environment that of `o` followed by all ENV tokens, the ports those of
`o` followed by all EXPOSE tokens, the command the vector of the last CMD
(else that of `o`). -/
def optionsAfter (o : RunOptions) (insts : List instruction) : RunOptions :=
  { WorkDir := match (directives (str ("WORKDIR")) insts).getLast? with
      | some i => i.args.headD []
      | none => o.WorkDir,
    Env := o.Env ++ allArgs (directives (str ("ENV")) insts),
    Port := o.Port ++ allArgs (directives (str ("EXPOSE")) insts),
    Cmd := match (directives (str ("CMD")) insts).getLast? with
      | some i => i.args
      | none => o.Cmd }

/-- The lines of a recipe with the five option directives. -/
def sampleRecipe : List GoString :=
  [str ("FROM alpine"), str ("# build"), str ("WORKDIR /app"), str ("ENV A=1 B=2"),
   str ("EXPOSE 80"), str ("CMD ['a']"), str ("WORKDIR /srv"), str ("ENV C=3")]

/-- The instructions `sampleRecipe` parses to. -/
def sampleInstructions : List instruction :=
  [⟨str ("FROM"), [str ("alpine")], str ("FROM alpine")⟩,
   ⟨str ("WORKDIR"), [str ("/app")], str ("WORKDIR /app")⟩,
   ⟨str ("ENV"), [str ("A=1"), str ("B=2")], str ("ENV A=1 B=2")⟩,
   ⟨str ("EXPOSE"), [str ("80")], str ("EXPOSE 80")⟩,
   ⟨str ("CMD"), [str ("a")], str ("CMD ['a']")⟩,
   ⟨str ("WORKDIR"), [str ("/srv")], str ("WORKDIR /srv")⟩,
   ⟨str ("ENV"), [str ("C=3")], str ("ENV C=3")⟩]

end image

/-! ## util/path.go, container copy -/

namespace filepath

/-- The function `filepath.Dir` on Unix: the path up to its last slash,
cleaned. -/
def Dir (path : GoString) : GoString :=
  Clean ((path.reverse.dropWhile (fun b => decide (b ≠ byte 47))).reverse)

/-- Whether the elements of a path never climb above the point where the
path starts: `d` counts the names entered and not yet left by `..`. -/
def depthOk : List GoString → Nat → Bool
  | [], _ => true
  | e :: rest, d =>
    if e = [] ∨ e = str (".") then depthOk rest d
    else if e = str ("..") then decide (d ≠ 0) && depthOk rest (d - 1)
    else depthOk rest (d + 1)

/-- A path whose `..` elements never climb above its start. -/
def staysBelow (p : GoString) : Bool := depthOk (strings.Split p (byte 47)) 0

/-- The path `path` is `dir` itself or lies below it. -/
def IsWithin (dir path : GoString) : Prop :=
  path = dir ∨ strings.startsWith path (dir ++ str ("/")) = true

instance (dir path : GoString) : Decidable (IsWithin dir path) := by
  unfold IsWithin
  exact inferInstance

/-- An ordinary element of a path: not empty, without slash, and neither
`.` nor `..`. -/
def IsName (e : GoString) : Prop :=
  e ≠ [] ∧ byte 47 ∉ e ∧ e ≠ str (".") ∧ e ≠ str ("..")

instance (e : GoString) : Decidable (IsName e) := by
  unfold IsName
  exact inferInstance

end filepath

namespace util

/-- The function `GetContainerDir`. -/
def GetContainerDir (containerID : GoString) : GoString :=
  filepath.Join2 (str ("/var/lib/ducker/containers")) containerID

/-- The function `GetContainerMergedDir`. -/
def GetContainerMergedDir (containerID : GoString) : GoString :=
  filepath.Join2 (GetContainerDir containerID) (str ("merged"))

end util

namespace container

/-- How a copy ends: the format error of `Copy`, a container that is not
found, a running container, a failure to create the parent directory of the
destination or to copy, or the copy made from a source to a destination. -/
inductive CopyOutcome where
  | cpFormat
  | notFound
  | running
  | mkdirFailed (dir : GoString)
  | copyFailed (src dst : GoString)
  | copied (src dst : GoString)
deriving DecidableEq

/-- The method `copy`.  `ensureOk` and `copyOk` tell whether `EnsureDir` and
`CopyDir` succeed. -/
def container.copy (c : container) (srcPath destPath : GoString) (srcInContainer : Bool)
    (ensureOk copyOk : Bool) : CopyOutcome :=
  if c.Status = StatusRunning then CopyOutcome.running
  else
    let srcPath :=
      if srcInContainer then filepath.Join2 (util.GetContainerMergedDir c.ID) srcPath
      else srcPath
    let destPath :=
      if srcInContainer then destPath
      else filepath.Join2 (util.GetContainerMergedDir c.ID) destPath
    if !ensureOk then CopyOutcome.mkdirFailed (filepath.Dir destPath)
    else if !copyOk then CopyOutcome.copyFailed srcPath destPath
    else CopyOutcome.copied srcPath destPath

/-- The function `Copy`. -/
def Copy (store : Store) (srcPath destPath : GoString) (now rnd : Int)
    (ensureOk copyOk : Bool) : CopyOutcome :=
  let srcParts := strings.Split srcPath (byte 58)
  let destParts := strings.Split destPath (byte 58)
  let srcIsContainer := decide (srcParts.length = 2)
  let destIsContainer := decide (destParts.length = 2)
  if srcIsContainer = destIsContainer then CopyOutcome.cpFormat
  else if srcIsContainer then
    match Get store (srcParts.headD []) now rnd with
    | none => CopyOutcome.notFound
    | some cont => cont.copy (srcParts.getD 1 []) destPath true ensureOk copyOk
  else
    match Get store (destParts.headD []) now rnd with
    | none => CopyOutcome.notFound
    | some cont => cont.copy srcPath (destParts.getD 1 []) false ensureOk copyOk

/-- The store with the exited container `web`. -/
def exitedStore : Store :=
  emptyStore.write (str ("2567a5ec9705"))
    { sampleRunning with PID := 0, Status := StatusExited }

end container

/-! ## net/iptabls.go -/

namespace strings

/-- The function `strings.ToLower` on a string of ASCII bytes.  (A string
with other bytes is mapped rune by rune through the Unicode tables, which
are not part of this development.) -/
def ToLower (s : GoString) : GoString :=
  s.map (fun b => if 65 ≤ b.val ∧ b.val ≤ 90 then byte (b.val + 32) else b)

end strings

namespace net

/-- The function `parsePort`. -/
def parsePort (s : GoString) : GoString × GoString :=
  match strings.Split s (byte 47) with
  | [port, proto] => (port, strings.ToLower proto)
  | _ => (s, str ("tcp"))

/-- A rule of the nat table: its chain and its rule specification, the
arguments after the chain name. -/
structure Rule where
  chain : GoString
  spec : List GoString
  deriving DecidableEq

/-- The rule specification both functions build for one entry of the port
map: `-p <proto> --dport <host> -j DNAT --to-destination <ip>:<guest>`. -/
def dnatSpec (containerIP hostPort containerPort : GoString) : List GoString :=
  [str ("-p"), (parsePort hostPort).2, str ("--dport"), (parsePort hostPort).1, str ("-j"),
    str ("DNAT"), str ("--to-destination"),
    containerIP ++ str (":") ++ (parsePort containerPort).1]

/-- The function `iptablesNAT` for the two operations used on port rules:
whether the command succeeds, and the rules of the nat table afterwards.
`-A` appends the rule when iptables accepts it (`accepts`); `-D` deletes the
first rule with the given specification and fails when there is none. -/
def iptablesNAT (accepts : Rule → Bool) (table : List Rule) (op chain : GoString)
    (spec : List GoString) : Bool × List Rule :=
  if op = str ("-A") then
    if accepts ⟨chain, spec⟩ then (true, table ++ [⟨chain, spec⟩]) else (false, table)
  else if (⟨chain, spec⟩ : Rule) ∈ table then (true, table.erase ⟨chain, spec⟩)
  else (false, table)

/-- The function `SetupPortMapping` over the entries of the port map in the
order the loop visits them: whether it returns an error, and the table
afterwards. -/
def SetupPortMapping (accepts : Rule → Bool) (table : List Rule) (containerIP : GoString) :
    List (GoString × GoString) → Bool × List Rule
  | [] => (false, table)
  | (hostPort, containerPort) :: rest =>
    let spec := dnatSpec containerIP hostPort containerPort
    let r1 := iptablesNAT accepts table (str ("-A")) (str ("PREROUTING")) spec
    if !r1.1 then (true, r1.2)
    else
      let r2 := iptablesNAT accepts r1.2 (str ("-A")) (str ("OUTPUT")) spec
      if !r2.1 then
        (true, (iptablesNAT accepts r2.2 (str ("-D")) (str ("PREROUTING")) spec).2)
      else SetupPortMapping accepts r2.2 containerIP rest

/-- The function `CleanPortMapping` over the entries of the port map in the
order the loop visits them: the table afterwards. -/
def CleanPortMapping (accepts : Rule → Bool) (table : List Rule) (containerIP : GoString) :
    List (GoString × GoString) → List Rule
  | [] => table
  | (hostPort, containerPort) :: rest =>
    let spec := dnatSpec containerIP hostPort containerPort
    let t1 := (iptablesNAT accepts table (str ("-D")) (str ("PREROUTING")) spec).2
    let t2 := (iptablesNAT accepts t1 (str ("-D")) (str ("OUTPUT")) spec).2
    CleanPortMapping accepts t2 containerIP rest

/-- Spec side: the rule `-p <proto> --dport <host> -j DNAT --to-destination
<ip>:<guest>` in the chain `chain`, written out word by word. -/
def specRule (chain proto host ip guest : GoString) : Rule :=
  { chain := chain,
    spec := [str ("-p"), proto, str ("--dport"), host, str ("-j"), str ("DNAT"),
      str ("--to-destination"), ip ++ (byte 58 :: guest)] }

/-- Spec side: the rules a port map stands for: per entry the rule in
PREROUTING and the same rule in OUTPUT, with the host port and the protocol
of the host side and the port of the guest side. -/
def portRules (containerIP : GoString) : List (GoString × GoString) → List Rule
  | [] => []
  | e :: rest =>
    specRule (str ("PREROUTING")) (parsePort e.1).2 (parsePort e.1).1 containerIP
        (parsePort e.2).1
      :: specRule (str ("OUTPUT")) (parsePort e.1).2 (parsePort e.1).1 containerIP
        (parsePort e.2).1
      :: portRules containerIP rest

/-- A nat table with the masquerade rule of the default network. -/
def sampleTable : List Rule :=
  [⟨str ("POSTROUTING"), [str ("-s"), str ("172.18.0.0/16"), str ("!"), str ("-o"),
    str ("br-cf064a"), str ("-j"), str ("MASQUERADE")]⟩]

end net

/-! ## cmd/run.go: the memory option -/

namespace strconv

/-- The loop of `strconv.ParseUint(s, 10, 64)` over the bytes of the string,
`n` being the value read so far: a byte that is not a decimal digit is a
syntax error, a value that does not fit 64 bits is a range error.  The
caller looks only at whether there is an error, so both are `none`. -/
def parseUintLoop : Nat → GoString → Option Nat
  | n, [] => some n
  | n, c :: rest =>
    if 48 ≤ c.val ∧ c.val ≤ 57 then
      if n ≥ 18446744073709551615 / 10 + 1 then none
      else
        let n10 := (n * 10) % 2 ^ 64
        let n1 := (n10 + (c.val - 48)) % 2 ^ 64
        if n1 < n10 ∨ n1 > 18446744073709551615 then none
        else parseUintLoop n1 rest
    else none

/-- The function `strconv.ParseUint(s, 10, 64)`; `none` is an error. -/
def ParseUint (s : GoString) : Option Nat :=
  if s = [] then none else parseUintLoop 0 s

/-- Spec side: a decimal numeral is a nonempty string of decimal digits. -/
def IsDecimal (s : GoString) : Prop := s ≠ [] ∧ ∀ c ∈ s, 48 ≤ c.val ∧ c.val ≤ 57

instance (s : GoString) : Decidable (IsDecimal s) := by
  unfold IsDecimal
  exact inferInstance

/-- Spec side: the natural number a decimal numeral denotes. -/
def decimalValue (s : GoString) : Nat := s.foldl (fun n c => n * 10 + (c.val - 48)) 0

end strconv

namespace cmd

/-- The function `parseMemoryString`: the limit in bytes, a `uint64`.  (The
string is lowered by the ASCII model of `strings.ToLower`.) -/
def parseMemoryString (memStr : GoString) : Nat :=
  if memStr = [] then 0
  else
    let memStr := strings.ToLower (strings.TrimSpace memStr)
    match memStr.getLast? with
    | none => 0
    | some suffix =>
      let r : Nat × GoString :=
        if suffix = byte 107 then (1024, memStr.dropLast)
        else if suffix = byte 109 then (1024 * 1024, memStr.dropLast)
        else if suffix = byte 103 then (1024 * 1024 * 1024, memStr.dropLast)
        else (1, memStr)
      match strconv.ParseUint r.2 with
      | none => 0
      | some val => (val * r.1) % 2 ^ 64

end cmd

/-! ## net/manager.go: Remove -/

namespace net

/-- The constant `DefaultNetworkName`. -/
def DefaultNetworkName : GoString := str ("ducker")

/-- What a call of `Remove` has done: how it ends, the world afterwards, and
whether the NAT rules of the bridge were cleaned and the bridge deleted. -/
structure RemoveResult where
  out : Outcome
  world : World
  natCleaned : Bool
  bridgeDeleted : Bool

/-- The method `tearDown`: the NAT rules of the bridge are cleaned, the
bridge is deleted and the directory of the network is removed.  `bridgeDelOk`
and `removeAllOk` are the answers of the host to `netlink.LinkDel` and
`os.RemoveAll`; a failing `os.RemoveAll` is taken to leave the manifest. -/
def BridgeDriver.tearDown (d : BridgeDriver) (w : World) (bridgeDelOk removeAllOk : Bool) :
    RemoveResult :=
  if !bridgeDelOk then ⟨Outcome.error, w, true, false⟩
  else if !removeAllOk then ⟨Outcome.error, w, true, true⟩
  else ⟨Outcome.ok, { w with store := fun k => if k = d.ID then none else w.store k }, true, true⟩

/-- The function `Remove`. -/
def Remove (w : World) (name : GoString) (bridgeDelOk removeAllOk : Bool) : RemoveResult :=
  if name = DefaultNetworkName then ⟨Outcome.error, w, false, false⟩
  else
    match get w.store name 0 0 with
    | none => ⟨Outcome.error, w, false, false⟩
    | some driver => driver.tearDown w bridgeDelOk removeAllOk

end net

/-! ## limit/manager.go -/

namespace util

/-- The function `GetCgroupCPUPath`. -/
def GetCgroupCPUPath (containerID : GoString) : GoString :=
  filepath.Join2 (str ("/sys/fs/cgroup/cpu")) containerID

/-- The function `GetCgroupMemoryPath`. -/
def GetCgroupMemoryPath (containerID : GoString) : GoString :=
  filepath.Join2 (str ("/sys/fs/cgroup/memory")) containerID

end util

namespace limit

/-- What the host answers to the file calls of `Apply`: whether `os.Mkdir`
succeeds on a path that does not exist yet, and whether `os.WriteFile`
succeeds. -/
structure FsHost where
  mkdirOk : Bool
  writeOk : Bool

/-- The call `os.Mkdir(path, 0755)` on the cgroup directories `dirs`: whether
it succeeds, and the directories afterwards.  It fails on a path that
exists. -/
def mkdir (dirs : List GoString) (path : GoString) (host : FsHost) : Bool × List GoString :=
  if path ∈ dirs then (false, dirs)
  else if host.mkdirOk then (true, dirs ++ [path])
  else (false, dirs)

/-- The function `applyCPULimit`: whether it returns nil, and the cgroup
directories afterwards.  The contents of the two files are not part of the
state. -/
def applyCPULimit (dirs : List GoString) (containerID : GoString) (host : FsHost) :
    Bool × List GoString :=
  let r := mkdir dirs (util.GetCgroupCPUPath containerID) host
  if !r.1 then (false, r.2)
  else if !host.writeOk then (false, r.2)
  else if !host.writeOk then (false, r.2)
  else (true, r.2)

/-- The function `applyMemoryLimit`: whether it returns nil, and the cgroup
directories afterwards. -/
def applyMemoryLimit (dirs : List GoString) (containerID : GoString) (host : FsHost) :
    Bool × List GoString :=
  let r := mkdir dirs (util.GetCgroupMemoryPath containerID) host
  if !r.1 then (false, r.2)
  else if !host.writeOk then (false, r.2)
  else if !host.writeOk then (false, r.2)
  else (true, r.2)

/-- The function `Apply`: whether it returns nil, and the cgroup directories
afterwards.  The limit `cpuLimit` is a `float64` in the code and a rational
here; `Apply` looks only at whether it is greater than zero. -/
def Apply (dirs : List GoString) (containerID : GoString) (pid : Int) (cpuLimit : ℚ)
    (memoryLimit : Nat) (host : FsHost) : Bool × List GoString :=
  if containerID = [] then (false, dirs)
  else if pid ≤ 0 then (false, dirs)
  else
    let r1 := if cpuLimit > 0 then applyCPULimit dirs containerID host else (true, dirs)
    if !r1.1 then (false, r1.2)
    else
      let r2 := if memoryLimit > 0 then applyMemoryLimit r1.2 containerID host else (true, r1.2)
      if !r2.1 then (false, r2.2)
      else (true, r2.2)

/-- The function `Remove`: the cgroup directories afterwards. -/
def Remove (dirs : List GoString) (containerID : GoString) : List GoString :=
  dirs.filter (fun d =>
    decide (d ≠ util.GetCgroupCPUPath containerID ∧ d ≠ util.GetCgroupMemoryPath containerID))

/-- A host on which the file calls succeed. -/
def okHost : FsHost := ⟨true, true⟩

end limit

/-! ## Theorems -/

theorem ldigits_hex (n : Nat) (h : n < 16) : IsLowerHex (ldigits.getD n 0).val := by
  unfold IsLowerHex
  interval_cases n <;> decide

theorem hexEncode_length (l : List Byte) : (hexEncode l).length = 2 * l.length := by
  induction l with
  | nil => rfl
  | cons b rest ih => simp only [hexEncode, List.length_cons, ih]; omega

theorem hexEncode_hex (l : List Byte) : ∀ b ∈ hexEncode l, IsLowerHex b.val := by
  induction l with
  | nil => intro b hb; simp [hexEncode] at hb
  | cons x rest ih =>
    intro b hb
    simp only [hexEncode, List.mem_cons] at hb
    rcases hb with hb | hb | hb
    · subst hb; exact ldigits_hex _ (by have := x.isLt; omega)
    · subst hb; exact ldigits_hex _ (by omega)
    · exact ih b hb

theorem fmtHexLoop_hex (fuel : Nat) : ∀ (u : Nat) (acc : GoString),
    (∀ b ∈ acc, IsLowerHex b.val) → ∀ b ∈ fmtHexLoop fuel u acc, IsLowerHex b.val := by
  induction fuel with
  | zero => intro u acc hacc; simpa [fmtHexLoop] using hacc
  | succ n ih =>
    intro u acc hacc
    simp only [fmtHexLoop]
    split
    · apply ih
      intro b hb
      rcases List.mem_cons.mp hb with hb | hb
      · subst hb; exact ldigits_hex _ (by omega)
      · exact hacc b hb
    · intro b hb
      rcases List.mem_cons.mp hb with hb | hb
      · subst hb; exact ldigits_hex _ (by omega)
      · exact hacc b hb

theorem fmtHexLoop_length (fuel : Nat) : ∀ (u k : Nat) (acc : GoString),
    u < 16 ^ (k + 1) → (fmtHexLoop fuel u acc).length ≤ k + 1 + acc.length := by
  induction fuel with
  | zero => intro u k acc _; simp [fmtHexLoop]
  | succ n ih =>
    intro u k acc hu
    simp only [fmtHexLoop]
    split
    · rename_i h16
      cases k with
      | zero => simp at hu; omega
      | succ k =>
        have hdiv : u / 16 < 16 ^ (k + 1) := by
          rw [Nat.div_lt_iff_lt_mul (by decide)]
          rw [pow_succ] at hu
          exact hu
        have := ih (u / 16) k (ldigits.getD (u % 16) 0 :: acc) hdiv
        simp only [List.length_cons] at this
        omega
    · simp only [List.length_cons]; omega

theorem zeroPad_length (w : Nat) (s : GoString) (h : s.length ≤ w) :
    (zeroPad w s).length = w := by
  simp only [zeroPad, List.length_append, List.length_replicate]; omega

theorem zeroPad_hex (w : Nat) (s : GoString) (h : ∀ b ∈ s, IsLowerHex b.val) :
    ∀ b ∈ zeroPad w s, IsLowerHex b.val := by
  intro b hb
  simp only [zeroPad, List.mem_append, List.mem_replicate] at hb
  rcases hb with ⟨_, hb⟩ | hb
  · subst hb; left; decide
  · exact h b hb

theorem md5_leBytes_length (n x : Nat) : (md5.leBytes n x).length = n := by
  induction n generalizing x with
  | zero => rfl
  | succ n ih => simp [md5.leBytes, ih]

theorem md5_Sum_length (msg : List Byte) : (md5.Sum msg).length = 16 := by
  simp [md5.Sum, md5_leBytes_length]

theorem decodeRune_ascii (b : Byte) (rest : List Byte)
    (h : (util.decodeRune b rest).1 < 128) : util.decodeRune b rest = (b.val, 1) := by
  unfold util.decodeRune at h ⊢
  by_cases h1 : b.val < 0x80
  · simp [h1]
  · exfalso
    simp only [h1, if_false] at h
    revert h
    simp only [util.runeError]
    repeat' split
    all_goals omega

theorem rangeRunes_ascii (s : GoString) (h : ∀ r ∈ util.rangeRunes 0 s, r < 128) :
    util.rangeRunes 0 s = s.map (fun b => b.val) := by
  induction s with
  | nil => rfl
  | cons b rest ih =>
    simp only [util.rangeRunes, List.mem_cons, forall_eq_or_imp] at h
    have hd := decodeRune_ascii b rest h.1
    have h2 := h.2
    simp only [util.rangeRunes, hd, List.map_cons] at h2 ⊢
    rw [ih h2]

theorem rangeRunes_of_ascii (s : GoString) (h : ∀ b ∈ s, b.val < 128) :
    util.rangeRunes 0 s = s.map (fun b => b.val) := by
  induction s with
  | nil => rfl
  | cons b rest ih =>
    have hb : b.val < 0x80 := h b (List.mem_cons_self _ _)
    have hd : util.decodeRune b rest = (b.val, 1) := by simp [util.decodeRune, hb]
    simp only [util.rangeRunes, hd, List.map_cons]
    rw [ih (fun x hx => h x (List.mem_cons_of_mem _ hx))]

theorem validLoop_iff (l : List Nat) : util.validLoop l = true ↔ ∀ c ∈ l, IsLowerHex c := by
  induction l with
  | nil => simp [util.validLoop]
  | cons c rest ih =>
    simp only [util.validLoop, List.mem_cons, forall_eq_or_imp, ← ih]
    by_cases hc : IsLowerHex c
    · have : ((decide (48 ≤ c) && decide (c ≤ 57)) || (decide (97 ≤ c) && decide (c ≤ 102))) = true := by
        unfold IsLowerHex at hc; simpa using hc
      simp [this, hc]
    · have : ((decide (48 ≤ c) && decide (c ≤ 57)) || (decide (97 ≤ c) && decide (c ≤ 102))) = false := by
        unfold IsLowerHex at hc
        rw [Bool.eq_false_iff]
        simpa using hc
      simp [this, hc]

theorem IsValidID_of_bytes (s : GoString) (hlen : s.length = 12)
    (hhex : ∀ b ∈ s, IsLowerHex b.val) : util.IsValidID s = true := by
  have hascii : ∀ b ∈ s, b.val < 128 := by
    intro b hb
    have := hhex b hb
    unfold IsLowerHex at this
    omega
  simp only [util.IsValidID, hlen, ne_eq, not_true_eq_false, if_false]
  rw [validLoop_iff, rangeRunes_of_ascii s hascii]
  intro c hc
  obtain ⟨b, hb, rfl⟩ := List.mem_map.mp hc
  exact hhex b hb

/-- C7: `IsValidID(s)` holds exactly when the characters (runes) of `s`, as
the range loop decodes them from any byte string, valid UTF-8 or not, are
exactly 12 in number and each is one of `0-9` or `a-f`. -/
theorem IsValidID_iff (s : GoString) :
    util.IsValidID s = true ↔
      (util.rangeRunes 0 s).length = 12 ∧ ∀ c ∈ util.rangeRunes 0 s, IsLowerHex c := by
  have key : (∀ c ∈ util.rangeRunes 0 s, IsLowerHex c) →
      util.rangeRunes 0 s = s.map (fun b => b.val) := by
    intro h
    apply rangeRunes_ascii
    intro r hr
    have := h r hr
    unfold IsLowerHex at this
    omega
  constructor
  · intro h
    unfold util.IsValidID at h
    by_cases hlen : s.length = 12
    · simp only [hlen, ne_eq, not_true_eq_false, if_false] at h
      rw [validLoop_iff] at h
      refine ⟨?_, h⟩
      rw [key h, List.length_map, hlen]
    · simp [hlen] at h
  · rintro ⟨hlen, hall⟩
    have hk := key hall
    rw [hk, List.length_map] at hlen
    simp only [util.IsValidID, hlen, ne_eq, not_true_eq_false, if_false]
    exact (validLoop_iff _).mpr hall

theorem sprintf012x_spec (u : Nat) (hu : u < 16 ^ 12) :
    (sprintf012x u).length = 12 ∧ ∀ b ∈ sprintf012x u, IsLowerHex b.val := by
  constructor
  · apply zeroPad_length
    have := fmtHexLoop_length 16 u 11 [] hu
    simpa using this
  · apply zeroPad_hex
    apply fmtHexLoop_hex
    intro b hb
    simp at hb

theorem GenerateID_shape (name : GoString) (timestamp randomValue : Int) :
    (util.GenerateID name timestamp randomValue).length = 12 ∧
      ∀ b ∈ util.GenerateID name timestamp randomValue, IsLowerHex b.val := by
  unfold util.GenerateID
  split
  · constructor
    · apply zeroPad_length
      rw [hexEncode_length, List.length_take, md5_Sum_length]
      decide
    · exact zeroPad_hex _ _ (hexEncode_hex _)
  · apply sprintf012x_spec
    have := @Nat.and_le_right (int64Bits timestamp ^^^ int64Bits randomValue) 0xffffffffffff
    have h16 : (16 : Nat) ^ 12 = 281474976710656 := by norm_num
    omega

theorem GenerateID_named (c : Byte) (rest : GoString) (timestamp randomValue : Int) :
    util.GenerateID (c :: rest) timestamp randomValue
      = hexEncode ((md5.Sum (c :: rest)).take 6) := by
  have hlen : (hexEncode ((md5.Sum (c :: rest)).take 6)).length = 12 := by
    rw [hexEncode_length, List.length_take, md5_Sum_length]
    decide
  simp [util.GenerateID, zeroPad, hlen]

/-- C6: for a non-empty name `c :: rest` the ID is the lower-case hex
rendering of the first 6 bytes of the MD5 digest of the name, whatever the
clock and the random source return (so it is a function of the name alone);
and for every name, the empty one included, and every timestamp and random
value, the ID has length 12, consists of the characters `0-9a-f`, and is
accepted by `IsValidID`. -/
theorem GenerateID_spec (name : GoString) (c : Byte) (rest : GoString)
    (timestamp randomValue timestamp2 randomValue2 : Int) :
    util.GenerateID (c :: rest) timestamp randomValue
        = hexEncode ((md5.Sum (c :: rest)).take 6)
      ∧ util.GenerateID (c :: rest) timestamp randomValue
        = util.GenerateID (c :: rest) timestamp2 randomValue2
      ∧ (util.GenerateID name timestamp randomValue).length = 12
      ∧ (∀ b ∈ util.GenerateID name timestamp randomValue, IsLowerHex b.val)
      ∧ util.IsValidID (util.GenerateID name timestamp randomValue) = true := by
  have hs := GenerateID_shape name timestamp randomValue
  refine ⟨GenerateID_named c rest _ _, ?_, hs.1, hs.2, IsValidID_of_bytes _ hs.1 hs.2⟩
  rw [GenerateID_named, GenerateID_named]

set_option maxRecDepth 100000 in
/-- The ID of the default network name, evaluated: `GenerateID("ducker")` is
`cf064a7be1cc`, the first 12 hex digits of the MD5 digest of the name. -/
theorem GenerateID_ducker : util.GenerateID (str ("ducker")) 0 0 = str ("cf064a7be1cc") := by
  decide

theorem startsWith_singleton (s : GoString) (c : Byte) :
    strings.startsWith s [c] = true ↔ ∃ rest, s = c :: rest := by
  cases s with
  | nil => simp [strings.startsWith]
  | cons a rest =>
    simp only [strings.startsWith, Bool.and_eq_true, decide_eq_true_eq]
    cases rest <;> simp [strings.startsWith]

theorem Contains_singleton (s : GoString) (c : Byte) :
    strings.Contains s [c] = true ↔ c ∈ s := by
  induction s with
  | nil => simp [strings.Contains, strings.startsWith]
  | cons a rest ih =>
    simp only [strings.Contains, Bool.or_eq_true, ih, startsWith_singleton, List.mem_cons]
    constructor
    · rintro (⟨r, hr⟩ | h)
      · left; exact ((List.cons.inj hr).1).symm
      · right; exact h
    · rintro (h | h)
      · left; exact ⟨rest, by rw [h]⟩
      · right; exact h

theorem normalizeTag_eq (t : GoString) :
    image.normalizeTag t = if byte 58 ∈ t then t else t ++ str (":latest") := by
  have hc : str (":") = [byte 58] := by decide
  unfold image.normalizeTag
  rw [hc]
  by_cases h : byte 58 ∈ t
  · simp [h, (Contains_singleton t (byte 58)).mpr h]
  · have : strings.Contains t [byte 58] = false := by
      rw [Bool.eq_false_iff]
      exact fun hh => h ((Contains_singleton t (byte 58)).mp hh)
    simp [h, this]

theorem normalizeTag_has_colon (t : GoString) : byte 58 ∈ image.normalizeTag t := by
  rw [normalizeTag_eq]
  by_cases h : byte 58 ∈ t
  · simp [h]
  · simp only [h, if_false, List.mem_append]
    right
    decide

theorem normalizeTag_ne_nil (t : GoString) : ∃ c rest, image.normalizeTag t = c :: rest := by
  have h := normalizeTag_has_colon t
  cases hn : image.normalizeTag t with
  | nil => rw [hn] at h; simp at h
  | cons c rest => exact ⟨c, rest, rfl⟩

/-- C8: `normalizeTag` is idempotent, and it returns a tag that contains `:`
(byte 58) unchanged and appends `:latest` to a tag that contains none. -/
theorem normalizeTag_idempotent (t : GoString) :
    image.normalizeTag (image.normalizeTag t) = image.normalizeTag t
      ∧ image.normalizeTag t = (if byte 58 ∈ t then t else t ++ str (":latest")) := by
  refine ⟨?_, normalizeTag_eq t⟩
  rw [normalizeTag_eq (image.normalizeTag t)]
  simp [normalizeTag_has_colon t]

/-- The literal examples of tag normalization: `x` becomes `x:latest` and
`x:y` stays `x:y`. -/
theorem normalizeTag_examples :
    image.normalizeTag (str ("x")) = str ("x:latest")
      ∧ image.normalizeTag (str ("x:y")) = str ("x:y") := by
  decide

theorem GenerateID_normalized (t : GoString) (now rnd now2 rnd2 : Int) :
    util.GenerateID (image.normalizeTag t) now rnd
      = util.GenerateID (image.normalizeTag t) now2 rnd2 := by
  obtain ⟨c, rest, h⟩ := normalizeTag_ne_nil t
  rw [h, GenerateID_named, GenerateID_named]

set_option maxRecDepth 100000 in
/-- C9, counterexample: the tag `abcdef012345` is itself a valid 12-hex ID.
A build with that output tag stores its manifest under
`GenerateID("abcdef012345:latest")`, which is `c3ed5e1ce3d4`, while
`Get("abcdef012345")` takes the argument for an ID, reads the manifest of
image `abcdef012345` and finds none. -/
theorem Get_hexTag_counterexample :
    util.IsValidID (str ("abcdef012345")) = true
      ∧ util.GenerateID (image.normalizeTag (str ("abcdef012345"))) 0 0 = str ("c3ed5e1ce3d4")
      ∧ ((image.NewBuilder image.sampleBase (str ("abcdef012345")) none).createImage
            image.emptyStore 0 0 0 0) (str ("c3ed5e1ce3d4")) ≠ none
      ∧ image.Get
          ((image.NewBuilder image.sampleBase (str ("abcdef012345")) none).createImage
            image.emptyStore 0 0 0 0)
          (str ("abcdef012345")) 0 0 = none := by
  decide

/-- C9, amended: for a tag `t` that is not itself a valid 12-hex ID,
`Get(t)` reads the manifest stored under `GenerateID(normalizeTag(t))`; that
is the ID under which `Builder.createImage` (reached from `Build` and from
`Create`, with any layers `ls` and options) and `Load` write the manifest for
output tag `t`, so `Get(t)` then returns the image they stored, whose tag is
`normalizeTag(t)`. -/
theorem Get_reads_normalized (t : GoString) (h : util.IsValidID t = false)
    (store : image.ImageStore) (base archived : image.Image)
    (opts : Option image.RunOptions) (ro : image.RunOptions) (ls : List image.layer)
    (created size now rnd now2 rnd2 : Int) :
    image.Get store t now rnd = store (util.GenerateID (image.normalizeTag t) now rnd)
      ∧ image.Get
          (image.Builder.createImage { image.NewBuilder base t opts with layers := ls }
            store created size now rnd) t now2 rnd2
        = some { Tag := image.normalizeTag t,
                 ID := util.GenerateID (image.normalizeTag t) now rnd,
                 CreatedAt := created,
                 Layers := base.Layers ++ ls.map (fun l => l.hash),
                 Size := size, Hidden := false,
                 RunOptions := some (image.NewBuilder base t opts).opts }
      ∧ image.Get
          (image.Load store { archived with RunOptions := some ro } t size now rnd).2
          t now2 rnd2
        = some { archived with Tag := image.normalizeTag t,
                               ID := util.GenerateID (image.normalizeTag t) now rnd,
                               Size := size, RunOptions := some ro }
      ∧ (image.Load store { archived with RunOptions := some ro } t size now rnd).1
        = some { archived with Tag := image.normalizeTag t,
                               ID := util.GenerateID (image.normalizeTag t) now rnd,
                               Size := size, RunOptions := some ro } := by
  have hg := GenerateID_normalized t now2 rnd2 now rnd
  refine ⟨?_, ?_, ?_, ?_⟩
  · simp [image.Get, h]
  · simp [image.Get, h, image.Builder.createImage, image.NewBuilder, image.ImageStore.write, hg]
  · simp [image.Get, h, image.Load, image.ImageStore.write, hg]
  · simp [image.Load]

set_option maxRecDepth 100000 in
/-- C9, amended, at the tag `demo`: it is not a valid ID, and after a build
with output tag `demo` the image `Get("demo")` returns carries the tag
`demo:latest`. -/
theorem Get_reads_normalized_witness :
    util.IsValidID (str ("demo")) = false
      ∧ (image.Get
          (image.Builder.createImage
            { image.NewBuilder image.sampleBase (str ("demo")) none with layers := [] }
            image.emptyStore 0 0 0 0) (str ("demo")) 1 1).map (fun img => img.Tag)
        = some (str ("demo:latest")) := by
  refine ⟨by decide, ?_⟩
  rw [(Get_reads_normalized (str ("demo")) (by decide) image.emptyStore image.sampleBase
    image.sampleBase none ⟨[], [], [], []⟩ [] 0 0 0 0 1 1).2.1]
  decide

theorem stringLess_irrefl (a : GoString) : sort.stringLess a a = false := by
  induction a with
  | nil => rfl
  | cons x s ih => simp [sort.stringLess, ih]

theorem stringLess_asymm : ∀ (a b : GoString),
    sort.stringLess a b = true → sort.stringLess b a = false
  | _, [] => by intro h; simp [sort.stringLess] at h
  | [], _ :: _ => by intro _; simp [sort.stringLess]
  | x :: s, y :: t => by
    intro h
    simp only [sort.stringLess, Bool.or_eq_true, Bool.and_eq_true, decide_eq_true_eq] at h
    simp only [sort.stringLess, Bool.or_eq_false_iff, Bool.and_eq_false_imp,
      decide_eq_false_iff_not, decide_eq_true_eq]
    rcases h with h | ⟨hxy, h⟩
    · refine ⟨by omega, ?_⟩
      intro hyx
      rw [hyx] at h
      omega
    · subst hxy
      exact ⟨by omega, fun _ => stringLess_asymm s t h⟩

theorem stringLess_trichotomy : ∀ (a b : GoString),
    sort.stringLess a b = false → sort.stringLess b a = false → a = b
  | [], [] => by intros; rfl
  | [], _ :: _ => by intro h; simp [sort.stringLess] at h
  | _ :: _, [] => by intro _ h; simp [sort.stringLess] at h
  | x :: s, y :: t => by
    intro h1 h2
    simp only [sort.stringLess, Bool.or_eq_false_iff, Bool.and_eq_false_imp,
      decide_eq_false_iff_not, decide_eq_true_eq] at h1 h2
    have hxy : x = y := Fin.ext (by omega)
    subst hxy
    rw [stringLess_trichotomy s t (h1.2 rfl) (h2.2 rfl)]

theorem stringLess_trans : ∀ (a b c : GoString),
    sort.stringLess a b = true → sort.stringLess b c = true → sort.stringLess a c = true
  | _, _, [] => by intro _ h; simp [sort.stringLess] at h
  | _, [], _ :: _ => by intro h; simp [sort.stringLess] at h
  | [], _ :: _, _ :: _ => by intros; simp [sort.stringLess]
  | x :: s, y :: t, z :: u => by
    intro h1 h2
    simp only [sort.stringLess, Bool.or_eq_true, Bool.and_eq_true, decide_eq_true_eq]
      at h1 h2 ⊢
    rcases h1 with h1 | ⟨hxy, h1⟩
    · rcases h2 with h2 | ⟨hyz, _⟩
      · left; omega
      · subst hyz; left; exact h1
    · subst hxy
      rcases h2 with h2 | ⟨hyz, h2⟩
      · left; exact h2
      · right; exact ⟨hyz, stringLess_trans s t u h1 h2⟩

instance stringLE_total : IsTotal GoString (fun a b => sort.stringLess b a = false) where
  total a b := by
    cases h : sort.stringLess b a
    · left; rfl
    · right; exact stringLess_asymm b a h

instance stringLE_trans : IsTrans GoString (fun a b => sort.stringLess b a = false) where
  trans a b c hab hbc := by
    show sort.stringLess c a = false
    have hab : sort.stringLess b a = false := hab
    have hbc : sort.stringLess c b = false := hbc
    cases hca : sort.stringLess c a
    · rfl
    · exfalso
      cases hba : sort.stringLess a b
      · have := stringLess_trichotomy a b hba hab
        subst this
        rw [hca] at hbc
        exact Bool.noConfusion hbc
      · have := stringLess_trans c a b hca hba
        rw [this] at hbc
        exact Bool.noConfusion hbc

instance stringLE_antisymm : IsAntisymm GoString (fun a b => sort.stringLess b a = false) where
  antisymm a b hab hba := stringLess_trichotomy a b hba hab

theorem sortStrings_perm (l₁ l₂ : List GoString) (h : l₁.Perm l₂) :
    sort.Strings l₁ = sort.Strings l₂ := by
  unfold sort.Strings
  apply List.eq_of_perm_of_sorted (r := fun a b => sort.stringLess b a = false)
  · exact ((List.perm_insertionSort _ l₁).trans h).trans (List.perm_insertionSort _ l₂).symm
  · exact List.sorted_insertionSort _ l₁
  · exact List.sorted_insertionSort _ l₂

theorem sortStrings_mem (l : List GoString) (x : GoString) :
    x ∈ sort.Strings l ↔ x ∈ l :=
  (List.perm_insertionSort _ l).mem_iff

theorem walkLoop_eq (dir : GoString) (fs : List util.Entry)
    (h : ∀ e ∈ fs, e.walkErr = false) (acc : List GoString) :
    util.walkLoop dir (util.Walk dir fs) acc
      = some (acc ++ (util.files fs).map (fun p => p.1)) := by
  induction fs generalizing acc with
  | nil => simp [util.Walk, util.walkLoop, util.files]
  | cons e rest ih =>
    have he : e.walkErr = false := h e (List.mem_cons_self _ _)
    have hrest : ∀ x ∈ rest, x.walkErr = false := fun x hx => h x (List.mem_cons_of_mem _ hx)
    have ih2 := fun acc => ih hrest acc
    simp only [util.Walk] at ih2
    simp only [util.Walk, List.map_cons, util.walkLoop, he]
    cases hd : e.isDir
    · have hf : util.files (e :: rest) = (e.name, e.content) :: util.files rest := by
        simp [util.files, hd]
      have hr : filepath.Rel dir (filepath.Join dir e.name) = e.name := by
        simp [filepath.Rel, filepath.Join]
      simp [ih2, hf, hr]
    · have hf : util.files (e :: rest) = util.files rest := by
        simp [util.files, hd]
      simp [ih2, hf]

theorem readFile_of_mem (dir : GoString) (fs : List util.Entry)
    (hnd : (fs.map (fun e => e.name)).Nodup) (p : GoString × Option (List Byte))
    (hp : p ∈ util.files fs) : util.readFile dir fs (filepath.Join dir p.1) = p.2 := by
  induction fs with
  | nil => simp [util.files] at hp
  | cons e rest ih =>
    simp only [List.map_cons, List.nodup_cons] at hnd
    unfold util.readFile
    by_cases hname : e.name = p.1
    · have hfind : (e :: rest).find? (fun x => decide (filepath.Join dir x.name
          = filepath.Join dir p.1)) = some e := by
        simp [List.find?, hname]
      rw [hfind]
      simp only [util.files, List.mem_map, List.mem_filter, List.mem_cons] at hp
      obtain ⟨x, ⟨hx | hx, hxd⟩, hxp⟩ := hp
      · subst hx
        rw [← hxp]
        have hxd2 : x.isDir = false := by simpa using hxd
        simp [hxd2]
      · exfalso
        apply hnd.1
        rw [hname, ← hxp]
        exact List.mem_map.mpr ⟨x, hx, rfl⟩
    · have hfind : (e :: rest).find? (fun x => decide (filepath.Join dir x.name
          = filepath.Join dir p.1))
          = rest.find? (fun x => decide (filepath.Join dir x.name = filepath.Join dir p.1)) := by
        have : filepath.Join dir e.name ≠ filepath.Join dir p.1 := by
          intro hh
          apply hname
          simpa [filepath.Join] using hh
        simp [List.find?, this]
      rw [hfind]
      have hp2 : p ∈ util.files rest := by
        simp only [util.files, List.mem_map, List.mem_filter, List.mem_cons] at hp ⊢
        obtain ⟨x, ⟨hx | hx, hxd⟩, hxp⟩ := hp
        · exfalso; apply hname; rw [← hxp, hx]
        · exact ⟨x, ⟨hx, hxd⟩, hxp⟩
      have := ih hnd.2 hp2
      unfold util.readFile at this
      exact this

theorem hashLoop_congr (d₁ d₂ : GoString) (fs₁ fs₂ : List util.Entry) (l : List GoString)
    (h : ∀ n ∈ l, util.readFile d₁ fs₁ (filepath.Join d₁ n)
      = util.readFile d₂ fs₂ (filepath.Join d₂ n)) (written : List Byte) :
    util.hashLoop d₁ fs₁ l written = util.hashLoop d₂ fs₂ l written := by
  induction l generalizing written with
  | nil => rfl
  | cons n rest ih =>
    simp only [util.hashLoop]
    rw [h n (List.mem_cons_self _ _)]
    cases util.readFile d₂ fs₂ (filepath.Join d₂ n) with
    | none => rfl
    | some data => exact ih (fun m hm => h m (List.mem_cons_of_mem _ hm)) _

theorem hashLoop_isSome (dir : GoString) (fs : List util.Entry) (l : List GoString)
    (h : ∀ n ∈ l, (util.readFile dir fs (filepath.Join dir n)).isSome = true)
    (written : List Byte) : (util.hashLoop dir fs l written).isSome = true := by
  induction l generalizing written with
  | nil => rfl
  | cons n rest ih =>
    simp only [util.hashLoop]
    have hn := h n (List.mem_cons_self _ _)
    cases hr : util.readFile dir fs (filepath.Join dir n) with
    | none => rw [hr] at hn; exact Bool.noConfusion hn
    | some data => exact ih (fun m hm => h m (List.mem_cons_of_mem _ hm)) _

theorem files_nodup (fs : List util.Entry) (hnd : (fs.map (fun e => e.name)).Nodup) :
    (util.files fs).Nodup := by
  have h1 : ((util.files fs).map (fun p => p.1)).Nodup := by
    have : (util.files fs).map (fun p => p.1)
        = (fs.filter (fun e => !e.isDir)).map (fun e => e.name) := by
      simp [util.files, List.map_map, Function.comp_def]
    rw [this]
    exact (List.filter_sublist _).map _ |>.nodup hnd
  exact List.Nodup.of_map _ h1

theorem sha256_round_length (st : List Nat) (kw : Nat × Nat) :
    (sha256.round st kw).length = st.length := by
  unfold sha256.round
  split <;> simp

theorem sha256_foldl_round_length (l : List (Nat × Nat)) (st : List Nat) :
    (l.foldl sha256.round st).length = st.length := by
  induction l generalizing st with
  | nil => rfl
  | cons kw rest ih => simp only [List.foldl_cons]; rw [ih, sha256_round_length]

theorem sha256_blocks_length (n : Nat) (st : List Nat) (bs : List Byte) :
    (sha256.blocks n st bs).length = st.length := by
  induction n generalizing st bs with
  | zero => rfl
  | succ n ih =>
    simp only [sha256.blocks]
    rw [ih]
    simp [sha256.block, sha256_foldl_round_length]

theorem sha256_beBytes_length (n x : Nat) : (sha256.beBytes n x).length = n := by
  induction n generalizing x with
  | zero => rfl
  | succ n ih => simp [sha256.beBytes, ih]

theorem sha256_Sum_length (msg : List Byte) : (sha256.Sum msg).length = 32 := by
  have h : ∀ l : List Nat, (l.flatMap (sha256.beBytes 4)).length = 4 * l.length := by
    intro l
    induction l with
    | nil => rfl
    | cons x rest ih =>
      simp only [List.flatMap_cons, List.length_append, ih, sha256_beBytes_length,
        List.length_cons]
      omega
  unfold sha256.Sum
  simp only [h, sha256_blocks_length]
  rfl

theorem HashDir_eq (dir : GoString) (fs : List util.Entry)
    (herr : ∀ e ∈ fs, e.walkErr = false) :
    util.HashDir dir fs
      = (util.hashLoop dir fs (sort.Strings ((util.files fs).map (fun p => p.1))) []).map
          (fun written => (hexEncode (sha256.Sum written)).take 12) := by
  unfold util.HashDir
  rw [walkLoop_eq dir fs herr []]
  simp only [List.nil_append]
  cases util.hashLoop dir fs (sort.Strings ((util.files fs).map (fun p => p.1))) [] <;> rfl

theorem HashDir_shape (dir : GoString) (fs : List util.Entry) (h : GoString)
    (hh : util.HashDir dir fs = some h) : h.length = 12 ∧ ∀ b ∈ h, IsLowerHex b.val := by
  unfold util.HashDir at hh
  split at hh
  · exact Option.noConfusion hh
  · split at hh
    · exact Option.noConfusion hh
    · rename_i written _
      have hh := Option.some.inj hh
      subst hh
      constructor
      · rw [List.length_take, hexEncode_length, sha256_Sum_length]
        decide
      · intro b hb
        exact hexEncode_hex _ b (List.mem_of_mem_take hb)

/-- C10: for two directories, wherever they are (`d₁`, `d₂`) and in whatever
order their entries are visited, that are walked without error, list no
path twice and have the same set of (relative path, content) pairs of
files, `HashDir` returns the same result; a returned hash is 12 lower-case
hex characters; and when every file can be read it is returned, as the first
12 hex digits of the SHA-256 of what the second loop wrote: the sorted
relative paths, each followed by the file's content. -/
theorem HashDir_depends_on_files (d₁ d₂ : GoString) (fs₁ fs₂ : List util.Entry)
    (herr₁ : ∀ e ∈ fs₁, e.walkErr = false) (herr₂ : ∀ e ∈ fs₂, e.walkErr = false)
    (hnd₁ : (fs₁.map (fun e => e.name)).Nodup) (hnd₂ : (fs₂.map (fun e => e.name)).Nodup)
    (hset : (util.files fs₁).toFinset = (util.files fs₂).toFinset) :
    util.HashDir d₁ fs₁ = util.HashDir d₂ fs₂
      ∧ (∀ h, util.HashDir d₁ fs₁ = some h → h.length = 12 ∧ ∀ b ∈ h, IsLowerHex b.val)
      ∧ ((∀ p ∈ util.files fs₁, p.2.isSome = true) →
          ∃ written,
            util.hashLoop d₁ fs₁ (sort.Strings ((util.files fs₁).map (fun p => p.1))) []
                = some written
              ∧ util.HashDir d₁ fs₁ = some ((hexEncode (sha256.Sum written)).take 12)) := by
  have hperm : (util.files fs₁).Perm (util.files fs₂) :=
    List.perm_of_nodup_nodup_toFinset_eq (files_nodup fs₁ hnd₁) (files_nodup fs₂ hnd₂) hset
  have hsort : sort.Strings ((util.files fs₁).map (fun p => p.1))
      = sort.Strings ((util.files fs₂).map (fun p => p.1)) :=
    sortStrings_perm _ _ (hperm.map _)
  refine ⟨?_, fun h hh => HashDir_shape d₁ fs₁ h hh, ?_⟩
  · rw [HashDir_eq d₁ fs₁ herr₁, HashDir_eq d₂ fs₂ herr₂, ← hsort]
    congr 1
    apply hashLoop_congr
    intro n hn
    rw [sortStrings_mem] at hn
    obtain ⟨p, hp, rfl⟩ := List.mem_map.mp hn
    rw [readFile_of_mem d₁ fs₁ hnd₁ p hp, readFile_of_mem d₂ fs₂ hnd₂ p (hperm.mem_iff.mp hp)]
  · intro hread
    have hsome := hashLoop_isSome d₁ fs₁ (sort.Strings ((util.files fs₁).map (fun p => p.1)))
      (by
        intro n hn
        rw [sortStrings_mem] at hn
        obtain ⟨p, hp, rfl⟩ := List.mem_map.mp hn
        rw [readFile_of_mem d₁ fs₁ hnd₁ p hp]
        exact hread p hp) []
    obtain ⟨written, hw⟩ := Option.isSome_iff_exists.mp hsome
    refine ⟨written, hw, ?_⟩
    rw [HashDir_eq d₁ fs₁ herr₁, hw]
    rfl

/-- C10 at two concrete trees: the same two files under `/tmp/a` and under
`/var/lib/ducker/x`, visited in different orders, the second with one more
empty directory, get the same hash. -/
theorem HashDir_depends_on_files_witness :
    (∀ e ∈ util.sampleTree, e.walkErr = false)
      ∧ (∀ e ∈ util.sampleTree2, e.walkErr = false)
      ∧ (util.sampleTree.map (fun e => e.name)).Nodup
      ∧ (util.sampleTree2.map (fun e => e.name)).Nodup
      ∧ (util.files util.sampleTree).toFinset = (util.files util.sampleTree2).toFinset
      ∧ util.HashDir (str ("/tmp/a")) util.sampleTree
          = util.HashDir (str ("/var/lib/ducker/x")) util.sampleTree2 :=
  ⟨by decide, by decide, by decide, by decide, by decide,
    (HashDir_depends_on_files (str ("/tmp/a")) (str ("/var/lib/ducker/x"))
      util.sampleTree util.sampleTree2 (by decide) (by decide) (by decide) (by decide)
      (by decide)).1⟩

set_option maxRecDepth 100000 in
/-- The hash of the sample tree, evaluated: the hasher receives
`a.txthellosub/bx` and the result is `f94adc7a1738`. -/
theorem HashDir_sampleTree :
    util.HashDir (str ("/tmp/a")) util.sampleTree = some (str ("f94adc7a1738")) := by
  decide

/-! ### Formatting and parsing of IPv4 text -/

theorem byte_digit_val (d : Nat) (h : d < 10) : (byte (48 + d)).val = 48 + d := by
  simp only [byte]
  omega

theorem v4Step_digit (st : net.V4State) (d : Nat) (hd : d < 10) (last : Bool)
    (hlead : ¬ (st.digLen = 1 ∧ st.val = 0)) (hval : st.val * 10 + d ≤ 255) :
    net.v4Step st (byte (48 + d)) last
      = some ⟨st.val * 10 + d, st.pos, st.digLen + 1, st.fields, some (byte (48 + d))⟩ := by
  have hv := byte_digit_val d hd
  have h1 : 48 ≤ (byte (48 + d)).val ∧ (byte (48 + d)).val ≤ 57 := by omega
  have h2 : ¬ (st.val * 10 + d > 255) := by omega
  have h3 : st.val * 10 + (byte (48 + d)).val - 48 = st.val * 10 + d := by omega
  simp only [net.v4Step, h1, and_self, if_true, hlead, if_false, h3, h2]

theorem v4Loop_cons_digit (st : net.V4State) (d : Nat) (hd : d < 10) (rest : List Byte)
    (hlead : ¬ (st.digLen = 1 ∧ st.val = 0)) (hval : st.val * 10 + d ≤ 255) :
    net.v4Loop st (byte (48 + d) :: rest)
      = net.v4Loop ⟨st.val * 10 + d, st.pos, st.digLen + 1, st.fields,
          some (byte (48 + d))⟩ rest := by
  simp only [net.v4Loop, v4Step_digit st d hd _ hlead hval]

theorem appendDecimal_eq (b : GoString) (x : Nat) :
    net.appendDecimal b x = b ++ net.appendDecimal [] x := by
  unfold net.appendDecimal
  by_cases h1 : x ≥ 100 <;> by_cases h2 : x ≥ 10 <;> simp [h1, h2]

theorem appendDecimal_digits (x : Nat) (hx : x < 256) :
    ∀ c ∈ net.appendDecimal [] x, IsDigit c := by
  intro c hc
  unfold net.appendDecimal at hc
  unfold IsDigit
  by_cases h1 : x ≥ 100 <;> by_cases h2 : x ≥ 10 <;>
    simp only [h1, h2, if_true, if_false, List.nil_append, List.cons_append, List.mem_cons,
      List.mem_singleton, List.not_mem_nil, or_false] at hc
  · rcases hc with hc | hc | hc <;> subst hc
    · have := byte_digit_val (x / 100) (by omega); omega
    · have := byte_digit_val (x / 10 % 10) (by omega); omega
    · have := byte_digit_val (x % 10) (by omega); omega
  · omega
  · rcases hc with hc | hc <;> subst hc
    · have := byte_digit_val (x / 10 % 10) (by omega); omega
    · have := byte_digit_val (x % 10) (by omega); omega
  · subst hc
    have := byte_digit_val (x % 10) (by omega); omega

theorem v4Loop_octet (x : Nat) (hx : x < 256) :
    ∃ k d, 1 ≤ k ∧ IsDigit d ∧ ∀ (pos : Nat) (fields : List Nat) (prev : Option Byte)
      (rest : List Byte),
      net.v4Loop ⟨0, pos, 0, fields, prev⟩ (net.appendDecimal [] x ++ rest)
        = net.v4Loop ⟨x, pos, k, fields, some d⟩ rest := by
  by_cases h1 : x ≥ 100
  · refine ⟨3, byte (48 + x % 10), by omega, ?_, ?_⟩
    · have := byte_digit_val (x % 10) (by omega); unfold IsDigit; omega
    · intro pos fields prev rest
      have h2 : x ≥ 10 := by omega
      simp only [net.appendDecimal, h1, h2, if_true, List.nil_append, List.cons_append]
      rw [v4Loop_cons_digit _ (x / 100) (by omega) _ (by simp) (by simp; omega)]
      rw [v4Loop_cons_digit _ (x / 10 % 10) (by omega) _ (by simp; omega) (by simp; omega)]
      rw [v4Loop_cons_digit _ (x % 10) (by omega) _ (by simp) (by simp; omega)]
      have : (0 * 10 + x / 100) * 10 + x / 10 % 10 = x / 10 := by omega
      simp only [this]
      have : x / 10 * 10 + x % 10 = x := by omega
      simp only [this]
  · by_cases h2 : x ≥ 10
    · refine ⟨2, byte (48 + x % 10), by omega, ?_, ?_⟩
      · have := byte_digit_val (x % 10) (by omega); unfold IsDigit; omega
      · intro pos fields prev rest
        simp only [net.appendDecimal, h1, h2, if_true, if_false, List.nil_append,
          List.cons_append]
        rw [v4Loop_cons_digit _ (x / 10 % 10) (by omega) _ (by simp) (by simp; omega)]
        rw [v4Loop_cons_digit _ (x % 10) (by omega) _ (by simp; omega) (by simp; omega)]
        have : (0 * 10 + x / 10 % 10) * 10 + x % 10 = x := by omega
        simp only [this]
    · refine ⟨1, byte (48 + x % 10), by omega, ?_, ?_⟩
      · have := byte_digit_val (x % 10) (by omega); unfold IsDigit; omega
      · intro pos fields prev rest
        simp only [net.appendDecimal, h1, h2, if_false, List.nil_append, List.cons_append]
        rw [v4Loop_cons_digit _ (x % 10) (by omega) _ (by simp) (by simp; omega)]
        have : 0 * 10 + x % 10 = x := by omega
        simp only [this]

theorem v4Loop_dot (x pos k : Nat) (fields : List Nat) (d c : Byte) (rest : List Byte)
    (hd : IsDigit d) (hpos : pos < 3) :
    net.v4Loop ⟨x, pos, k, fields, some d⟩ (byte 46 :: c :: rest)
      = net.v4Loop ⟨0, pos + 1, 0, fields ++ [x], some (byte 46)⟩ (c :: rest) := by
  have h46 : (byte 46).val = 46 := by decide
  have h1 : ¬ (48 ≤ (byte 46).val ∧ (byte 46).val ≤ 57) := by omega
  have h2 : d ≠ byte 46 := by
    intro h; unfold IsDigit at hd; rw [h] at hd; omega
  have h3 : pos ≠ 3 := by omega
  simp [net.v4Loop, net.v4Step, h1, h2, h3]

theorem IP_String_eq (ip : Nat) :
    net.IP.String ip
      = net.appendDecimal [] (ip / 16777216 % 256) ++ byte 46 ::
          (net.appendDecimal [] (ip / 65536 % 256) ++ byte 46 ::
            (net.appendDecimal [] (ip / 256 % 256) ++ byte 46 ::
              net.appendDecimal [] (ip % 256))) := by
  unfold net.IP.String
  simp only []
  rw [appendDecimal_eq (_ ++ [byte 46]) (ip % 256),
    appendDecimal_eq (_ ++ [byte 46]) (ip / 256 % 256),
    appendDecimal_eq (_ ++ [byte 46]) (ip / 65536 % 256)]
  simp only [List.append_assoc, List.singleton_append, List.cons_append, List.nil_append]

theorem appendDecimal_ne_nil (x : Nat) : ∃ c rest, net.appendDecimal [] x = c :: rest := by
  unfold net.appendDecimal
  by_cases h1 : x ≥ 100 <;> by_cases h2 : x ≥ 10 <;> simp [h1, h2]

theorem parseIPv4Fields_String (ip : Nat) :
    net.parseIPv4Fields (net.IP.String ip)
      = some [ip / 16777216 % 256, ip / 65536 % 256, ip / 256 % 256, ip % 256] := by
  obtain ⟨k0, d0, _, hd0, h0⟩ := v4Loop_octet (ip / 16777216 % 256) (by omega)
  obtain ⟨k1, d1, _, hd1, h1⟩ := v4Loop_octet (ip / 65536 % 256) (by omega)
  obtain ⟨k2, d2, _, hd2, h2⟩ := v4Loop_octet (ip / 256 % 256) (by omega)
  obtain ⟨k3, d3, _, hd3, h3⟩ := v4Loop_octet (ip % 256) (by omega)
  obtain ⟨c1, r1, e1⟩ := appendDecimal_ne_nil (ip / 65536 % 256)
  obtain ⟨c2, r2, e2⟩ := appendDecimal_ne_nil (ip / 256 % 256)
  obtain ⟨c3, r3, e3⟩ := appendDecimal_ne_nil (ip % 256)
  have h3n := h3 3 [ip / 16777216 % 256, ip / 65536 % 256, ip / 256 % 256] (some (byte 46)) []
  rw [List.append_nil] at h3n
  unfold net.parseIPv4Fields
  rw [IP_String_eq, h0]
  rw [e1, List.cons_append, v4Loop_dot _ _ _ _ _ _ _ hd0 (by omega), ← List.cons_append, ← e1, h1]
  rw [e2, List.cons_append, v4Loop_dot _ _ _ _ _ _ _ hd1 (by omega), ← List.cons_append, ← e2, h2]
  rw [e3, v4Loop_dot _ _ _ _ _ _ _ hd2 (by omega), ← e3]
  simp only [List.nil_append, List.cons_append, Nat.zero_add, Nat.reduceAdd]
  rw [h3n]
  simp [net.v4Loop]

theorem Uint32_octets (ip : Nat) (h : ip < 4294967296) :
    net.Uint32 [ip / 16777216 % 256, ip / 65536 % 256, ip / 256 % 256, ip % 256] = ip := by
  simp only [net.Uint32, List.getD_cons_zero, List.getD_cons_succ]
  omega

theorem IP_String_chars (ip : Nat) : ∀ c ∈ net.IP.String ip, c = byte 46 ∨ IsDigit c := by
  intro c hc
  rw [IP_String_eq] at hc
  simp only [List.mem_append, List.mem_cons] at hc
  rcases hc with hc | hc | hc | hc | hc | hc | hc
  · exact Or.inr (appendDecimal_digits _ (by omega) c hc)
  · exact Or.inl hc
  · exact Or.inr (appendDecimal_digits _ (by omega) c hc)
  · exact Or.inl hc
  · exact Or.inr (appendDecimal_digits _ (by omega) c hc)
  · exact Or.inl hc
  · exact Or.inr (appendDecimal_digits _ (by omega) c hc)

theorem find_special (l : List Byte) (hl : ∀ c ∈ l, IsDigit c) (rest : List Byte) :
    (l ++ byte 46 :: rest).find? (fun c => c = byte 46 || c = byte 58 || c = byte 37)
      = some (byte 46) := by
  induction l with
  | nil => simp
  | cons x xs ih =>
    have hx := hl x (List.mem_cons_self _ _)
    unfold IsDigit at hx
    have h1 : x ≠ byte 46 := by intro h; rw [h] at hx; revert hx; decide
    have h2 : x ≠ byte 58 := by intro h; rw [h] at hx; revert hx; decide
    have h3 : x ≠ byte 37 := by intro h; rw [h] at hx; revert hx; decide
    rw [List.cons_append, List.find?_cons]
    simp only [h1, h2, h3, decide_False, Bool.or_self]
    exact ih (fun c hc => hl c (List.mem_cons_of_mem _ hc))

theorem ParseAddr_String (ip : Nat) (h : ip < 4294967296) :
    net.ParseAddr (net.IP.String ip) = some ip := by
  unfold net.ParseAddr
  have hf : (net.IP.String ip).find? (fun c => c = byte 46 || c = byte 58 || c = byte 37)
      = some (byte 46) := by
    rw [IP_String_eq]
    exact find_special _ (appendDecimal_digits _ (by omega)) _
  rw [hf]
  simp only [if_true, parseIPv4Fields_String, Option.map_some', Uint32_octets ip h]

theorem IP_String_injective (a b : Nat) (ha : a < 4294967296) (hb : b < 4294967296)
    (h : net.IP.String a = net.IP.String b) : a = b := by
  have h1 := ParseAddr_String a ha
  rw [h, ParseAddr_String b hb] at h1
  exact (Option.some.inj h1).symm

theorem cutByte_append (c : Byte) (l rest : List Byte) (hl : c ∉ l) :
    net.cutByte c (l ++ c :: rest) = some (l, rest) := by
  induction l with
  | nil => simp [net.cutByte]
  | cons x xs ih =>
    have hx : x ≠ c := fun h => hl (h ▸ List.mem_cons_self _ _)
    have hxs : c ∉ xs := fun h => hl (List.mem_cons_of_mem _ h)
    simp [net.cutByte, hx, ih hxs]

theorem dtoi_sprintfD (n : Nat) (h : n ≤ 32) :
    net.dtoi (net.sprintfD n) = (n, (net.sprintfD n).length, true) := by
  interval_cases n <;> decide

theorem ParseCIDR_format (ip : Nat) (n : Nat) (hip : ip < 4294967296) (hn : n ≤ 32) :
    net.ParseCIDR (net.IP.String ip ++ [byte 47] ++ net.sprintfD n)
      = some (ip, ⟨net.maskIP ip n, n⟩) := by
  have hno : byte 47 ∉ net.IP.String ip := by
    intro hmem
    rcases IP_String_chars ip _ hmem with h | h
    · revert h; decide
    · unfold IsDigit at h; revert h; decide
  unfold net.ParseCIDR
  rw [List.append_assoc, List.singleton_append, cutByte_append _ _ _ hno]
  simp only [ParseAddr_String ip hip, dtoi_sprintfD n hn]
  simp
  omega

/-! ### Facts about parsed CIDRs -/

theorem v4Step_inv (st st2 : net.V4State) (c : Byte) (last : Bool)
    (h : net.v4Step st c last = some st2) (hinv : V4Inv st) : V4Inv st2 := by
  unfold V4Inv at hinv ⊢
  simp only [net.v4Step] at h
  split_ifs at h with h1 h2 h3 h4 h5 h6
  · have h := Option.some.inj h
    subst h
    simp only
    exact ⟨by omega, hinv.2.1, hinv.2.2.1, hinv.2.2.2⟩
  · have h := Option.some.inj h
    subst h
    simp only [List.mem_append, List.mem_singleton, List.length_append, List.length_singleton]
    refine ⟨by omega, ?_, by omega, by omega⟩
    rintro f (hf | hf)
    · exact hinv.2.1 f hf
    · omega

theorem v4Loop_inv (s : List Byte) : ∀ (st st2 : net.V4State),
    net.v4Loop st s = some st2 → V4Inv st → V4Inv st2 := by
  induction s with
  | nil =>
    intro st st2 h hinv
    simp only [net.v4Loop] at h
    exact (Option.some.inj h) ▸ hinv
  | cons c rest ih =>
    intro st st2 h hinv
    simp only [net.v4Loop] at h
    cases hs : net.v4Step st c rest.isEmpty with
    | none => rw [hs] at h; exact Option.noConfusion h
    | some st1 =>
      rw [hs] at h
      exact ih st1 st2 h (v4Step_inv st st1 c _ hs hinv)

theorem ParseAddr_lt (s : GoString) (ip : Nat) (h : net.ParseAddr s = some ip) :
    ip < 4294967296 := by
  unfold net.ParseAddr at h
  split at h
  · split at h
    · unfold net.parseIPv4Fields at h
      cases hl : net.v4Loop ⟨0, 0, 0, [], none⟩ s with
      | none => rw [hl] at h; simp at h
      | some st =>
        rw [hl] at h
        have hinv := v4Loop_inv s _ st hl (by simp [V4Inv])
        unfold V4Inv at hinv
        by_cases hp : st.pos < 3
        · simp [hp] at h
        · simp only [hp, if_false, Option.map_some', Option.some.injEq] at h
          subst h
          obtain ⟨hv, hf, hlen, hpos⟩ := hinv
          have hlen3 : st.fields.length = 3 := by omega
          obtain ⟨a, b, c, hfs⟩ : ∃ a b c, st.fields = [a, b, c] := by
            match st.fields, hlen3 with
            | [a, b, c], _ => exact ⟨a, b, c, rfl⟩
          rw [hfs] at hf ⊢
          have ha := hf a (by simp)
          have hb := hf b (by simp)
          have hc := hf c (by simp)
          simp only [net.Uint32, List.cons_append, List.nil_append, List.getD_cons_zero,
            List.getD_cons_succ]
          omega
    · exact Option.noConfusion h
  · exact Option.noConfusion h

theorem ParseCIDR_props (s : GoString) (ip : Nat) (nw : net.IPNet)
    (h : net.ParseCIDR s = some (ip, nw)) :
    ip < 4294967296 ∧ nw.ones ≤ 32 ∧ nw.IP = net.maskIP ip nw.ones := by
  unfold net.ParseCIDR at h
  split at h
  · exact Option.noConfusion h
  · rename_i addr mask _
    split at h
    · exact Option.noConfusion h
    · rename_i ipAddr hpa
      simp only at h
      split_ifs at h with hc
      have h := Option.some.inj h
      simp only [Prod.mk.injEq] at h
      obtain ⟨h1, h2⟩ := h
      subst h1
      subst h2
      simp only [Bool.or_eq_true, Bool.not_eq_true', decide_eq_true_eq, not_or] at hc
      refine ⟨ParseAddr_lt _ _ hpa, ?_, rfl⟩
      show (net.dtoi mask).1 ≤ 32
      omega

theorem maskIP_le (ip ones : Nat) : net.maskIP ip ones ≤ ip := by
  unfold net.maskIP
  exact Nat.div_mul_le_self ip _

/-- The window `setRange` computes for a parsed network, when the host part
has at least one bit: `network+1 .. network + 2^h - 2` with `h = 32 - ones`. -/
theorem setRange_window (m : net.IPManager) (ip ones : Nat) (hip : ip < 4294967296)
    (hones : ones ≤ 31) :
    (m.setRange ⟨net.maskIP ip ones, ones⟩).rangeMin = net.maskIP ip ones + 1
      ∧ (m.setRange ⟨net.maskIP ip ones, ones⟩).rangeMax
          = net.maskIP ip ones + 2 ^ (32 - ones) - 2
      ∧ net.maskIP ip ones + 2 ^ (32 - ones) ≤ 4294967296 := by
  have hpos : 0 < 2 ^ (32 - ones) := Nat.two_pow_pos _
  have h2 : 2 ≤ 2 ^ (32 - ones) := by
    calc 2 = 2 ^ 1 := rfl
      _ ≤ 2 ^ (32 - ones) := Nat.pow_le_pow_right (by decide) (by omega)
  have hle : 2 ^ (32 - ones) ≤ 4294967296 := by
    calc 2 ^ (32 - ones) ≤ 2 ^ 32 := Nat.pow_le_pow_right (by decide) (by omega)
      _ = 4294967296 := by norm_num
  have hdvd : 2 ^ (32 - ones) ∣ 4294967296 := by
    have : (4294967296 : Nat) = 2 ^ 32 := by norm_num
    rw [this]
    exact pow_dvd_pow 2 (by omega)
  -- the network address plus the block size stays within 32 bits
  have hblock : net.maskIP ip ones + 2 ^ (32 - ones) ≤ 4294967296 := by
    unfold net.maskIP
    obtain ⟨q, hq⟩ := hdvd
    have hlt : ip / 2 ^ (32 - ones) < q := by
      rw [Nat.div_lt_iff_lt_mul hpos]
      rw [hq, Nat.mul_comm] at hip
      exact hip
    calc ip / 2 ^ (32 - ones) * 2 ^ (32 - ones) + 2 ^ (32 - ones)
        = (ip / 2 ^ (32 - ones) + 1) * 2 ^ (32 - ones) := by ring
      _ ≤ q * 2 ^ (32 - ones) := Nat.mul_le_mul_right _ hlt
      _ = 4294967296 := by rw [hq, Nat.mul_comm]
  have hor : net.maskIP ip ones ||| (2 ^ (32 - ones) - 1)
      = net.maskIP ip ones + (2 ^ (32 - ones) - 1) := by
    unfold net.maskIP
    rw [Nat.mul_comm]
    exact (Nat.mul_add_lt_is_or (by omega) _).symm
  have hshift : ((1 <<< (32 - ones)) % net.u32 + net.u32 - 1) % net.u32
      = 2 ^ (32 - ones) - 1 := by
    rw [Nat.one_shiftLeft]
    unfold net.u32
    by_cases h32 : 2 ^ (32 - ones) = 4294967296
    · rw [h32]
    · have : 2 ^ (32 - ones) < 4294967296 := by omega
      rw [Nat.mod_eq_of_lt this]
      omega
  simp only [net.IPManager.setRange, net.maskSize, hshift, hor]
  unfold net.u32
  generalize 2 ^ (32 - ones) = P at *
  generalize net.maskIP ip ones = N at *
  refine ⟨?_, ?_, hblock⟩
  · omega
  · omega

/-! ### The allocation loop -/

theorem usedLoop_eq (l : List GoString) :
    net.usedLoop l = (net.entryAddrs l).map net.IP.String := by
  induction l with
  | nil => rfl
  | cons e rest ih =>
    unfold net.usedLoop net.entryAddrs
    cases h : net.ParseCIDR e with
    | none => simp only [List.filterMap_cons, h, Option.map_none']; exact ih
    | some p =>
      obtain ⟨ip, nw⟩ := p
      simp only [List.filterMap_cons, h, Option.map_some', List.map_cons]
      rw [ih]
      rfl

theorem entryAddrs_lt (l : List GoString) (a : Nat) (h : a ∈ net.entryAddrs l) :
    a < 4294967296 := by
  unfold net.entryAddrs at h
  rw [List.mem_filterMap] at h
  obtain ⟨e, _, he⟩ := h
  cases hp : net.ParseCIDR e with
  | none => rw [hp] at he; exact Option.noConfusion he
  | some p =>
    obtain ⟨ip, nw⟩ := p
    rw [hp] at he
    have := Option.some.inj he
    subst this
    exact (ParseCIDR_props e ip nw hp).1

theorem GatewayIP_lt (m : net.IPManager) (a : Nat) (h : m.GatewayIP = some a) :
    a < 4294967296 := by
  unfold net.IPManager.GatewayIP at h
  split at h
  · split at h
    · rename_i ip nw hp
      have := Option.some.inj h
      subst this
      exact (ParseCIDR_props _ _ _ hp).1
    · exact Option.noConfusion h
  · split at h
    · have := Option.some.inj h
      subst this
      unfold net.uint32ToIP net.u32
      exact Nat.mod_lt _ (by decide)
    · exact Option.noConfusion h

/-- The key of an address is in the map `usedIPs` builds exactly when the
address is used. -/
theorem usedIPs_contains (m : net.IPManager) (a : Nat) (ha : a < 4294967296) :
    m.usedIPs.contains (net.IP.String a) = true ↔ m.IsUsed a := by
  have hmem : net.IP.String a ∈ net.usedLoop m.Allocated ↔ a ∈ net.entryAddrs m.Allocated := by
    rw [usedLoop_eq, List.mem_map]
    constructor
    · rintro ⟨b, hb, hs⟩
      have := IP_String_injective b a (entryAddrs_lt _ _ hb) ha hs
      exact this ▸ hb
    · intro h
      exact ⟨a, h, rfl⟩
  have hc : ∀ l : List GoString, l.contains (net.IP.String a) = true ↔ net.IP.String a ∈ l :=
    fun l => List.elem_iff
  unfold net.IPManager.IsUsed net.IPManager.usedIPs
  cases hg : m.GatewayIP with
  | none => simp only [hc, hmem]; simp
  | some g =>
    simp only [hc, List.mem_append, List.mem_singleton, hmem, Option.some.injEq]
    constructor
    · rintro (h | h)
      · exact Or.inl h
      · exact Or.inr (IP_String_injective a g ha (GatewayIP_lt m g hg) h).symm
    · rintro (h | h)
      · exact Or.inl h
      · exact Or.inr (by rw [h])

/-- A value the loop returns is within the bound and its key is not in `used`. -/
theorem allocLoop_some (used : List GoString) (rangeMax : Nat) :
    ∀ (fuel i a : Nat), net.allocLoop used rangeMax fuel i = some (some a) →
      i < 4294967296 →
      a ≤ rangeMax ∧ a < 4294967296 ∧ used.contains (net.IP.String a) = false := by
  intro fuel
  induction fuel with
  | zero => intro i a h; simp [net.allocLoop] at h
  | succ n ih =>
    intro i a h hi
    simp only [net.allocLoop] at h
    split_ifs at h with h1 h2
    · have h := Option.some.inj (Option.some.inj h)
      subst h
      have hu : net.uint32ToIP i = i := by
        unfold net.uint32ToIP net.u32; exact Nat.mod_eq_of_lt hi
      rw [hu] at h2
      exact ⟨h1, hi, by simpa using h2⟩
    · exact ih _ a h (by unfold net.u32; exact Nat.mod_lt _ (by decide))
    · exact Option.noConfusion (Option.some.inj h)

/-- The loop, when its counter cannot wrap: it ends without a result exactly
when every key from `i` to `rangeMax` is in `used`, and otherwise returns the
first `a` from `i` on whose key is not. -/
theorem allocLoop_spec (used : List GoString) (rangeMax : Nat) (hmax : rangeMax < 4294967295) :
    ∀ (fuel i : Nat), rangeMax + 2 - i ≤ fuel → 1 ≤ fuel →
      (net.allocLoop used rangeMax fuel i = some none
          ∧ ∀ j, i ≤ j → j ≤ rangeMax → used.contains (net.IP.String j) = true)
        ∨ ∃ a, net.allocLoop used rangeMax fuel i = some (some a)
            ∧ i ≤ a ∧ a ≤ rangeMax ∧ used.contains (net.IP.String a) = false
            ∧ ∀ j, i ≤ j → j < a → used.contains (net.IP.String j) = true := by
  intro fuel
  induction fuel with
  | zero => intro i _ h; omega
  | succ n ih =>
    intro i hfuel _
    simp only [net.allocLoop]
    by_cases h1 : i ≤ rangeMax
    · have hu : net.uint32ToIP i = i := by
        unfold net.uint32ToIP net.u32; exact Nat.mod_eq_of_lt (by omega)
      have hnext : (i + 1) % net.u32 = i + 1 := by
        unfold net.u32; exact Nat.mod_eq_of_lt (by omega)
      simp only [h1, if_true, hu, hnext]
      cases hc : used.contains (net.IP.String i) with
      | false =>
        right
        exact ⟨i, by simp, le_refl _, h1, hc, fun j h2 h3 => by omega⟩
      | true =>
        simp only [Bool.not_true, Bool.false_eq_true, if_false]
        rcases ih (i + 1) (by omega) (by omega) with ⟨he, hall⟩ | ⟨a, he, h2, h3, h4, h5⟩
        · left
          refine ⟨he, fun j hj1 hj2 => ?_⟩
          by_cases hji : j = i
          · rw [hji]; exact hc
          · exact hall j (by omega) hj2
        · right
          refine ⟨a, he, by omega, h3, h4, fun j hj1 hj2 => ?_⟩
          by_cases hji : j = i
          · rw [hji]; exact hc
          · exact h5 j (by omega) hj2
    · left
      simp only [h1, if_false, true_and]
      intro j hj1 hj2
      omega

/-! ### Initialised allocators -/

theorem setRange_fields (m : net.IPManager) (nw : net.IPNet) :
    (m.setRange nw).CIDR = m.CIDR ∧ (m.setRange nw).Range = m.Range
      ∧ (m.setRange nw).Gateway = m.Gateway ∧ (m.setRange nw).Allocated = m.Allocated
      ∧ (m.setRange nw).mask = m.mask
      ∧ (m.setRange nw).rangeMin < 4294967296 ∧ (m.setRange nw).rangeMax < 4294967296 := by
  simp only [net.IPManager.setRange, net.maskSize, net.u32, true_and]
  exact ⟨Nat.mod_lt _ (by decide), Nat.mod_lt _ (by decide)⟩

theorem setRange_range (m m2 : net.IPManager) (nw : net.IPNet) :
    (m.setRange nw).rangeMin = (m2.setRange nw).rangeMin
      ∧ (m.setRange nw).rangeMax = (m2.setRange nw).rangeMax := by
  simp [net.IPManager.setRange]

/-- What `init` establishes: the text fields and the allocated list are kept,
the mask is the prefix length of the CIDR, and the window is the one
`setRange` computes for the network, or for the sub-range when one is given. -/
theorem init_props (m₀ m : net.IPManager) (h : m₀.init = some m) :
    m.CIDR = m₀.CIDR ∧ m.Range = m₀.Range ∧ m.Gateway = m₀.Gateway
      ∧ m.Allocated = m₀.Allocated
      ∧ m.rangeMin < 4294967296 ∧ m.rangeMax < 4294967296
      ∧ ∃ ip nw, net.ParseCIDR m.CIDR = some (ip, nw) ∧ m.mask = some nw.ones
          ∧ ((m.Range = [] ∧ m.rangeMin = (m.setRange nw).rangeMin
                ∧ m.rangeMax = (m.setRange nw).rangeMax)
              ∨ (m.Range ≠ [] ∧ ∃ rip rnw, net.ParseCIDR m.Range = some (rip, rnw)
                ∧ m.rangeMin = (m.setRange rnw).rangeMin
                ∧ m.rangeMax = (m.setRange rnw).rangeMax)) := by
  unfold net.IPManager.init at h
  cases hc : net.ParseCIDR m₀.CIDR with
  | none => rw [hc] at h; exact Option.noConfusion h
  | some p =>
    obtain ⟨ip, nw⟩ := p
    rw [hc] at h
    simp only at h
    have hf := setRange_fields { m₀ with mask := some nw.ones } nw
    by_cases hr : m₀.Range = []
    · have hr2 : ¬ (net.IPManager.setRange { m₀ with mask := some nw.ones } nw).Range ≠ [] := by
        rw [hf.2.1]; simpa using hr
      rw [if_neg hr2] at h
      have h := Option.some.inj h
      subst h
      refine ⟨hf.1, hf.2.1, hf.2.2.1, hf.2.2.2.1, hf.2.2.2.2.2.1, hf.2.2.2.2.2.2, ip, nw, ?_,
        hf.2.2.2.2.1, Or.inl ⟨by rw [hf.2.1]; exact hr, ?_, ?_⟩⟩
      · rw [hf.1]; exact hc
      · exact (setRange_range _ _ nw).1
      · exact (setRange_range _ _ nw).2
    · have hr2 : (net.IPManager.setRange { m₀ with mask := some nw.ones } nw).Range ≠ [] := by
        rw [hf.2.1]; exact hr
      rw [if_pos hr2] at h
      cases hp : net.ParseCIDR (net.IPManager.setRange { m₀ with mask := some nw.ones } nw).Range
        with
      | none => rw [hp] at h; exact Option.noConfusion h
      | some q =>
        obtain ⟨rip, rnw⟩ := q
        rw [hp] at h
        have h := Option.some.inj h
        subst h
        have hf2 := setRange_fields
          (net.IPManager.setRange { m₀ with mask := some nw.ones } nw) rnw
        refine ⟨hf2.1.trans hf.1, hf2.2.1.trans hf.2.1, hf2.2.2.1.trans hf.2.2.1,
          hf2.2.2.2.1.trans hf.2.2.2.1, hf2.2.2.2.2.2.1, hf2.2.2.2.2.2.2, ip, nw, ?_,
          hf2.2.2.2.2.1.trans hf.2.2.2.2.1, Or.inr ⟨by rw [hf2.2.1]; exact hr2, rip, rnw, ?_, ?_, ?_⟩⟩
        · rw [hf2.1, hf.1]; exact hc
        · rw [hf2.2.1]; exact hp
        · exact (setRange_range _ _ rnw).1
        · exact (setRange_range _ _ rnw).2

theorem init_mask (m₀ m : net.IPManager) (h : m₀.init = some m) :
    ∃ p, m.mask = some p ∧ p ≤ 32 := by
  obtain ⟨_, _, _, _, _, _, ip, nw, hc, hm, _⟩ := init_props m₀ m h
  exact ⟨nw.ones, hm, (ParseCIDR_props _ _ _ hc).2.1⟩

theorem ParseCIDR_toCIDR (m : net.IPManager) (p a : Nat) (hm : m.mask = some p) (hp : p ≤ 32)
    (ha : a < 4294967296) :
    net.ParseCIDR (m.toCIDR a) = some (a, ⟨net.maskIP a p, p⟩) := by
  unfold net.IPManager.toCIDR
  rw [hm]
  exact ParseCIDR_format a p ha hp

theorem mem_entryAddrs (l : List GoString) (e : GoString) (a : Nat) (nw : net.IPNet)
    (he : e ∈ l) (hp : net.ParseCIDR e = some (a, nw)) : a ∈ net.entryAddrs l := by
  unfold net.entryAddrs
  rw [List.mem_filterMap]
  exact ⟨e, he, by rw [hp]; rfl⟩

/-- A successful `Allocate`, in any state: the result is the CIDR text of an
address that is not used, and it is appended to the allocated list. -/
theorem Allocate_some (m m2 : net.IPManager) (s : GoString)
    (h : m.Allocate = some (some s, m2)) (hmin : m.rangeMin < 4294967296) :
    ∃ a, a < 4294967296 ∧ a ≤ m.rangeMax ∧ ¬ m.IsUsed a ∧ s = m.toCIDR a
      ∧ m2 = { m with Allocated := m.Allocated ++ [s] } := by
  unfold net.IPManager.Allocate at h
  simp only at h
  cases hl : net.allocLoop m.usedIPs m.rangeMax 4294967296 m.rangeMin with
  | none => rw [hl] at h; exact Option.noConfusion h
  | some r =>
    rw [hl] at h
    cases r with
    | none =>
      simp only at h
      have h := Option.some.inj h
      simp only [Prod.mk.injEq] at h
      exact Option.noConfusion h.1
    | some i =>
      simp only at h
      have h := Option.some.inj h
      simp only [Prod.mk.injEq, Option.some.injEq] at h
      obtain ⟨hle, hlt, hfree⟩ := allocLoop_some _ _ _ _ _ hl hmin
      have hu : net.uint32ToIP i = i := by
        unfold net.uint32ToIP net.u32; exact Nat.mod_eq_of_lt hlt
      rw [hu] at h
      refine ⟨i, hlt, hle, ?_, h.1.symm, ?_⟩
      · intro hused
        rw [← usedIPs_contains m i hlt, hfree] at hused
        exact Bool.noConfusion hused
      · rw [← h.2, h.1]

theorem releaseLoop_append (s : GoString) (l : List GoString) (h : s ∉ l) :
    net.releaseLoop s (l ++ [s]) = l := by
  induction l with
  | nil => simp [net.releaseLoop]
  | cons v rest ih =>
    have hv : v ≠ s := fun e => h (e ▸ List.mem_cons_self _ _)
    have := ih (fun hm => h (List.mem_cons_of_mem _ hm))
    show net.releaseLoop s (v :: (rest ++ [s])) = v :: rest
    simp only [net.releaseLoop, hv, if_false, this]

/-- C3: in every initialised allocator state `m` in which `Allocate`
succeeds with result `a`, `Release(a)` gives back the state `m`, so the
allocated list has the same entries in the same order, and the next
`Allocate` returns `a` again. -/
theorem Allocate_Release_roundtrip (m₀ m m2 : net.IPManager) (a : GoString)
    (hinit : m₀.init = some m) (h : m.Allocate = some (some a, m2)) :
    m2.Release a = m
      ∧ (m2.Release a).Allocated = m.Allocated
      ∧ (m2.Release a).Allocate = some (some a, m2) := by
  obtain ⟨p, hm, hp⟩ := init_mask m₀ m hinit
  have hmin := (init_props m₀ m hinit).2.2.2.2.1
  obtain ⟨i, hi, _, hfree, hs, hm2⟩ := Allocate_some m m2 a h hmin
  have hnot : a ∉ m.Allocated := by
    intro hmem
    apply hfree
    left
    exact mem_entryAddrs _ a i _ hmem (hs ▸ ParseCIDR_toCIDR m p i hm hp hi)
  have hrel : m2.Release a = m := by
    rw [hm2]
    simp only [net.IPManager.Release, releaseLoop_append a m.Allocated hnot]
  exact ⟨hrel, by rw [hrel], by rw [hrel]; exact h⟩

/-- C3 on the network `10.0.0.0/24` with only the gateway `10.0.0.1/24`
reserved: the first `Allocate` returns `10.0.0.2/24`, and after releasing it
the next `Allocate` returns `10.0.0.2/24` again. -/
theorem Allocate_Release_roundtrip_witness :
    net.newIPManager (str ("10.0.0.0/24")) [] (str ("10.0.0.1/24")) = some net.sampleManager
      ∧ net.sampleManager.Allocate
          = some (some (str ("10.0.0.2/24")),
              { net.sampleManager with Allocated := [str ("10.0.0.2/24")] })
      ∧ net.IPManager.Release { net.sampleManager with Allocated := [str ("10.0.0.2/24")] }
          (str ("10.0.0.2/24")) = net.sampleManager
      ∧ (net.IPManager.Release { net.sampleManager with Allocated := [str ("10.0.0.2/24")] }
          (str ("10.0.0.2/24"))).Allocate
          = some (some (str ("10.0.0.2/24")),
              { net.sampleManager with Allocated := [str ("10.0.0.2/24")] }) :=
  have h := Allocate_Release_roundtrip
    { CIDR := str ("10.0.0.0/24"), Range := [], Gateway := str ("10.0.0.1/24"),
      Allocated := [], mask := none, rangeMin := 0, rangeMax := 0 }
    net.sampleManager { net.sampleManager with Allocated := [str ("10.0.0.2/24")] }
    (str ("10.0.0.2/24")) (by decide) (by decide)
  ⟨by decide, by decide, h.1, h.2.2⟩

/-- The loop returns the first address from `i` on whose key is not in
`used`, when there is one up to `rangeMax`: the counter does not wrap before
it is reached. -/
theorem allocLoop_least (used : List GoString) (rangeMax : Nat) :
    ∀ (fuel i a : Nat), i ≤ a → a ≤ rangeMax → a < 4294967296 →
      used.contains (net.IP.String a) = false →
      (∀ j, i ≤ j → j < a → used.contains (net.IP.String j) = true) →
      a - i + 1 ≤ fuel → net.allocLoop used rangeMax fuel i = some (some a) := by
  intro fuel
  induction fuel with
  | zero => intro i a _ _ _ _ _ h; omega
  | succ n ih =>
    intro i a hia hamax halt hfree hbelow hfuel
    have hu : net.uint32ToIP i = i := by
      unfold net.uint32ToIP net.u32; exact Nat.mod_eq_of_lt (by omega)
    have h1 : i ≤ rangeMax := by omega
    simp only [net.allocLoop, h1, if_true, hu]
    by_cases hi : i = a
    · subst hi
      simp only [hfree, Bool.not_false, if_true]
    · have hused := hbelow i (le_refl _) (by omega)
      have hnext : (i + 1) % net.u32 = i + 1 := by
        unfold net.u32; exact Nat.mod_eq_of_lt (by omega)
      simp only [hused, Bool.not_true, Bool.false_eq_true, if_false, hnext]
      exact ih (i + 1) a (by omega) hamax halt hfree
        (fun j hj1 hj2 => hbelow j (by omega) hj2) (by omega)

theorem exists_leastFree (m : net.IPManager)
    (h : ∃ a, m.rangeMin ≤ a ∧ a ≤ m.rangeMax ∧ ¬ m.IsUsed a) : ∃ a, IsLeastFree m a := by
  classical
  refine ⟨Nat.find h, (Nat.find_spec h).1, (Nat.find_spec h).2.1, (Nat.find_spec h).2.2, ?_⟩
  intro j hj1 hj2
  by_contra hnot
  exact Nat.find_min h hj2 ⟨hj1, by have := (Nat.find_spec h).2.1; omega, hnot⟩

/-- When the window has a smallest unused address, `Allocate` returns its
CIDR text and appends it. -/
theorem Allocate_of_leastFree (m : net.IPManager) (a : Nat) (hmax : m.rangeMax < 4294967296)
    (h : IsLeastFree m a) :
    m.Allocate = some (some (m.toCIDR a), { m with Allocated := m.Allocated ++ [m.toCIDR a] }) := by
  obtain ⟨h1, h2, h3, h4⟩ := h
  have halt : a < 4294967296 := by omega
  have hloop : net.allocLoop m.usedIPs m.rangeMax 4294967296 m.rangeMin = some (some a) := by
    apply allocLoop_least _ _ _ _ _ h1 h2 halt
    · cases hc : m.usedIPs.contains (net.IP.String a) with
      | false => rfl
      | true => exact absurd ((usedIPs_contains m a halt).mp hc) h3
    · intro j hj1 hj2
      exact (usedIPs_contains m j (by omega)).mpr (h4 j hj1 hj2)
    · omega
  have hu : net.uint32ToIP a = a := by
    unfold net.uint32ToIP net.u32; exact Nat.mod_eq_of_lt halt
  simp only [net.IPManager.Allocate, hloop, hu]

/-- When every address of the window is used and the counter cannot wrap,
`Allocate` returns the error and leaves the state as it is. -/
theorem Allocate_of_exhausted (m : net.IPManager) (hmax : m.rangeMax < 4294967295)
    (hmin : m.rangeMin < 4294967296)
    (h : ∀ a, m.rangeMin ≤ a → a ≤ m.rangeMax → m.IsUsed a) :
    m.Allocate = some (none, m) := by
  rcases allocLoop_spec m.usedIPs m.rangeMax hmax 4294967296 m.rangeMin (by omega) (by omega)
    with ⟨he, _⟩ | ⟨a, _, h2, h3, h4, _⟩
  · simp only [net.IPManager.Allocate, he]
  · exfalso
    have := (usedIPs_contains m a (by omega)).mpr (h a h2 h3)
    rw [h4] at this
    exact Bool.noConfusion this

/-- The error return of `Allocate`, in any state: the state is unchanged and
every address of the window is used. -/
theorem Allocate_none (m m2 : net.IPManager) (hmax : m.rangeMax < 4294967296)
    (h : m.Allocate = some (none, m2)) :
    m2 = m ∧ ∀ a, m.rangeMin ≤ a → a ≤ m.rangeMax → m.IsUsed a := by
  constructor
  · unfold net.IPManager.Allocate at h
    simp only at h
    split at h
    · exact Option.noConfusion h
    · have h := Option.some.inj h
      simp only [Prod.mk.injEq, true_and] at h
      exact h.symm
    · have h := Option.some.inj h
      simp only [Prod.mk.injEq] at h
      exact Option.noConfusion h.1
  · intro a h1 h2
    by_contra hfree
    obtain ⟨b, hb⟩ := exists_leastFree m ⟨a, h1, h2, hfree⟩
    rw [Allocate_of_leastFree m b hmax hb] at h
    have h := Option.some.inj h
    simp only [Prod.mk.injEq] at h
    exact Option.noConfusion h.1

theorem GatewayIP_empty (m : net.IPManager) (ip : Nat) (nw : net.IPNet)
    (hg : m.Gateway = []) (hc : net.ParseCIDR m.CIDR = some (ip, nw)) :
    m.GatewayIP = some ((nw.IP + 1) % 4294967296) := by
  simp [net.IPManager.GatewayIP, hg, hc, net.uint32ToIP, net.u32]

theorem GatewayIP_cidr (m : net.IPManager) (g : Nat) (gnw : net.IPNet)
    (hc : net.ParseCIDR m.Gateway = some (g, gnw)) : m.GatewayIP = some g := by
  have hne : m.Gateway ≠ [] := by
    intro h
    rw [h] at hc
    have hnil : net.ParseCIDR [] = none := by decide
    rw [hnil] at hc
    exact Option.noConfusion hc
  simp [net.IPManager.GatewayIP, hne, hc]

/-- A successful `Allocate` when the counter cannot wrap: the result is the
CIDR text of the smallest unused address of the window. -/
theorem Allocate_some_least (m m2 : net.IPManager) (s : GoString)
    (hmax : m.rangeMax < 4294967295) (hmin : m.rangeMin < 4294967296)
    (h : m.Allocate = some (some s, m2)) :
    ∃ a, IsLeastFree m a ∧ s = m.toCIDR a
      ∧ m2 = { m with Allocated := m.Allocated ++ [m.toCIDR a] } := by
  by_cases hex : ∃ a, m.rangeMin ≤ a ∧ a ≤ m.rangeMax ∧ ¬ m.IsUsed a
  · obtain ⟨b, hb⟩ := exists_leastFree m hex
    rw [Allocate_of_leastFree m b (by omega) hb] at h
    have h := Option.some.inj h
    simp only [Prod.mk.injEq, Option.some.injEq] at h
    exact ⟨b, hb, h.1.symm, h.2.symm⟩
  · exfalso
    have hall : ∀ a, m.rangeMin ≤ a → a ≤ m.rangeMax → m.IsUsed a := by
      intro a h1 h2
      by_contra h3
      exact hex ⟨a, h1, h2, h3⟩
    rw [Allocate_of_exhausted m hmax hmin hall] at h
    have h := Option.some.inj h
    simp only [Prod.mk.injEq] at h
    exact Option.noConfusion h.1

/-! ### Runs of allocations -/

theorem entryAddrs_append (l : List GoString) (s : GoString) (a : Nat) (nw : net.IPNet)
    (hp : net.ParseCIDR s = some (a, nw)) :
    net.entryAddrs (l ++ [s]) = net.entryAddrs l ++ [a] := by
  simp [net.entryAddrs, List.filterMap_append, hp]

theorem Allocate_step (p lo hi g : Nat) (m m2 : net.IPManager) (s : GoString)
    (hinv : SeqInv p lo hi g m) (h : m.Allocate = some (some s, m2)) :
    SeqInv p lo hi g m2
      ∧ m2.Allocated = m.Allocated ++ [s]
      ∧ ∃ a, net.ParseCIDR s = some (a, ⟨net.maskIP a p, p⟩) ∧ lo ≤ a ∧ a ≤ hi ∧ a ≠ g
          ∧ a ∉ net.entryAddrs m.Allocated := by
  obtain ⟨hm, hp, hlo, hhi, hlolt, hwrap, hg, hnd, hand, hlen, hwin⟩ := hinv
  obtain ⟨a, ⟨ha1, ha2, ha3, _⟩, hs, hm2⟩ :=
    Allocate_some_least m m2 s (by omega) (by omega) h
  have halt : a < 4294967296 := by omega
  have hparse : net.ParseCIDR s = some (a, ⟨net.maskIP a p, p⟩) := by
    rw [hs]; exact ParseCIDR_toCIDR m p a hm hp halt
  have hnotin : a ∉ net.entryAddrs m.Allocated := fun hmem => ha3 (Or.inl hmem)
  have hag : a ≠ g := fun e => ha3 (Or.inr (by rw [hg, e]))
  have hsnot : s ∉ m.Allocated := fun hmem => hnotin (mem_entryAddrs _ s a _ hmem hparse)
  have hall : m2.Allocated = m.Allocated ++ [s] := by rw [hm2, hs]
  have hgw2 : m2.GatewayIP = some g := by rw [hm2]; exact hg
  refine ⟨⟨by rw [hm2]; exact hm, hp, by rw [hm2]; exact hlo, by rw [hm2]; exact hhi, hlolt,
    hwrap, hgw2, ?_, ?_, ?_, ?_⟩, hall, a, hparse, by omega, by omega, hag, hnotin⟩
  · rw [hall]
    exact List.Nodup.append hnd (List.nodup_singleton s)
      (fun x hx hx2 => hsnot ((List.mem_singleton.mp hx2) ▸ hx))
  · rw [hall, entryAddrs_append _ _ _ _ hparse]
    exact List.Nodup.append hand (List.nodup_singleton a)
      (fun x hx hx2 => hnotin ((List.mem_singleton.mp hx2) ▸ hx))
  · rw [hall, entryAddrs_append _ _ _ _ hparse]
    simp [hlen]
  · rw [hall, entryAddrs_append _ _ _ _ hparse]
    intro b hb
    rcases List.mem_append.mp hb with hb | hb
    · exact hwin b hb
    · have := List.mem_singleton.mp hb
      subst this
      exact ⟨by omega, by omega, hag⟩

theorem allocateSeq_spec (p lo hi g : Nat) : ∀ (n : Nat) (m mf : net.IPManager)
    (rs : List GoString), SeqInv p lo hi g m → net.allocateSeq n m = some (rs, mf) →
      SeqInv p lo hi g mf ∧ mf.Allocated = m.Allocated ++ rs ∧ rs.length = n
        ∧ ∀ r ∈ rs, ∃ a nw, net.ParseCIDR r = some (a, nw) ∧ lo ≤ a ∧ a ≤ hi ∧ a ≠ g := by
  intro n
  induction n with
  | zero =>
    intro m mf rs hinv h
    simp only [net.allocateSeq, Option.some.injEq, Prod.mk.injEq] at h
    obtain ⟨h1, h2⟩ := h
    subst h1; subst h2
    exact ⟨hinv, by simp, rfl, by simp⟩
  | succ n ih =>
    intro m mf rs hinv h
    simp only [net.allocateSeq] at h
    split at h
    · rename_i s m2 hal
      obtain ⟨hinv2, hall, a, hparse, h1, h2, h3, _⟩ := Allocate_step p lo hi g m m2 s hinv hal
      split at h
      · rename_i rs2 mf2 hseq
        have h := Option.some.inj h
        simp only [Prod.mk.injEq] at h
        obtain ⟨hrs, hmf⟩ := h
        subst hrs; subst hmf
        obtain ⟨hinvf, hallf, hlenf, hrsf⟩ := ih m2 _ rs2 hinv2 hseq
        refine ⟨hinvf, by rw [hallf, hall]; simp, by simp [hlenf], ?_⟩
        intro r hr
        rcases List.mem_cons.mp hr with hr | hr
        · subst hr
          exact ⟨a, _, hparse, h1, h2, h3⟩
        · exact hrsf r hr
      · exact Option.noConfusion h
    · exact Option.noConfusion h

/-- The state `newIPManager` builds for a `/24` network with a gateway in
CIDR form satisfies the invariant, with the window `network+1 ..
network+254`. -/
theorem newIPManager_inv (cidr gateway : GoString) (m : net.IPManager) (ip nip g : Nat)
    (hnew : net.newIPManager cidr [] gateway = some m)
    (hcidr : net.ParseCIDR cidr = some (ip, ⟨nip, 24⟩)) (hgw : m.GatewayIP = some g) :
    SeqInv 24 (nip + 1) (nip + 254) g m ∧ m.Allocated = [] ∧ nip + 256 ≤ 4294967296 := by
  unfold net.newIPManager at hnew
  obtain ⟨h1, h2, _, h4, _, _, ip2, nw2, hc2, hm2, hr⟩ := init_props _ m hnew
  rw [h1, hcidr] at hc2
  have hc2 := Option.some.inj hc2
  simp only [Prod.mk.injEq] at hc2
  obtain ⟨hip, hnw⟩ := hc2
  subst hip; subst hnw
  obtain ⟨hlt, _, hmask⟩ := ParseCIDR_props cidr ip _ hcidr
  simp only at hmask
  have hw := setRange_window m ip 24 hlt (by decide)
  rw [← hmask] at hw
  have h28 : (2 : Nat) ^ (32 - 24) = 256 := by norm_num
  rw [h28] at hw
  rcases hr with ⟨_, hmin, hmax⟩ | ⟨hne, _⟩
  · refine ⟨⟨hm2, by decide, by rw [hmin, hw.1], by rw [hmax, hw.2.1]; omega, by omega,
      by omega, hgw, ?_, ?_, ?_,
      ?_⟩, h4, hw.2.2⟩
    · rw [h4]; exact List.nodup_nil
    · rw [h4]; exact List.nodup_nil
    · rw [h4]; rfl
    · rw [h4]; intro a ha; simp [net.entryAddrs] at ha
  · exact absurd h2 hne

/-- C1: on a `/24` network (network address `nip`, so broadcast `nip + 255`)
whose gateway is given in CIDR form (address `g`), after any run of `n`
successful `Allocate` calls from the empty allocated list, the returned
CIDRs `rs` are pairwise distinct, each parses, their addresses are pairwise
distinct, and each address lies in `nip + 1 .. nip + 254` and differs from
the gateway address. -/
theorem Allocate_distinct (cidr gateway : GoString) (m mf : net.IPManager) (ip nip g : Nat)
    (gnw : net.IPNet) (n : Nat) (rs : List GoString)
    (hnew : net.newIPManager cidr [] gateway = some m)
    (hcidr : net.ParseCIDR cidr = some (ip, ⟨nip, 24⟩))
    (hgw : net.ParseCIDR gateway = some (g, gnw))
    (hseq : net.allocateSeq n m = some (rs, mf)) :
    rs.Nodup ∧ (net.entryAddrs rs).Nodup ∧ (net.entryAddrs rs).length = rs.length
      ∧ rs.length = n
      ∧ ∀ r ∈ rs, ∃ a nw, net.ParseCIDR r = some (a, nw)
          ∧ nip + 1 ≤ a ∧ a ≤ nip + 254 ∧ a ≠ g := by
  have hgate : m.Gateway = gateway := (init_props _ m hnew).2.2.1
  have hg : m.GatewayIP = some g := GatewayIP_cidr m g gnw (by rw [hgate]; exact hgw)
  obtain ⟨hinv, hnil, _⟩ := newIPManager_inv cidr gateway m ip nip g hnew hcidr hg
  obtain ⟨hinvf, hall, hlen, hrs⟩ := allocateSeq_spec 24 (nip + 1) (nip + 254) g n m mf rs hinv hseq
  rw [hnil, List.nil_append] at hall
  obtain ⟨_, _, _, _, _, _, _, hnd, hand, hl, _⟩ := hinvf
  rw [hall] at hnd hand hl
  exact ⟨hnd, hand, hl, hlen, hrs⟩

/-- C1 on the network `10.0.0.0/24` with gateway `10.0.0.1/24`: three
allocations return `10.0.0.2/24`, `10.0.0.3/24` and `10.0.0.4/24`. -/
theorem Allocate_distinct_witness :
    net.newIPManager (str ("10.0.0.0/24")) [] (str ("10.0.0.1/24")) = some net.sampleManager
      ∧ net.ParseCIDR (str ("10.0.0.0/24")) = some (167772160, ⟨167772160, 24⟩)
      ∧ net.ParseCIDR (str ("10.0.0.1/24")) = some (167772161, ⟨167772160, 24⟩)
      ∧ net.allocateSeq 3 net.sampleManager
          = some ([str ("10.0.0.2/24"), str ("10.0.0.3/24"), str ("10.0.0.4/24")],
              { net.sampleManager with Allocated :=
                  [str ("10.0.0.2/24"), str ("10.0.0.3/24"), str ("10.0.0.4/24")] })
      ∧ (net.entryAddrs [str ("10.0.0.2/24"), str ("10.0.0.3/24"), str ("10.0.0.4/24")]).Nodup :=
  ⟨by decide, by decide, by decide, by decide,
    (Allocate_distinct (str ("10.0.0.0/24")) (str ("10.0.0.1/24")) net.sampleManager
      { net.sampleManager with Allocated :=
          [str ("10.0.0.2/24"), str ("10.0.0.3/24"), str ("10.0.0.4/24")] }
      167772160 167772160 167772161 ⟨167772160, 24⟩ 3
      [str ("10.0.0.2/24"), str ("10.0.0.3/24"), str ("10.0.0.4/24")]
      (by decide) (by decide) (by decide) (by decide)).2.1⟩

/-! ### Exhaustion -/

theorem IsUsed_iff (p lo hi g : Nat) (m : net.IPManager) (hinv : SeqInv p lo hi g m) (a : Nat) :
    m.IsUsed a ↔ a ∈ insert g (net.entryAddrs m.Allocated).toFinset := by
  obtain ⟨_, _, _, _, _, _, hg, _⟩ := hinv
  unfold net.IPManager.IsUsed
  rw [hg, Finset.mem_insert, List.mem_toFinset, Option.some.injEq]
  constructor
  · rintro (h | h)
    · exact Or.inr h
    · exact Or.inl h.symm
  · rintro (h | h)
    · exact Or.inr h.symm
    · exact Or.inl h

theorem used_card (p lo hi g : Nat) (m : net.IPManager) (hinv : SeqInv p lo hi g m) :
    (insert g (net.entryAddrs m.Allocated).toFinset).card = m.Allocated.length + 1 := by
  obtain ⟨_, _, _, _, _, _, _, _, hand, hlen, hwin⟩ := hinv
  rw [Finset.card_insert_of_not_mem, List.toFinset_card_of_nodup hand, hlen]
  intro hmem
  exact (hwin g (List.mem_toFinset.mp hmem)).2.2 rfl

theorem used_subset (p lo hi g : Nat) (m : net.IPManager) (hinv : SeqInv p lo hi g m)
    (hg1 : lo ≤ g) (hg2 : g ≤ hi) :
    insert g (net.entryAddrs m.Allocated).toFinset ⊆ Finset.Icc lo hi := by
  obtain ⟨_, _, _, _, _, _, _, _, _, _, hwin⟩ := hinv
  intro x hx
  rw [Finset.mem_Icc]
  rcases Finset.mem_insert.mp hx with hx | hx
  · subst hx; exact ⟨hg1, hg2⟩
  · have := hwin x (List.mem_toFinset.mp hx)
    exact ⟨this.1, this.2.1⟩

/-- While fewer addresses are used than the window holds, one is free. -/
theorem exists_free (p lo hi g : Nat) (m : net.IPManager) (hinv : SeqInv p lo hi g m)
    (hlt : m.Allocated.length + 1 < hi + 1 - lo) :
    ∃ a, m.rangeMin ≤ a ∧ a ≤ m.rangeMax ∧ ¬ m.IsUsed a := by
  by_contra hno
  have hall : ∀ a, m.rangeMin ≤ a → a ≤ m.rangeMax → m.IsUsed a := by
    intro a h1 h2
    by_contra h3
    exact hno ⟨a, h1, h2, h3⟩
  have hlo : m.rangeMin = lo := hinv.2.2.1
  have hhi : m.rangeMax = hi := hinv.2.2.2.1
  have hsub : Finset.Icc lo hi ⊆ insert g (net.entryAddrs m.Allocated).toFinset := by
    intro x hx
    rw [Finset.mem_Icc] at hx
    exact (IsUsed_iff p lo hi g m hinv x).mp (hall x (by omega) (by omega))
  have hcard := Finset.card_le_card hsub
  rw [used_card p lo hi g m hinv, Nat.card_Icc] at hcard
  omega

/-- When as many addresses are used as the window holds, all of it is used. -/
theorem all_used (p lo hi g : Nat) (m : net.IPManager) (hinv : SeqInv p lo hi g m)
    (hg1 : lo ≤ g) (hg2 : g ≤ hi) (heq : m.Allocated.length + 1 = hi + 1 - lo) :
    ∀ a, m.rangeMin ≤ a → a ≤ m.rangeMax → m.IsUsed a := by
  have hsub := used_subset p lo hi g m hinv hg1 hg2
  have hcard : (Finset.Icc lo hi).card ≤ (insert g (net.entryAddrs m.Allocated).toFinset).card := by
    rw [used_card p lo hi g m hinv, Nat.card_Icc, heq]
  have heqs := Finset.eq_of_subset_of_card_le hsub hcard
  intro a h1 h2
  rw [IsUsed_iff p lo hi g m hinv a, heqs, Finset.mem_Icc]
  obtain ⟨_, _, hlo, hhi, _⟩ := hinv
  omega

theorem allocateSeq_progress (p lo hi g : Nat) : ∀ (k : Nat) (m : net.IPManager),
    SeqInv p lo hi g m → m.Allocated.length + k + 1 < hi + 2 - lo →
      ∃ rs mk, net.allocateSeq k m = some (rs, mk) ∧ SeqInv p lo hi g mk
        ∧ mk.Allocated.length = m.Allocated.length + k := by
  intro k
  induction k with
  | zero => intro m hinv _; exact ⟨[], m, rfl, hinv, rfl⟩
  | succ k ih =>
    intro m hinv hk
    obtain ⟨a, ha⟩ := exists_leastFree m (exists_free p lo hi g m hinv (by omega))
    have hmaxlt : m.rangeMax < 4294967296 := by
      obtain ⟨_, _, _, hhi, _, hw, _⟩ := hinv
      omega
    have hal := Allocate_of_leastFree m a hmaxlt ha
    obtain ⟨hinv2, hall, _⟩ := Allocate_step p lo hi g m _ _ hinv hal
    have hlen2 : ({ m with Allocated := m.Allocated ++ [m.toCIDR a] } : net.IPManager).Allocated.length
        = m.Allocated.length + 1 := by
      simp
    obtain ⟨rs, mk, hseq, hinvk, hlenk⟩ := ih _ hinv2 (by rw [hlen2]; omega)
    refine ⟨m.toCIDR a :: rs, mk, ?_, hinvk, by rw [hlenk, hlen2]; omega⟩
    simp only [net.allocateSeq, hal, hseq]

/-! ### Sub-ranges -/

/-- C5, counterexample: for the network `10.0.0.0/24` the sub-range
`192.168.0.0/24` is accepted, and the window becomes `192.168.0.1 ..
192.168.0.254`, which is no part of the window `10.0.0.1 .. 10.0.0.254`
computed without the sub-range; the first address allocated is
`192.168.0.1`, outside the network. -/
theorem subrange_counterexample :
    net.newIPManager (str ("10.0.0.0/24")) (str ("192.168.0.0/24")) (str ("10.0.0.1/24"))
        = some net.strayRangeManager
      ∧ net.newIPManager (str ("10.0.0.0/24")) [] (str ("10.0.0.1/24")) = some net.sampleManager
      ∧ net.strayRangeManager.rangeMin ≤ 3232235521
      ∧ 3232235521 ≤ net.strayRangeManager.rangeMax
      ∧ ¬ (net.sampleManager.rangeMin ≤ 3232235521 ∧ 3232235521 ≤ net.sampleManager.rangeMax)
      ∧ net.strayRangeManager.Allocate
          = some (some (str ("192.168.0.1/24")),
              { net.strayRangeManager with Allocated := [str ("192.168.0.1/24")] }) := by
  decide

theorem subnet_block (a b h h2 : Nat) (hh : h2 ≤ h)
    (h3 : b / 2 ^ h2 * 2 ^ h2 < a / 2 ^ h * 2 ^ h + 2 ^ h) :
    b / 2 ^ h2 * 2 ^ h2 + 2 ^ h2 ≤ a / 2 ^ h * 2 ^ h + 2 ^ h := by
  have hpow : 2 ^ h = 2 ^ (h - h2) * 2 ^ h2 := by
    rw [← pow_add]
    congr 1
    omega
  have hpos : 0 < 2 ^ h2 := Nat.two_pow_pos _
  generalize a / 2 ^ h = A at *
  generalize b / 2 ^ h2 = B at *
  rw [hpow] at h3 ⊢
  generalize 2 ^ (h - h2) = D at *
  generalize 2 ^ h2 = P at *
  have e1 : A * (D * P) + D * P = (A * D + D) * P := by ring
  have e2 : B * P + P = (B + 1) * P := by ring
  rw [e1] at h3 ⊢
  rw [e2]
  have hlt : B < A * D + D := Nat.lt_of_mul_lt_mul_right h3
  exact Nat.mul_le_mul_right P hlt

/-- C5, amended: when the sub-range CIDR denotes a sub-network of the network
CIDR (its prefix is at least as long, and its network address lies in the
network) and its prefix length is at most 31, the window that `init` computes
with the sub-range (`m₁`) is a subset of the window computed without it
(`m₂`); so every address allocated with the sub-range lies inside the
sub-range's host window and inside the network's host window `network+1 ..
broadcast-1`. -/
theorem subrange_narrows (m₀ m₁ m₂ : net.IPManager) (ip rip : Nat) (nw rnw : net.IPNet)
    (h1 : m₀.init = some m₁)
    (h2 : net.IPManager.init { m₀ with Range := [] } = some m₂)
    (hc : net.ParseCIDR m₀.CIDR = some (ip, nw))
    (hr : net.ParseCIDR m₀.Range = some (rip, rnw))
    (hp1 : nw.ones ≤ rnw.ones) (hp2 : rnw.ones ≤ 31)
    (hin1 : nw.IP ≤ rnw.IP) (hin2 : rnw.IP < nw.IP + 2 ^ (32 - nw.ones)) :
    m₂.rangeMin = nw.IP + 1 ∧ m₂.rangeMax = nw.IP + 2 ^ (32 - nw.ones) - 2
      ∧ m₁.rangeMin = rnw.IP + 1 ∧ m₁.rangeMax = rnw.IP + 2 ^ (32 - rnw.ones) - 2
      ∧ m₂.rangeMin ≤ m₁.rangeMin ∧ m₁.rangeMax ≤ m₂.rangeMax
      ∧ ∀ s m3, m₁.Allocate = some (some s, m3) →
          ∃ a anw, net.ParseCIDR s = some (a, anw)
            ∧ (rnw.IP + 1 ≤ a ∧ a ≤ rnw.IP + 2 ^ (32 - rnw.ones) - 2)
            ∧ (nw.IP + 1 ≤ a ∧ a ≤ nw.IP + 2 ^ (32 - nw.ones) - 2) := by
  obtain ⟨hiplt, _, hnw⟩ := ParseCIDR_props _ _ _ hc
  obtain ⟨hriplt, _, hrnw⟩ := ParseCIDR_props _ _ _ hr
  have hrne : m₀.Range ≠ [] := by
    intro h
    rw [h] at hr
    have hnil : net.ParseCIDR [] = none := by decide
    rw [hnil] at hr
    exact Option.noConfusion hr
  -- the window without the sub-range
  obtain ⟨hc2, hr2, _, _, _, _, ip2, nw2, hpc2, _, hcase2⟩ := init_props _ m₂ h2
  simp only at hc2 hr2
  rw [hc2, hc] at hpc2
  have hpc2 := Option.some.inj hpc2
  simp only [Prod.mk.injEq] at hpc2
  obtain ⟨_, hnw2⟩ := hpc2
  subst hnw2
  have hwin2 : m₂.rangeMin = (m₂.setRange nw).rangeMin
      ∧ m₂.rangeMax = (m₂.setRange nw).rangeMax := by
    rcases hcase2 with ⟨_, ha, hb⟩ | ⟨hne, _⟩
    · exact ⟨ha, hb⟩
    · exact absurd hr2 hne
  -- the window with the sub-range
  obtain ⟨hc1, hr1, _, _, hmin1, _, ip1, nw1, hpc1, hmask1, hcase1⟩ := init_props _ m₁ h1
  have hwin1 : m₁.rangeMin = (m₁.setRange rnw).rangeMin
      ∧ m₁.rangeMax = (m₁.setRange rnw).rangeMax := by
    rcases hcase1 with ⟨he, _⟩ | ⟨_, rip1, rnw1, hpr1, ha, hb⟩
    · exact absurd (hr1 ▸ he) hrne
    · rw [hr1, hr] at hpr1
      have hpr1 := Option.some.inj hpr1
      simp only [Prod.mk.injEq] at hpr1
      rw [← hpr1.2] at ha hb
      exact ⟨ha, hb⟩
  have hs2 := setRange_window m₂ ip nw.ones hiplt (by omega)
  have hs1 := setRange_window m₁ rip rnw.ones hriplt hp2
  have hnweq : (⟨net.maskIP ip nw.ones, nw.ones⟩ : net.IPNet) = nw := by
    cases nw
    simp only at hnw ⊢
    rw [hnw]
  have hrnweq : (⟨net.maskIP rip rnw.ones, rnw.ones⟩ : net.IPNet) = rnw := by
    cases rnw
    simp only at hrnw ⊢
    rw [hrnw]
  rw [hnweq, ← hnw] at hs2
  rw [hrnweq, ← hrnw] at hs1
  have hblock : rnw.IP + 2 ^ (32 - rnw.ones) ≤ nw.IP + 2 ^ (32 - nw.ones) := by
    rw [hnw, hrnw] at hin2 ⊢
    unfold net.maskIP at hin2 ⊢
    exact subnet_block ip rip (32 - nw.ones) (32 - rnw.ones) (by omega) hin2
  have hpos1 : 2 ≤ 2 ^ (32 - rnw.ones) := by
    calc 2 = 2 ^ 1 := rfl
      _ ≤ 2 ^ (32 - rnw.ones) := Nat.pow_le_pow_right (by decide) (by omega)
  have e1 : m₂.rangeMin = nw.IP + 1 := hwin2.1.trans hs2.1
  have e2 : m₂.rangeMax = nw.IP + 2 ^ (32 - nw.ones) - 2 := hwin2.2.trans hs2.2.1
  have e3 : m₁.rangeMin = rnw.IP + 1 := hwin1.1.trans hs1.1
  have e4 : m₁.rangeMax = rnw.IP + 2 ^ (32 - rnw.ones) - 2 := hwin1.2.trans hs1.2.1
  have hb1 := hs1.2.2
  refine ⟨e1, e2, e3, e4, by omega, by omega, ?_⟩
  intro s m3 hal
  obtain ⟨a, ⟨ha1, ha2, _, _⟩, hsa, _⟩ :=
    Allocate_some_least m₁ m3 s (by omega) hmin1 hal
  have hones := (ParseCIDR_props _ _ _ hpc1).2.1
  refine ⟨a, _, by rw [hsa]; exact ParseCIDR_toCIDR m₁ nw1.ones a hmask1 hones (by omega), ?_, ?_⟩
  · omega
  · omega

/-- C5, amended, on the network `10.0.0.0/24` with the sub-range
`10.0.0.128/25`: the window `10.0.0.129 .. 10.0.0.254` lies inside the window
`10.0.0.1 .. 10.0.0.254` of the network. -/
theorem subrange_narrows_witness :
    net.IPManager.init net.halfRangeConfig = some net.halfRangeManager
      ∧ net.IPManager.init { net.halfRangeConfig with Range := [] } = some net.sampleManager
      ∧ net.ParseCIDR net.halfRangeConfig.CIDR = some (167772160, ⟨167772160, 24⟩)
      ∧ net.ParseCIDR net.halfRangeConfig.Range = some (167772288, ⟨167772288, 25⟩)
      ∧ net.sampleManager.rangeMin ≤ net.halfRangeManager.rangeMin
      ∧ net.halfRangeManager.rangeMax ≤ net.sampleManager.rangeMax :=
  have h := subrange_narrows net.halfRangeConfig net.halfRangeManager net.sampleManager
    167772160 167772288 ⟨167772160, 24⟩ ⟨167772288, 25⟩ (by decide) (by decide) (by decide)
    (by decide) (by decide) (by decide) (by decide) (by decide)
  ⟨by decide, by decide, by decide, by decide, h.2.2.2.2.1, h.2.2.2.2.2.1⟩

/-! ### The wrapped window -/

/-- The window `setRange` computes is that of `0.0.0.0/32` when its upper end
is `255.255.255.255`: the lower end is then `0.0.0.1`. -/
theorem setRange_wrap (m : net.IPManager) (ip ones : Nat) (hip : ip < 4294967296)
    (hones : ones ≤ 32)
    (h : (m.setRange ⟨net.maskIP ip ones, ones⟩).rangeMax = 4294967295) :
    (m.setRange ⟨net.maskIP ip ones, ones⟩).rangeMin = 1 := by
  have hpos : 0 < 2 ^ (32 - ones) := Nat.two_pow_pos _
  have hle : 2 ^ (32 - ones) ≤ 4294967296 := by
    calc 2 ^ (32 - ones) ≤ 2 ^ 32 := Nat.pow_le_pow_right (by decide) (by omega)
      _ = 4294967296 := by norm_num
  have hdvd : 2 ^ (32 - ones) ∣ 4294967296 := by
    have : (4294967296 : Nat) = 2 ^ 32 := by norm_num
    rw [this]
    exact pow_dvd_pow 2 (by omega)
  have hblock : net.maskIP ip ones + 2 ^ (32 - ones) ≤ 4294967296 := by
    unfold net.maskIP
    obtain ⟨q, hq⟩ := hdvd
    have hlt : ip / 2 ^ (32 - ones) < q := by
      rw [Nat.div_lt_iff_lt_mul hpos]
      rw [hq, Nat.mul_comm] at hip
      exact hip
    calc ip / 2 ^ (32 - ones) * 2 ^ (32 - ones) + 2 ^ (32 - ones)
        = (ip / 2 ^ (32 - ones) + 1) * 2 ^ (32 - ones) := by ring
      _ ≤ q * 2 ^ (32 - ones) := Nat.mul_le_mul_right _ hlt
      _ = 4294967296 := by rw [hq, Nat.mul_comm]
  have hor : net.maskIP ip ones ||| (2 ^ (32 - ones) - 1)
      = net.maskIP ip ones + (2 ^ (32 - ones) - 1) := by
    unfold net.maskIP
    rw [Nat.mul_comm]
    exact (Nat.mul_add_lt_is_or (by omega) _).symm
  have hshift : ((1 <<< (32 - ones)) % net.u32 + net.u32 - 1) % net.u32
      = 2 ^ (32 - ones) - 1 := by
    rw [Nat.one_shiftLeft]
    unfold net.u32
    by_cases h32 : 2 ^ (32 - ones) = 4294967296
    · rw [h32]
    · have : 2 ^ (32 - ones) < 4294967296 := by omega
      rw [Nat.mod_eq_of_lt this]
      omega
  simp only [net.IPManager.setRange, net.maskSize, hshift, hor] at h ⊢
  unfold net.u32 at h ⊢
  generalize 2 ^ (32 - ones) = P at *
  generalize net.maskIP ip ones = N at *
  omega

theorem init_wrap_min (m₀ m : net.IPManager) (hinit : m₀.init = some m)
    (h : m.rangeMax = 4294967295) : m.rangeMin = 1 := by
  obtain ⟨_, _, _, _, _, _, ip, nw, hc, _, hcase⟩ := init_props m₀ m hinit
  rcases hcase with ⟨_, hmin, hmax⟩ | ⟨_, rip, rnw, hr, hmin, hmax⟩
  · obtain ⟨hlt, hones, hnw⟩ := ParseCIDR_props _ _ _ hc
    have e : (⟨net.maskIP ip nw.ones, nw.ones⟩ : net.IPNet) = nw := by
      cases nw
      simp only at hnw ⊢
      rw [hnw]
    have := setRange_wrap m ip nw.ones hlt hones (by rw [e, ← hmax]; exact h)
    rw [e] at this
    rw [hmin, this]
  · obtain ⟨hlt, hones, hnw⟩ := ParseCIDR_props _ _ _ hr
    have e : (⟨net.maskIP rip rnw.ones, rnw.ones⟩ : net.IPNet) = rnw := by
      cases rnw
      simp only at hnw ⊢
      rw [hnw]
    have := setRange_wrap m rip rnw.ones hlt hones (by rw [e, ← hmax]; exact h)
    rw [e] at this
    rw [hmin, this]

/-- The used addresses number at most one more than the allocated entries. -/
theorem used_card_le (m : net.IPManager) :
    ∃ U : Finset Nat, (∀ a, m.IsUsed a ↔ a ∈ U) ∧ U.card ≤ m.Allocated.length + 1 := by
  have hlen : (net.entryAddrs m.Allocated).toFinset.card ≤ m.Allocated.length :=
    (List.toFinset_card_le _).trans (List.length_filterMap_le _ _)
  cases hg : m.GatewayIP with
  | none =>
    refine ⟨(net.entryAddrs m.Allocated).toFinset, fun a => ?_, by omega⟩
    simp [net.IPManager.IsUsed, hg]
  | some g =>
    refine ⟨insert g (net.entryAddrs m.Allocated).toFinset, fun a => ?_,
      (Finset.card_insert_le _ _).trans (by omega)⟩
    simp only [net.IPManager.IsUsed, hg, Option.some.injEq, Finset.mem_insert,
      List.mem_toFinset]
    constructor
    · rintro (h | h)
      · exact Or.inr h
      · exact Or.inl h.symm
    · rintro (h | h)
      · exact Or.inr h.symm
      · exact Or.inl h

/-- In the wrapped window, a list of fewer than `2^32 - 2` entries leaves an
address unused. -/
theorem wrap_exists_free (m₀ m : net.IPManager) (hinit : m₀.init = some m)
    (h : m.rangeMax = 4294967295) (hlen : m.Allocated.length < 4294967294) :
    ∃ a, m.rangeMin ≤ a ∧ a ≤ m.rangeMax ∧ ¬ m.IsUsed a := by
  have hmin := init_wrap_min m₀ m hinit h
  obtain ⟨U, hU, hcard⟩ := used_card_le m
  by_contra hno
  have hsub : Finset.Icc 1 4294967295 ⊆ U := by
    intro x hx
    rw [Finset.mem_Icc] at hx
    rw [← hU]
    by_contra h3
    exact hno ⟨x, by omega, by omega, h3⟩
  have := Finset.card_le_card hsub
  rw [Nat.card_Icc] at this
  omega

/-- The behaviour of `Allocate` in an initialised state whose window does
not end at `255.255.255.255` (so that the loop counter cannot wrap) or whose
allocated list has fewer than `2^32 - 2` entries: it returns the error when
the whole window is used, and otherwise the smallest unused address. -/
theorem Allocate_total (m₀ m : net.IPManager) (hinit : m₀.init = some m)
    (hreach : m.rangeMax < 4294967295 ∨ m.Allocated.length < 4294967294) :
    ((∀ a, m.rangeMin ≤ a → a ≤ m.rangeMax → m.IsUsed a) ∧ m.Allocate = some (none, m))
      ∨ ∃ a, IsLeastFree m a
          ∧ m.Allocate
            = some (some (m.toCIDR a), { m with Allocated := m.Allocated ++ [m.toCIDR a] }) := by
  obtain ⟨_, _, _, _, hmin, hmax, _⟩ := init_props m₀ m hinit
  by_cases hex : ∃ a, m.rangeMin ≤ a ∧ a ≤ m.rangeMax ∧ ¬ m.IsUsed a
  · right
    obtain ⟨b, hb⟩ := exists_leastFree m hex
    exact ⟨b, hb, Allocate_of_leastFree m b hmax hb⟩
  · left
    have hall : ∀ a, m.rangeMin ≤ a → a ≤ m.rangeMax → m.IsUsed a := by
      intro a h1 h2
      by_contra h3
      exact hex ⟨a, h1, h2, h3⟩
    have hw : m.rangeMax < 4294967295 := by
      rcases hreach with h | h
      · exact h
      · by_contra hnw
        exact hex (wrap_exists_free m₀ m hinit (by omega) h)
    exact ⟨hall, Allocate_of_exhausted m hw hmin hall⟩

/-- C2: in every initialised allocator state, with `p` the prefix length of
the network CIDR: the gateway address is the network address plus one when
no gateway is configured and the address of the configured gateway when that
is in CIDR form; a successful `Allocate` returns the string `a/p` where `a`
is the smallest address of the allocation window that is neither the address
of an entry of the allocated list nor the gateway address, appends exactly
that string to the allocated list and changes nothing else; and whenever
there is such an address, `Allocate` succeeds.  (The state is one whose
window does not end at `255.255.255.255` or whose list has fewer than
`2^32 - 2` entries: otherwise the `uint32` counter wraps past a window that
is used up.) -/
theorem Allocate_smallest_free (m₀ m : net.IPManager) (hinit : m₀.init = some m)
    (hreach : m.rangeMax < 4294967295 ∨ m.Allocated.length < 4294967294) :
    ∃ ip nw, net.ParseCIDR m.CIDR = some (ip, nw)
      ∧ (m.Gateway = [] → m.GatewayIP = some ((nw.IP + 1) % 4294967296))
      ∧ (∀ g gnw, net.ParseCIDR m.Gateway = some (g, gnw) → m.GatewayIP = some g)
      ∧ (∀ s m2, m.Allocate = some (some s, m2) →
          ∃ a, IsLeastFree m a
            ∧ s = net.IP.String a ++ [byte 47] ++ net.sprintfD nw.ones
            ∧ m2 = { m with Allocated := m.Allocated ++ [s] })
      ∧ (∀ a, IsLeastFree m a →
          m.Allocate
            = some (some (net.IP.String a ++ [byte 47] ++ net.sprintfD nw.ones),
                { m with Allocated :=
                    m.Allocated ++ [net.IP.String a ++ [byte 47] ++ net.sprintfD nw.ones] })) := by
  obtain ⟨_, _, _, _, hmin, hmax, ip, nw, hc, hm, _⟩ := init_props m₀ m hinit
  have htext : ∀ a, m.toCIDR a = net.IP.String a ++ [byte 47] ++ net.sprintfD nw.ones := by
    intro a
    simp [net.IPManager.toCIDR, hm, net.maskSize]
  refine ⟨ip, nw, hc, fun hg => GatewayIP_empty m ip nw hg hc,
    fun g gnw hg => GatewayIP_cidr m g gnw hg, ?_, ?_⟩
  · intro s m2 hs
    rcases Allocate_total m₀ m hinit hreach with ⟨_, he⟩ | ⟨a, ha, he⟩
    · rw [he] at hs
      have hs := Option.some.inj hs
      simp only [Prod.mk.injEq] at hs
      exact Option.noConfusion hs.1
    · rw [he] at hs
      have hs := Option.some.inj hs
      simp only [Prod.mk.injEq, Option.some.injEq] at hs
      exact ⟨a, ha, by rw [← hs.1, htext], by rw [← hs.2, hs.1]⟩
  · intro a ha
    rw [← htext a]
    exact Allocate_of_leastFree m a hmax ha

/-- C2 on the network `10.0.0.0/24` with gateway `10.0.0.1/24` and nothing
allocated: the smallest unused address of the window is `10.0.0.2`, and
`Allocate` returns `10.0.0.2/24` and appends it. -/
theorem Allocate_smallest_free_witness :
    net.IPManager.init { net.sampleManager with mask := none, rangeMin := 0, rangeMax := 0 }
        = some net.sampleManager
      ∧ (net.sampleManager.rangeMax < 4294967295
          ∨ net.sampleManager.Allocated.length < 4294967294)
      ∧ IsLeastFree net.sampleManager 167772162
      ∧ net.sampleManager.Allocate
          = some (some (str ("10.0.0.2/24")),
              { net.sampleManager with Allocated := [str ("10.0.0.2/24")] }) := by
  have hleast : IsLeastFree net.sampleManager 167772162 := by
    refine ⟨by decide, by decide, ?_, ?_⟩
    · unfold net.IPManager.IsUsed
      decide
    · intro j h1 h2
      have hj : j = 167772161 := by
        have e : net.sampleManager.rangeMin = 167772161 := rfl
        omega
      right
      rw [hj]
      decide
  refine ⟨by decide, by decide, hleast, ?_⟩
  obtain ⟨ip, nw, hc, _, _, _, hres⟩ :=
    Allocate_smallest_free { net.sampleManager with mask := none, rangeMin := 0, rangeMax := 0 }
      net.sampleManager (by decide) (by decide)
  have hd : net.ParseCIDR net.sampleManager.CIDR = some (167772160, ⟨167772160, 24⟩) := by
    decide
  rw [hd] at hc
  have hc := Option.some.inj hc
  simp only [Prod.mk.injEq] at hc
  have hres := hres 167772162 hleast
  rw [← hc.2] at hres
  rw [hres]
  decide

/-- C4: in every initialised allocator state, `Allocate` returns the
exhaustion error exactly when every address of the allocation window is
allocated or is the gateway, and a failing `Allocate` leaves the state, and
so the allocated list, unchanged.  (The state is one whose window does not
end at `255.255.255.255` or whose list has fewer than `2^32 - 2` entries:
otherwise the `uint32` counter wraps instead of leaving the loop.)  On a
fresh `/24` whose gateway address lies in the window `nip + 1 .. nip + 254`,
253 calls succeed and the 254th call returns the error. -/
theorem Allocate_exhaustion :
    (∀ m₀ m : net.IPManager, m₀.init = some m →
        (m.rangeMax < 4294967295 ∨ m.Allocated.length < 4294967294) →
        ((∃ m2, m.Allocate = some (none, m2))
            ↔ ∀ a, m.rangeMin ≤ a → a ≤ m.rangeMax → m.IsUsed a)
          ∧ (∀ m2, m.Allocate = some (none, m2) → m2 = m))
      ∧ (∀ (cidr gateway : GoString) (m : net.IPManager) (ip nip g : Nat),
          net.newIPManager cidr [] gateway = some m →
          net.ParseCIDR cidr = some (ip, ⟨nip, 24⟩) →
          m.GatewayIP = some g → nip + 1 ≤ g → g ≤ nip + 254 →
          ∃ rs m253, net.allocateSeq 253 m = some (rs, m253) ∧ rs.length = 253
            ∧ m253.Allocate = some (none, m253)) := by
  constructor
  · intro m₀ m hinit hreach
    obtain ⟨_, _, _, _, hmin, hmax, _⟩ := init_props m₀ m hinit
    refine ⟨⟨fun ⟨m2, h⟩ => (Allocate_none m m2 hmax h).2, fun hall => ?_⟩,
      fun m2 h => (Allocate_none m m2 hmax h).1⟩
    rcases Allocate_total m₀ m hinit hreach with ⟨_, he⟩ | ⟨a, ha, _⟩
    · exact ⟨m, he⟩
    · exact absurd (hall a ha.1 ha.2.1) ha.2.2.1
  · intro cidr gateway m ip nip g hnew hcidr hg hg1 hg2
    obtain ⟨hinv, hnil, hb⟩ := newIPManager_inv cidr gateway m ip nip g hnew hcidr hg
    obtain ⟨rs, mk, hseq, hinvk, hlenk⟩ :=
      allocateSeq_progress 24 (nip + 1) (nip + 254) g 253 m hinv (by rw [hnil]; simp)
    have hrs := (allocateSeq_spec 24 (nip + 1) (nip + 254) g 253 m mk rs hinv hseq).2.2.1
    refine ⟨rs, mk, hseq, hrs, ?_⟩
    rw [hnil] at hlenk
    simp only [List.length_nil, Nat.zero_add] at hlenk
    have hused := all_used 24 (nip + 1) (nip + 254) g mk hinvk hg1 hg2 (by rw [hlenk]; omega)
    have hhi : mk.rangeMax = nip + 254 := hinvk.2.2.2.1
    have hlo : mk.rangeMin = nip + 1 := hinvk.2.2.1
    exact Allocate_of_exhausted mk (by omega) (by omega) hused

/-- C4 on the network `10.0.0.0/24` with gateway `10.0.0.1/24`: the first 253
calls succeed and the 254th returns the error; and in the initialised state
whose window `10.0.0.1 .. 10.0.0.2` of a `/30` is used up by the gateway and
one entry, `Allocate` returns the error. -/
theorem Allocate_exhaustion_witness :
    (∃ rs m253, net.allocateSeq 253 net.sampleManager = some (rs, m253) ∧ rs.length = 253
        ∧ m253.Allocate = some (none, m253))
      ∧ net.IPManager.init net.fullConfig = some net.fullManager
      ∧ (net.fullManager.rangeMax < 4294967295 ∨ net.fullManager.Allocated.length < 4294967294)
      ∧ ∃ m2, net.fullManager.Allocate = some (none, m2) := by
  refine ⟨Allocate_exhaustion.2 (str ("10.0.0.0/24")) (str ("10.0.0.1/24")) net.sampleManager
    167772160 167772160 167772161 (by decide) (by decide) (by decide) (by decide) (by decide),
    by decide, by decide, ?_⟩
  apply (Allocate_exhaustion.1 net.fullConfig net.fullManager (by decide) (by decide)).1.mpr
  intro a h1 h2
  have e1 : a = 167772161 ∨ a = 167772162 := by
    have e2 : net.fullManager.rangeMin = 167772161 := rfl
    have e3 : net.fullManager.rangeMax = 167772162 := rfl
    omega
  rcases e1 with e | e
  · right; rw [e]; decide
  · left; rw [e]; decide

/-! ### The byte stream of HashDir -/

theorem HashDir_of_hashInput (dir : GoString) (fs : List util.Entry) :
    util.HashDir dir fs
      = (util.hashInput dir fs).map (fun written => (hexEncode (sha256.Sum written)).take 12) := by
  unfold util.HashDir util.hashInput
  cases util.walkLoop dir (util.Walk dir fs) [] with
  | none => rfl
  | some files =>
    simp only
    cases h : util.hashLoop dir fs (sort.Strings files) [] <;> simp

theorem hashLoop_pathStream (dir : GoString) (fs : List util.Entry) (g : GoString → List Byte)
    (l : List GoString)
    (h : ∀ n ∈ l, util.readFile dir fs (filepath.Join dir n) = some (g n))
    (written : List Byte) :
    util.hashLoop dir fs l written = some (written ++ util.pathStream g l) := by
  induction l generalizing written with
  | nil => simp [util.hashLoop, util.pathStream]
  | cons n rest ih =>
    simp only [util.hashLoop, util.pathStream]
    rw [h n (List.mem_cons_self _ _)]
    simp only
    rw [ih (fun m hm => h m (List.mem_cons_of_mem _ hm))]
    simp [List.append_assoc]

theorem pathStream_congr (g₁ g₂ : GoString → List Byte) (l : List GoString)
    (h : ∀ n ∈ l, g₁ n = g₂ n) : util.pathStream g₁ l = util.pathStream g₂ l := by
  induction l with
  | nil => rfl
  | cons n rest ih =>
    simp only [util.pathStream]
    rw [h n (List.mem_cons_self _ _), ih (fun m hm => h m (List.mem_cons_of_mem _ hm))]

theorem pathStream_length (g : GoString → List Byte) (l : List GoString) :
    (util.pathStream g l).length = (l.map (fun n => n.length + (g n).length)).sum := by
  induction l with
  | nil => rfl
  | cons n rest ih =>
    simp only [util.pathStream, List.length_append, List.map_cons, List.sum_cons, ih]
    omega

theorem pathStream_inj_at (g₁ g₂ : GoString → List Byte) (p : GoString) (l : List GoString)
    (hnd : l.Nodup) (hp : p ∈ l) (hagree : ∀ n ∈ l, n ≠ p → g₁ n = g₂ n)
    (heq : util.pathStream g₁ l = util.pathStream g₂ l) : g₁ p = g₂ p := by
  induction l with
  | nil => simp at hp
  | cons n rest ih =>
    simp only [List.nodup_cons] at hnd
    simp only [util.pathStream] at heq
    have heq := List.append_cancel_left heq
    by_cases hn : n = p
    · subst hn
      have hrest : util.pathStream g₁ rest = util.pathStream g₂ rest := by
        apply pathStream_congr
        intro m hm
        apply hagree m (List.mem_cons_of_mem _ hm)
        intro hmn
        exact hnd.1 (hmn ▸ hm)
      rw [hrest] at heq
      exact List.append_cancel_right heq
    · have hhead : g₁ n = g₂ n := hagree n (List.mem_cons_self _ _) hn
      rw [hhead] at heq
      have heq := List.append_cancel_left heq
      have hp2 : p ∈ rest := by
        rcases List.mem_cons.mp hp with h | h
        · exact absurd h.symm hn
        · exact h
      exact ih hnd.2 hp2 (fun m hm => hagree m (List.mem_cons_of_mem _ hm)) heq

theorem hashInput_eq (dir : GoString) (fs : List util.Entry)
    (herr : ∀ e ∈ fs, e.walkErr = false) (hnd : (fs.map (fun e => e.name)).Nodup)
    (hread : ∀ p ∈ util.files fs, p.2.isSome = true) :
    util.hashInput dir fs
      = some (util.pathStream
          (fun n => (util.readFile dir fs (filepath.Join dir n)).getD [])
          (sort.Strings ((util.files fs).map (fun p => p.1)))) := by
  unfold util.hashInput
  rw [walkLoop_eq dir fs herr []]
  simp only [List.nil_append]
  rw [hashLoop_pathStream dir fs
    (fun n => (util.readFile dir fs (filepath.Join dir n)).getD [])]
  · simp
  · intro n hn
    rw [sortStrings_mem] at hn
    obtain ⟨p, hp, hpn⟩ := List.mem_map.mp hn
    subst hpn
    have h1 := readFile_of_mem dir fs hnd p hp
    have h2 := hread p hp
    rw [h1]
    cases hc : p.2 with
    | none => rw [hc] at h2; exact Bool.noConfusion h2
    | some c => rfl
theorem readFile_getD_of_mem (dir : GoString) (fs : List util.Entry)
    (hnd : (fs.map (fun e => e.name)).Nodup) (n : GoString) (c : List Byte)
    (h : (n, some c) ∈ util.files fs) :
    (util.readFile dir fs (filepath.Join dir n)).getD [] = c := by
  have h1 := readFile_of_mem dir fs hnd (n, some c) h
  simp only at h1
  rw [h1]
  rfl

theorem hashInput_add (d₁ d₂ : GoString) (fs₁ fs₂ : List util.Entry)
    (herr₁ : ∀ e ∈ fs₁, e.walkErr = false) (herr₂ : ∀ e ∈ fs₂, e.walkErr = false)
    (hnd₁ : (fs₁.map (fun e => e.name)).Nodup) (hnd₂ : (fs₂.map (fun e => e.name)).Nodup)
    (hread₁ : ∀ p ∈ util.files fs₁, p.2.isSome = true)
    (hread₂ : ∀ p ∈ util.files fs₂, p.2.isSome = true)
    (p : GoString) (c : List Byte)
    (hperm : (util.files fs₂).Perm ((p, some c) :: util.files fs₁)) :
    ∃ w₁ w₂, util.hashInput d₁ fs₁ = some w₁ ∧ util.hashInput d₂ fs₂ = some w₂
      ∧ w₂.length = w₁.length + p.length + c.length := by
  refine ⟨_, _, hashInput_eq d₁ fs₁ herr₁ hnd₁ hread₁, hashInput_eq d₂ fs₂ herr₂ hnd₂ hread₂, ?_⟩
  rw [pathStream_length, pathStream_length]
  have hnames : (sort.Strings ((util.files fs₂).map (fun q => q.1))).Perm
      (p :: sort.Strings ((util.files fs₁).map (fun q => q.1))) := by
    refine (List.perm_insertionSort _ _).trans ?_
    refine (hperm.map _).trans ?_
    simp only [List.map_cons]
    exact List.Perm.cons _ (List.perm_insertionSort _ _).symm
  rw [(hnames.map _).sum_eq]
  simp only [List.map_cons, List.sum_cons]
  have hp : (p, some c) ∈ util.files fs₂ := hperm.mem_iff.mpr (List.mem_cons_self _ _)
  rw [readFile_getD_of_mem d₂ fs₂ hnd₂ p c hp]
  have hcongr : (sort.Strings ((util.files fs₁).map (fun q => q.1))).map
        (fun n => n.length + ((util.readFile d₂ fs₂ (filepath.Join d₂ n)).getD []).length)
      = (sort.Strings ((util.files fs₁).map (fun q => q.1))).map
        (fun n => n.length + ((util.readFile d₁ fs₁ (filepath.Join d₁ n)).getD []).length) := by
    apply List.map_congr_left
    intro n hn
    rw [sortStrings_mem] at hn
    obtain ⟨q, hq, hqn⟩ := List.mem_map.mp hn
    subst hqn
    have hsome := hread₁ q hq
    obtain ⟨qn, qc⟩ := q
    cases qc with
    | none => exact Bool.noConfusion hsome
    | some cn =>
      have hq2 : (qn, some cn) ∈ util.files fs₂ :=
        hperm.mem_iff.mpr (List.mem_cons_of_mem _ hq)
      simp only
      rw [readFile_getD_of_mem d₁ fs₁ hnd₁ qn cn hq, readFile_getD_of_mem d₂ fs₂ hnd₂ qn cn hq2]
  rw [hcongr]
  omega

theorem hashInput_mutate (d₁ d₂ : GoString) (fs₁ fs₂ : List util.Entry)
    (herr₁ : ∀ e ∈ fs₁, e.walkErr = false) (herr₂ : ∀ e ∈ fs₂, e.walkErr = false)
    (hnd₁ : (fs₁.map (fun e => e.name)).Nodup) (hnd₂ : (fs₂.map (fun e => e.name)).Nodup)
    (hread₁ : ∀ p ∈ util.files fs₁, p.2.isSome = true)
    (hread₂ : ∀ p ∈ util.files fs₂, p.2.isSome = true)
    (p : GoString) (c c' : List Byte) (rest : List (GoString × Option (List Byte)))
    (hc : c ≠ c')
    (h₁ : (util.files fs₁).Perm ((p, some c) :: rest))
    (h₂ : (util.files fs₂).Perm ((p, some c') :: rest)) :
    util.hashInput d₁ fs₁ ≠ util.hashInput d₂ fs₂ := by
  rw [hashInput_eq d₁ fs₁ herr₁ hnd₁ hread₁, hashInput_eq d₂ fs₂ herr₂ hnd₂ hread₂]
  have hnames : sort.Strings ((util.files fs₂).map (fun q => q.1))
      = sort.Strings ((util.files fs₁).map (fun q => q.1)) := by
    apply sortStrings_perm
    refine (h₂.map _).trans ?_
    simp only [List.map_cons]
    have := (h₁.map (fun q : GoString × Option (List Byte) => q.1)).symm
    simpa only [List.map_cons] using this
  rw [hnames]
  intro heq
  have heq := Option.some.inj heq
  have hp₁ : (p, some c) ∈ util.files fs₁ := h₁.mem_iff.mpr (List.mem_cons_self _ _)
  have hp₂ : (p, some c') ∈ util.files fs₂ := h₂.mem_iff.mpr (List.mem_cons_self _ _)
  have hndL : (sort.Strings ((util.files fs₁).map (fun q => q.1))).Nodup := by
    refine (List.perm_insertionSort _ _).nodup_iff.mpr ?_
    have : (util.files fs₁).map (fun q => q.1)
        = (fs₁.filter (fun e => !e.isDir)).map (fun e => e.name) := by
      simp [util.files, List.map_map, Function.comp_def]
    rw [this]
    exact (List.filter_sublist _).map _ |>.nodup hnd₁
  have hpL : p ∈ sort.Strings ((util.files fs₁).map (fun q => q.1)) := by
    rw [sortStrings_mem]
    exact List.mem_map.mpr ⟨_, hp₁, rfl⟩
  have key := pathStream_inj_at _ _ p _ hndL hpL ?_ heq
  · simp only at key
    rw [readFile_getD_of_mem d₁ fs₁ hnd₁ p c hp₁, readFile_getD_of_mem d₂ fs₂ hnd₂ p c' hp₂] at key
    exact hc key
  · intro n hn hnp
    rw [sortStrings_mem] at hn
    obtain ⟨q, hq, hqn⟩ := List.mem_map.mp hn
    subst hqn
    have hsome := hread₁ q hq
    obtain ⟨qn, qc⟩ := q
    cases qc with
    | none => exact Bool.noConfusion hsome
    | some cn =>
      have hqr : (qn, some cn) ∈ rest := by
        rcases List.mem_cons.mp (h₁.mem_iff.mp hq) with h | h
        · exact absurd (congrArg Prod.fst h) hnp
        · exact h
      have hq2 : (qn, some cn) ∈ util.files fs₂ := h₂.mem_iff.mpr (List.mem_cons_of_mem _ hqr)
      simp only
      rw [readFile_getD_of_mem d₁ fs₁ hnd₁ qn cn hq, readFile_getD_of_mem d₂ fs₂ hnd₂ qn cn hq2]
/-- C11 (counterexample): the tree with the single file `a` of content `b`
and the tree with the single empty file `ab` have different sets of
(relative path, content) pairs, yet `HashDir` feeds the same byte stream
`ab` to SHA-256 for both and returns the same hash. -/
theorem HashDir_stream_collision :
    (util.files util.treeA).toFinset ≠ (util.files util.treeAB).toFinset
      ∧ util.hashInput (str ("/l")) util.treeA = some (str ("ab"))
      ∧ util.hashInput (str ("/l")) util.treeAB = some (str ("ab"))
      ∧ util.HashDir (str ("/l")) util.treeA = util.HashDir (str ("/l")) util.treeAB := by
  refine ⟨by decide, by decide, by decide, ?_⟩
  rw [HashDir_of_hashInput, HashDir_of_hashInput]
  have h₁ : util.hashInput (str ("/l")) util.treeA = some (str ("ab")) := by decide
  have h₂ : util.hashInput (str ("/l")) util.treeAB = some (str ("ab")) := by decide
  rw [h₁, h₂]

/-- C11 (amended): for two trees that are walked without error and whose
files are all readable, adding one file with a non-empty path, removing one
such file, or changing the content of one file changes the byte stream
`HashDir` feeds to SHA-256. -/
theorem HashDir_single_edit (d₁ d₂ : GoString) (fs₁ fs₂ : List util.Entry)
    (herr₁ : ∀ e ∈ fs₁, e.walkErr = false) (herr₂ : ∀ e ∈ fs₂, e.walkErr = false)
    (hnd₁ : (fs₁.map (fun e => e.name)).Nodup) (hnd₂ : (fs₂.map (fun e => e.name)).Nodup)
    (hread₁ : ∀ p ∈ util.files fs₁, p.2.isSome = true)
    (hread₂ : ∀ p ∈ util.files fs₂, p.2.isSome = true) :
    (∀ p c, p ≠ [] → (util.files fs₂).Perm ((p, some c) :: util.files fs₁) →
        util.hashInput d₁ fs₁ ≠ util.hashInput d₂ fs₂)
      ∧ (∀ p c, p ≠ [] → (util.files fs₁).Perm ((p, some c) :: util.files fs₂) →
        util.hashInput d₁ fs₁ ≠ util.hashInput d₂ fs₂)
      ∧ (∀ p c c' rest, c ≠ c' → (util.files fs₁).Perm ((p, some c) :: rest) →
        (util.files fs₂).Perm ((p, some c') :: rest) →
        util.hashInput d₁ fs₁ ≠ util.hashInput d₂ fs₂) := by
  refine ⟨?_, ?_, ?_⟩
  · intro p c hp hperm heq
    obtain ⟨w₁, w₂, h₁, h₂, hlen⟩ :=
      hashInput_add d₁ d₂ fs₁ fs₂ herr₁ herr₂ hnd₁ hnd₂ hread₁ hread₂ p c hperm
    rw [h₁, h₂] at heq
    have := Option.some.inj heq
    subst this
    have : 0 < p.length := List.length_pos.mpr hp
    omega
  · intro p c hp hperm heq
    obtain ⟨w₂, w₁, h₂, h₁, hlen⟩ :=
      hashInput_add d₂ d₁ fs₂ fs₁ herr₂ herr₁ hnd₂ hnd₁ hread₂ hread₁ p c hperm
    rw [h₁, h₂] at heq
    have := Option.some.inj heq
    subst this
    have : 0 < p.length := List.length_pos.mpr hp
    omega
  · intro p c c' rest hc h₁ h₂
    exact hashInput_mutate d₁ d₂ fs₁ fs₂ herr₁ herr₂ hnd₁ hnd₂ hread₁ hread₂ p c c' rest hc h₁ h₂

theorem HashDir_single_edit_witness :
    (∀ e ∈ util.treeA, e.walkErr = false) ∧ (∀ e ∈ util.treeAN, e.walkErr = false)
      ∧ (util.treeA.map (fun e => e.name)).Nodup ∧ (util.treeAN.map (fun e => e.name)).Nodup
      ∧ (∀ p ∈ util.files util.treeA, p.2.isSome = true)
      ∧ (∀ p ∈ util.files util.treeAN, p.2.isSome = true)
      ∧ (util.files util.treeAN).Perm ((str ("n"), some (str ("x"))) :: util.files util.treeA)
      ∧ util.hashInput (str ("/l")) util.treeA ≠ util.hashInput (str ("/m")) util.treeAN :=
  ⟨by decide, by decide, by decide, by decide, by decide, by decide, by decide,
    (HashDir_single_edit (str ("/l")) (str ("/m")) util.treeA util.treeAN
      (by decide) (by decide) (by decide) (by decide) (by decide) (by decide)).1
      (str ("n")) (str ("x")) (by decide) (by decide)⟩

/-- Changing the content of the only file of `treeA` changes the stream. -/
theorem hashInput_treeA2 :
    util.hashInput (str ("/l")) util.treeA ≠ util.hashInput (str ("/l")) util.treeA2 := by
  decide

/-! ### Containers: names, PID and status, stop -/

namespace container

theorem Run_existing_name (store : Store) (name imageTag : GoString) (opts : RunOptions)
    (host : Host) (c : container) (hname : name ≠ [])
    (hid : util.IsValidID name = false)
    (hc : store (util.GenerateID name host.now host.rnd) = some c) (hcn : c.Name = name) :
    Run store name imageTag opts host = (some RunError.alreadyExists, none, store, []) := by
  have hget : Get store name host.now host.rnd = some c := by
    simp [Get, hid, hc, hcn]
  simp [Run, hname, hget]

set_option maxRecDepth 100000 in
/-- C12: after `run --name abcdef012345` has created a container, a second
`Run` with the same name returns no error and replaces the manifest stored
under the container's ID; with the name `web` the second `Run` fails with
the already-exists error and leaves the store as it was. -/
theorem Run_hex_name_overwrites :
    (hexNameStore (str ("03e9b7b472e0"))).map (fun c => (c.Name, c.PID, c.CreatedAt))
        = some (str ("abcdef012345"), 4242, 1000)
      ∧ (Run hexNameStore (str ("abcdef012345")) (str ("alpine")) sampleOpts
          (sampleHost 2000 4343)).1 = none
      ∧ ((Run hexNameStore (str ("abcdef012345")) (str ("alpine")) sampleOpts
          (sampleHost 2000 4343)).2.2.1 (str ("03e9b7b472e0"))).map
            (fun c => (c.Name, c.PID, c.CreatedAt))
        = some (str ("abcdef012345"), 4343, 2000)
      ∧ (Run webStore (str ("web")) (str ("alpine")) sampleOpts (sampleHost 2000 4343)).1
          = some RunError.alreadyExists := by
  refine ⟨by decide, by decide, by decide, by decide⟩

end container
namespace container

theorem PidInv_reset (c : container) : PidInv { c with Status := StatusExited, PID := 0 } := by
  unfold PidInv
  simp only [ne_eq, not_true_eq_false, false_iff]
  decide

theorem PidInv_started (c : container) (pid : Int) (hpid : 0 < pid) :
    PidInv { c with PID := pid, Status := StatusRunning } := by
  unfold PidInv
  simp only [iff_true]
  omega

theorem setupResources_fields (c : container) (host : Host) :
    (c.setupResources host).2.PID = c.PID ∧ (c.setupResources host).2.Status = c.Status
      ∧ (c.setupResources host).2.ID = c.ID := by
  unfold container.setupResources
  split_ifs <;> simp only [and_self] <;> split_ifs <;> simp only [and_self]

theorem saveConfig_inv (c : container) (store : Store) (host : Host) (hc : PidInv c)
    (hstore : ∀ id x, store id = some x → PidInv x) :
    ∀ id x, (c.saveConfig store host).1 id = some x → PidInv x := by
  intro id x hx
  unfold container.saveConfig at hx
  split_ifs at hx
  · simp only [Store.write] at hx
    split_ifs at hx
    · cases hx; exact hc
    · exact hstore id x hx
  · exact hstore id x hx

theorem remove_inv (c : container) (store : Store) (host : Host)
    (hstore : ∀ id x, store id = some x → PidInv x) :
    ∀ id x, (c.remove store host).1 id = some x → PidInv x := by
  intro id x hx
  unfold container.remove at hx
  split_ifs at hx
  · exact hstore id x hx
  · exact hstore id x hx
  · exact hstore id x hx
  · simp only [Store.remove] at hx
    split_ifs at hx
    exact hstore id x hx

theorem waitAndCleanup_inv (c : container) (store : Store) (host : Host) :
    PidInv (c.waitAndCleanup store host).1
      ∧ ((∀ id x, store id = some x → PidInv x) →
        ∀ id x, (c.waitAndCleanup store host).2 id = some x → PidInv x) := by
  unfold container.waitAndCleanup
  have h1 := saveConfig_inv { c with Status := StatusExited, PID := 0 } store host
    (PidInv_reset c)
  dsimp only
  split_ifs
  · exact ⟨PidInv_reset c, fun hstore => remove_inv _ _ host (h1 hstore)⟩
  · exact ⟨PidInv_reset c, fun hstore => h1 hstore⟩

theorem start_inv (c : container) (store : Store) (host : Host) (hpid : 0 < host.pid)
    (hinv : PidInv c) :
    PidInv (c.start store host).c
      ∧ ((∀ id x, store id = some x → PidInv x) →
        ∀ id x, (c.start store host).store id = some x → PidInv x) := by
  unfold container.start
  split_ifs with h1 h2 h3
  · exact ⟨hinv, fun hstore => hstore⟩
  · exact ⟨hinv, fun hstore => hstore⟩
  · exact ⟨hinv, fun hstore => hstore⟩
  · obtain ⟨hp, hs, _⟩ := setupResources_fields
      { c with PID := host.pid, Status := StatusRunning } host
    have hc2 : PidInv ({ c with PID := host.pid, Status := StatusRunning }.setupResources host).2 := by
      unfold PidInv
      rw [hp, hs]
      exact PidInv_started c host.pid hpid
    dsimp only
    generalize hr : container.setupResources
      { c with PID := host.pid, Status := StatusRunning } host = r at hc2
    obtain ⟨e, c2⟩ := r
    cases e with
    | true => exact ⟨PidInv_reset c2, fun hstore => hstore⟩
    | false =>
      dsimp only
      have hs2 := saveConfig_inv c2 store host hc2
      split_ifs
      · exact ⟨(waitAndCleanup_inv c2 _ host).1,
          fun hstore => (waitAndCleanup_inv c2 _ host).2 (hs2 hstore)⟩
      · exact ⟨hc2, fun hstore => hs2 hstore⟩

theorem stop_inv (c : container) (timeoutSec : Int) (store : Store) (host : Host)
    (hinv : PidInv c) (r : Result)
    (hr : c.stop timeoutSec store host = some r) :
    PidInv r.c ∧ ((∀ id x, store id = some x → PidInv x) →
      ∀ id x, r.store id = some x → PidInv x) := by
  unfold container.stop at hr
  by_cases h1 : c.Status ≠ StatusRunning
  · rw [if_pos h1] at hr
    cases hr; exact ⟨hinv, fun hstore => hstore⟩
  · rw [if_neg h1] at hr
    dsimp only at hr
    rw [Option.map_eq_some'] at hr
    obtain ⟨kills, _, hk⟩ := hr
    subst hk
    exact ⟨PidInv_reset c, fun hstore => saveConfig_inv _ store host (PidInv_reset c) hstore⟩

theorem waitLoop_isSome (pid deadline : Int) (clock : List Int) (gone : List Bool)
    (hlen : clock.length ≤ gone.length) (hend : ∃ t ∈ clock, deadline ≤ t) :
    (waitLoop pid deadline clock gone).isSome = true := by
  induction clock generalizing gone with
  | nil => simp at hend
  | cons t rest ih =>
    unfold waitLoop
    split_ifs with ht
    · cases gone with
      | nil => simp at hlen
      | cons g gs =>
        simp only
        split_ifs
        · rfl
        · rw [Option.isSome_map']
          apply ih
          · simpa using hlen
          · obtain ⟨u, hu, hdu⟩ := hend
            rcases List.mem_cons.mp hu with h | h
            · subst h; omega
            · exact ⟨u, h, hdu⟩
    · rfl

/-- The method `stop` returns whenever the readings of the clock reach the
deadline and the host answers every probe made until then. -/
theorem stop_returns (c : container) (timeoutSec : Int) (store : Store) (host : Host)
    (hlen : host.clock.length ≤ host.gone.length + 1)
    (hend : ∃ t ∈ host.clock.tail,
      host.clock.headD 0 + int64Wrap (timeoutSec * 1000000000) ≤ t) :
    (c.stop timeoutSec store host).isSome = true := by
  unfold container.stop
  split_ifs with h1 h2 h3
  · rfl
  · rw [Option.isSome_map']
    have hw : (c.waitProcessExit timeoutSec host).isSome = true := by
      unfold container.waitProcessExit
      split_ifs
      · rfl
      · cases hcl : host.clock with
        | nil => rw [hcl] at hend; simp at hend
        | cons t rest =>
          rw [hcl] at hend hlen
          simp only
          apply waitLoop_isSome
          · simpa using hlen
          · simpa using hend
    cases hx : c.waitProcessExit timeoutSec host with
    | none => rw [hx] at hw; exact Bool.noConfusion hw
    | some r => rfl
  · rfl
  · rfl

theorem newContainer_inv (name imageTag : GoString) (opts : RunOptions) (store : Store)
    (host : Host) (c : container) (hc : (newContainer name imageTag opts store host).1 = some c) :
    PidInv c ∧ ((∀ id x, store id = some x → PidInv x) →
      ∀ id x, (newContainer name imageTag opts store host).2 id = some x → PidInv x) := by
  have hnew : ∀ x : container, x.PID = 0 → x.Status = StatusExited → PidInv x := by
    intro x h1 h2
    unfold PidInv
    rw [h1, h2]
    decide
  unfold newContainer at hc ⊢
  dsimp only at hc ⊢
  unfold container.saveConfig at hc ⊢
  split_ifs at hc ⊢
  dsimp only at hc ⊢
  cases hc
  refine ⟨hnew _ rfl rfl, fun hstore id x hx => ?_⟩
  simp only [Store.write] at hx
  split_ifs at hx
  · cases hx; exact hnew _ rfl rfl
  · exact hstore id x hx

/-- C13: on a container record the PID is non-zero exactly when the status
is running: this holds for the record `newContainer` returns and, when the
spawned child has a positive PID, is preserved by `start` (whether it
succeeds, fails before the child is spawned, or fails in resource setup and
runs `killAndReset`), by `killAndReset`, by `waitAndCleanup` and by `stop`;
the manifests in the store keep the property as well. -/
theorem PidInv_lifecycle (c : container) (store : Store) (host : Host) (timeoutSec : Int)
    (hpid : 0 < host.pid) (hinv : PidInv c) :
    (∀ name imageTag opts c', (newContainer name imageTag opts store host).1 = some c' →
        PidInv c')
      ∧ PidInv (c.start store host).c
      ∧ PidInv c.killAndReset.1
      ∧ PidInv (c.waitAndCleanup store host).1
      ∧ (∀ r, c.stop timeoutSec store host = some r → PidInv r.c)
      ∧ ((∀ id x, store id = some x → PidInv x) →
          (∀ name imageTag opts id x,
              (newContainer name imageTag opts store host).1.isSome = true →
              (newContainer name imageTag opts store host).2 id = some x → PidInv x)
            ∧ (∀ id x, (c.start store host).store id = some x → PidInv x)
            ∧ (∀ id x, (c.waitAndCleanup store host).2 id = some x → PidInv x)
            ∧ (∀ r, c.stop timeoutSec store host = some r →
                ∀ id x, r.store id = some x → PidInv x)) := by
  refine ⟨fun name imageTag opts c' hc => (newContainer_inv name imageTag opts store host c' hc).1,
    (start_inv c store host hpid hinv).1, PidInv_reset c, (waitAndCleanup_inv c store host).1,
    fun r hr => (stop_inv c timeoutSec store host hinv r hr).1, fun hstore => ⟨?_,
      (start_inv c store host hpid hinv).2 hstore, (waitAndCleanup_inv c store host).2 hstore,
      fun r hr => (stop_inv c timeoutSec store host hinv r hr).2 hstore⟩⟩
  intro name imageTag opts id x hsome hx
  obtain ⟨c', hc'⟩ := Option.isSome_iff_exists.mp hsome
  exact (newContainer_inv name imageTag opts store host c' hc').2 hstore id x hx

theorem PidInv_lifecycle_witness :
    0 < (sampleHost 2000 4343).pid ∧ PidInv sampleRunning
      ∧ (sampleRunning.stop 1 emptyStore (sampleHost 2000 4343)).isSome = true
      ∧ (∀ r, sampleRunning.stop 1 emptyStore (sampleHost 2000 4343) = some r → PidInv r.c)
      ∧ PidInv (sampleRunning.start emptyStore (sampleHost 2000 4343)).c :=
  ⟨by decide, by decide, by decide,
    (PidInv_lifecycle sampleRunning emptyStore (sampleHost 2000 4343) 1 (by decide)
      (by decide)).2.2.2.2.1,
    (PidInv_lifecycle sampleRunning emptyStore (sampleHost 2000 4343) 1 (by decide)
      (by decide)).2.1⟩

end container
namespace container

theorem waitLoop_all_alive (pid deadline : Int) (clock : List Int) (gone : List Bool)
    (hgone : ∀ g ∈ gone, g = false) (b : Bool) (probes : List (Int × Nat))
    (h : waitLoop pid deadline clock gone = some (b, probes)) :
    b = false ∧ ∀ p ∈ probes, p = (pid, 0) := by
  induction clock generalizing gone probes with
  | nil => simp [waitLoop] at h
  | cons t rest ih =>
    unfold waitLoop at h
    split_ifs at h with ht
    · cases gone with
      | nil => simp at h
      | cons g gs =>
        have hg : g = false := hgone g (List.mem_cons_self _ _)
        subst hg
        simp only [Bool.false_eq_true, if_false, Option.map_eq_some'] at h
        obtain ⟨r, hr, hrb⟩ := h
        obtain ⟨b2, probes2⟩ := r
        cases hrb
        have := ih gs (fun g hg => hgone g (List.mem_cons_of_mem _ hg)) probes2 hr
        refine ⟨this.1, ?_⟩
        intro p hp
        rcases List.mem_cons.mp hp with h | h
        · exact h
        · exact this.2 p h
    · cases h
      exact ⟨rfl, fun p hp => absurd hp (List.not_mem_nil _)⟩

/-- With a positive timeout, a process that is alive when `stop` begins and
that no probe reports gone is sent `SIGKILL` as the last signal of `stop`. -/
theorem stop_positive_timeout (c : container) (timeoutSec : Int) (store : Store) (host : Host)
    (ht : 0 < timeoutSec) (hrun : c.Status = StatusRunning) (hpid : 0 < c.PID)
    (halive : host.alive = true) (hgone : ∀ g ∈ host.gone, g = false) (r : Result)
    (hr : c.stop timeoutSec store host = some r) :
    ∃ probes, r.kills = [(c.PID, 0), (c.PID, syscall.SIGTERM)] ++ probes
        ++ [(c.PID, syscall.SIGKILL)] ∧ ∀ p ∈ probes, p = (c.PID, 0) := by
  unfold container.stop at hr
  rw [if_neg (by simp [hrun]), if_pos hpid, if_pos halive] at hr
  cases hw : c.waitProcessExit timeoutSec host with
  | none => rw [hw] at hr; simp at hr
  | some bp =>
    obtain ⟨b, probes⟩ := bp
    rw [hw] at hr
    unfold container.waitProcessExit at hw
    rw [if_neg (by omega)] at hw
    cases hcl : host.clock with
    | nil => rw [hcl] at hw; simp at hw
    | cons t rest =>
      rw [hcl] at hw
      simp only at hw
      obtain ⟨hb, hp⟩ := waitLoop_all_alive _ _ _ _ hgone b probes hw
      subst hb
      simp only [Option.map_some', Option.some.injEq] at hr
      subst hr
      exact ⟨probes, by simp, hp⟩

/-- With a timeout of zero or less, `stop` sends the probe and `SIGTERM` and
nothing else, then resets the record. -/
theorem stop_zero_timeout (c : container) (timeoutSec : Int) (store : Store) (host : Host)
    (ht : timeoutSec ≤ 0) (hrun : c.Status = StatusRunning) (hpid : 0 < c.PID)
    (halive : host.alive = true) :
    (c.stop timeoutSec store host).map (fun r => (r.kills, r.c.PID, r.c.Status))
      = some ([(c.PID, 0), (c.PID, syscall.SIGTERM)], 0, StatusExited) := by
  unfold container.stop
  rw [if_neg (by simp [hrun]), if_pos hpid, if_pos halive]
  unfold container.waitProcessExit
  rw [if_pos ht]
  simp

set_option maxRecDepth 100000 in
/-- C14: with timeout 0, the value forced removal passes, `stop` of a running
container whose process answers every probe as alive sends the signal-0
probe and `SIGTERM` only, never `SIGKILL`, and resets PID and status; forced
removal then deletes the container from the store.  With timeout 1 the same
process is sent `SIGKILL`. -/
theorem stop_zero_sends_only_SIGTERM :
    (sampleRunning.stop 0 emptyStore (sampleHost 2000 4343)).map
        (fun r => (r.err, r.kills, r.c.PID, r.c.Status))
        = some (false, [(4242, 0), (4242, syscall.SIGTERM)], 0, StatusExited)
      ∧ (webStore (str ("2567a5ec9705"))).map (fun c => (c.PID, c.Status))
        = some (4242, StatusRunning)
      ∧ (rmTarget webStore (str ("web")) true (sampleHost 2000 4343)).map
          (fun r => (r.1, r.2.1 (str ("2567a5ec9705")), r.2.2))
        = some (false, none, [(4242, 0), (4242, syscall.SIGTERM)])
      ∧ (sampleRunning.stop 1 emptyStore (sampleHost 2000 4343)).map
          (fun r => r.kills.getLast?) = some (some (4242, syscall.SIGKILL)) := by
  refine ⟨by decide, by decide, by decide, by decide⟩

end container

/-! ### Attaching and detaching containers -/

namespace net

theorem connect_saved (d : BridgeDriver) (links : List GoString) (containerID : GoString)
    (host : NetHost) (r : DriverResult) (h : d.connect links containerID host = some r) :
    r.saved = true ↔ r.out = Outcome.ok := by
  unfold BridgeDriver.connect at h
  split at h
  · cases h; simp
  · dsimp only at h
    split_ifs at h
    all_goals first
      | (cases h; simp)
      | (split at h <;> (first | (cases h; simp) | cases h))

/-- A call of `Connect` that does not return nil leaves the manifests of the
store as they were. -/
theorem Connect_error_keeps_store (w : World) (networkName containerID : GoString)
    (host : NetHost) (out : Outcome) (w2 : World)
    (h : Connect w networkName containerID host = some (out, w2)) (hout : out ≠ Outcome.ok) :
    w2.store = w.store := by
  unfold Connect at h
  split at h
  · cases h; rfl
  · rename_i driver _
    rw [Option.map_eq_some'] at h
    obtain ⟨r, hr, hrw⟩ := h
    cases hrw
    have hs := connect_saved driver w.links containerID host r hr
    have : r.saved = false := by
      cases hsv : r.saved with
      | false => rfl
      | true => exact absurd (hs.mp hsv) hout
    simp [World.after, this]

set_option maxRecDepth 100000 in
/-- C16: on the new network `ducker`, `Connect` of the container
`abcdef111111` on a host where `LinkSetMaster` fails returns an error and
leaves the two ends of the veth pair it created in the host namespace; on a
host where `LinkSetNsPid` fails, `connect` returns an error with the address
it allocated still in the allocated list and in `ContainerIPs` of the driver,
and the veth pair still there.  The manifest on disk is unchanged in both
cases. -/
theorem connect_failure_leaves_veth :
    newWorld.links = [] ∧ newWorld.lists = some ([], [])
      ∧ (Connect newWorld (str ("ducker")) (str ("abcdef111111")) noMasterHost).map
          (fun r => r.1) = some Outcome.error
      ∧ (Connect newWorld (str ("ducker")) (str ("abcdef111111")) noMasterHost).map
          (fun r => r.2.links) = some [str ("veth-abcdef"), str ("ceth-abcdef")]
      ∧ (Connect newWorld (str ("ducker")) (str ("abcdef111111")) noMasterHost).map
          (fun r => r.2.lists) = some (some ([], []))
      ∧ ((get newWorld.store (str ("ducker")) 0 0).bind
          (fun d => d.connect [] (str ("abcdef111111")) noNsHost)).map
          (fun r => (r.out, r.saved)) = some (Outcome.error, false)
      ∧ ((get newWorld.store (str ("ducker")) 0 0).bind
          (fun d => d.connect [] (str ("abcdef111111")) noNsHost)).map
          (fun r => r.links) = some [str ("veth-abcdef"), str ("ceth-abcdef")]
      ∧ ((get newWorld.store (str ("ducker")) 0 0).bind
          (fun d => d.connect [] (str ("abcdef111111")) noNsHost)).map
          (fun r => (r.d.IPM.Allocated, r.d.ContainerIPs))
        = some ([str ("172.18.0.2/16")], [(str ("abcdef111111"), str ("172.18.0.2/16"))]) := by
  refine ⟨by decide, by decide, by decide, by decide, by decide, by decide, by decide,
    by decide⟩

end net
namespace net

set_option maxRecDepth 100000 in
/-- C17: on the new network `ducker`, whose lists satisfy the invariant,
connecting the container `abcdef111111`, disconnecting the identifier
`abcdef222222` (which deletes the link `veth-abcdef`) and connecting
`abcdef111111` again all return nil, and leave two entries in the allocated
list but one value in `ContainerIPs`: the invariant no longer holds. -/
theorem reconnect_leaks_address :
    newWorld.lists = some ([], []) ∧ ListsInv ([], [])
      ∧ connectedWorld.map (fun w => w.lists)
        = some (some ([str ("172.18.0.2/16")], [(str ("abcdef111111"), str ("172.18.0.2/16"))]))
      ∧ connectedWorld.map (fun w => w.links) = some [str ("veth-abcdef")]
      ∧ connectedWorld.map
          (fun w => (Disconnect w (str ("ducker")) (str ("abcdef222222")) okHost).1)
        = some Outcome.ok
      ∧ connectedWorld.map
          (fun w => (Disconnect w (str ("ducker")) (str ("abcdef222222")) okHost).2.links)
        = some []
      ∧ reconnectedWorld.map (fun r => r.1) = some Outcome.ok
      ∧ reconnectedWorld.map (fun r => r.2.lists)
        = some (some ([str ("172.18.0.2/16"), str ("172.18.0.3/16")],
            [(str ("abcdef111111"), str ("172.18.0.3/16"))]))
      ∧ ¬ ListsInv ([str ("172.18.0.2/16"), str ("172.18.0.3/16")],
            [(str ("abcdef111111"), str ("172.18.0.3/16"))]) := by
  refine ⟨by decide, by decide, by decide, by decide, by decide, by decide, by decide,
    by decide, by decide⟩

theorem mapGet_mapDelete (m : List (GoString × GoString)) (k : GoString) :
    mapGet (mapDelete m k) k = none := by
  unfold mapGet mapDelete
  rw [Option.map_eq_none', List.find?_eq_none]
  intro p hp
  have := (List.mem_filter.mp hp).2
  simpa using this

theorem mapDelete_of_mapGet_none (m : List (GoString × GoString)) (k : GoString)
    (h : mapGet m k = none) : mapDelete m k = m := by
  unfold mapGet at h
  rw [Option.map_eq_none', List.find?_eq_none] at h
  unfold mapDelete
  rw [List.filter_eq_self]
  intro p hp
  simpa using h p hp

/-- For an identifier of six bytes or more, `disconnect` does not panic,
returns nil when the manifest is saved, leaves no entry for the identifier,
and a second `disconnect` of the same identifier changes neither the
allocated list nor `ContainerIPs`. -/
theorem disconnect_idempotent (d : BridgeDriver) (links : List GoString)
    (containerID : GoString) (host host2 : NetHost) (hlen : 6 ≤ containerID.length) :
    (d.disconnect links containerID host).out ≠ Outcome.panic
      ∧ (host.saveOk = true → (d.disconnect links containerID host).out = Outcome.ok)
      ∧ mapGet (d.disconnect links containerID host).d.ContainerIPs containerID = none
      ∧ (((d.disconnect links containerID host).d.disconnect
            (d.disconnect links containerID host).links containerID host2).d.IPM.Allocated
          = (d.disconnect links containerID host).d.IPM.Allocated)
      ∧ (((d.disconnect links containerID host).d.disconnect
            (d.disconnect links containerID host).links containerID host2).d.ContainerIPs
          = (d.disconnect links containerID host).d.ContainerIPs) := by
  have hshort : short containerID = some (containerID.take 6) := by
    unfold short
    rw [if_neg (by omega)]
  have hnone : mapGet (d.disconnect links containerID host).d.ContainerIPs containerID = none := by
    unfold BridgeDriver.disconnect
    rw [hshort]
    dsimp only
    cases hg : mapGet d.ContainerIPs containerID with
    | none => split_ifs <;> exact hg
    | some ip => split_ifs <;> exact mapGet_mapDelete _ _
  have hsecond : ∀ (e : BridgeDriver) (l : List GoString),
      mapGet e.ContainerIPs containerID = none →
      (e.disconnect l containerID host2).d.IPM.Allocated = e.IPM.Allocated
        ∧ (e.disconnect l containerID host2).d.ContainerIPs = e.ContainerIPs := by
    intro e l he
    unfold BridgeDriver.disconnect
    rw [hshort]
    dsimp only
    rw [he]
    split_ifs <;> exact ⟨rfl, rfl⟩
  refine ⟨?_, ?_, hnone, (hsecond _ _ hnone).1, (hsecond _ _ hnone).2⟩
  · unfold BridgeDriver.disconnect
    rw [hshort]
    dsimp only
    split_ifs <;> simp
  · intro hs
    unfold BridgeDriver.disconnect
    rw [hshort]
    dsimp only
    rw [hs]
    rfl

theorem disconnect_short_panics (d : BridgeDriver) (links : List GoString)
    (containerID : GoString) (host : NetHost) (hlen : containerID.length < 6) :
    (d.disconnect links containerID host).out = Outcome.panic := by
  unfold BridgeDriver.disconnect short
  rw [if_pos hlen]

set_option maxRecDepth 100000 in
/-- C18: `Disconnect` of the identifier `web`, which is shorter than six
bytes, ends in the run-time panic of the slice expression `containerID[:6]`,
on the new network and on the network with a connected container alike;
nothing is saved. -/
theorem Disconnect_short_identifier_panics :
    (Disconnect newWorld (str ("ducker")) (str ("web")) okHost).1 = Outcome.panic
      ∧ (Disconnect newWorld (str ("ducker")) (str ("web")) okHost).2.lists = newWorld.lists
      ∧ connectedWorld.map (fun w => (Disconnect w (str ("ducker")) (str ("web")) okHost).1)
        = some Outcome.panic
      ∧ connectedWorld.map
          (fun w => (Disconnect w (str ("ducker")) (str ("abcdef111111")) okHost).1)
        = some Outcome.ok := by
  refine ⟨by decide, by decide, by decide, by decide⟩

end net

/-! ### Layers of a built image -/

namespace image

theorem foldl_copyDir (l dirs : List GoString) (h : (dirs ++ l).Nodup) :
    l.foldl copyDir dirs = dirs ++ l := by
  induction l generalizing dirs with
  | nil => simp
  | cons x rest ih =>
    have hx : x ∉ dirs := by
      intro hx
      have := List.nodup_append.mp h
      exact this.2.2 hx (List.mem_cons_self _ _)
    simp only [List.foldl_cons, copyDir, if_neg hx]
    rw [ih]
    · simp
    · simpa using h

/-- When the names of the base layers and the hashes of the pending layers
are pairwise distinct and the layers folder starts empty, the directories
under `layers/` are the entries of the manifest's layer list, one for one. -/
theorem layerDirs_of_nodup (b : Builder)
    (h : (b.baseImg.Layers ++ b.layers.map (fun l => l.hash)).Nodup) :
    b.manifestLayers = some (b.layerDirs []) := by
  have h1 : b.baseImg.Layers.foldl copyDir [] = b.baseImg.Layers := by
    have := foldl_copyDir b.baseImg.Layers [] (by simpa using (List.nodup_append.mp h).1)
    simpa using this
  unfold Builder.layerDirs
  rw [h1, foldl_copyDir _ _ h]
  simp [Builder.manifestLayers, Builder.createImage, ImageStore.write]

set_option maxRecDepth 100000 in
/-- C15: a directory without files hashes to `e3b0c44298fc`; after a build
with two steps that both leave such a layer, the manifest's layer list has
three entries, two of them equal, while `layers/` holds two directories; a
pending layer with the hash of the base layer gives two equal entries and
one directory. -/
theorem createImage_duplicate_layers :
    util.HashDir (str ("/tmp/ducker-run-1/upper")) [] = some (str ("e3b0c44298fc"))
      ∧ twinBuilder.manifestLayers
        = some [str ("0123456789ab"), str ("e3b0c44298fc"), str ("e3b0c44298fc")]
      ∧ twinBuilder.layerDirs [] = [str ("0123456789ab"), str ("e3b0c44298fc")]
      ∧ echoBuilder.manifestLayers = some [str ("0123456789ab"), str ("0123456789ab")]
      ∧ echoBuilder.layerDirs [] = [str ("0123456789ab")] := by
  refine ⟨by decide, by decide, by decide, by decide, by decide⟩

end image

/-! ### The parser of duckerfiles -/

theorem TrimSpace_of_ends (a z : Byte) (rest prev : GoString) (s : GoString)
    (hs : s = a :: rest) (hr : s.reverse = z :: prev)
    (ha : a.val < 128) (hz : z.val < 128)
    (has : unicode.IsSpace a.val = false) (hzs : unicode.IsSpace z.val = false) :
    strings.TrimSpace s = s := by
  have hl : s.length = rest.length + 1 := by rw [hs]; rfl
  have h1 : strings.trimLeftSpace s.length s = s := by
    rw [hl, hs]
    simp only [strings.trimLeftSpace, util.decodeRune, if_pos ha, has]
    rfl
  unfold strings.TrimSpace
  simp only [h1]
  rw [hr, hl]
  simp only [strings.trimRightSpaceRev, utf8.decodeLast, if_pos hz, hzs]
  simp only [Bool.false_eq_true, if_false]
  rw [← hr, List.reverse_reverse]

theorem Split_no_sep (p : GoString) (sep : Byte) (h : sep ∉ p) :
    strings.Split p sep = [p] := by
  induction p with
  | nil => rfl
  | cons c rest ih =>
    have hc : c ≠ sep := fun hc => h (hc ▸ List.mem_cons_self _ _)
    have hr : sep ∉ rest := fun hr => h (List.mem_cons_of_mem _ hr)
    simp only [strings.Split, if_neg hc, ih hr]

theorem Split_append (p t : GoString) (sep : Byte) (h : sep ∉ p) :
    strings.Split (p ++ sep :: t) sep = p :: strings.Split t sep := by
  induction p with
  | nil => simp [strings.Split]
  | cons c rest ih =>
    have hc : c ≠ sep := fun hc => h (hc ▸ List.mem_cons_self _ _)
    have hr : sep ∉ rest := fun hr => h (List.mem_cons_of_mem _ hr)
    have ih2 := ih hr
    show strings.Split (c :: (rest ++ sep :: t)) sep = _
    simp only [strings.Split, if_neg hc, ih2]

theorem Split_Join (parts : List GoString) (sep : Byte) (hne : parts ≠ [])
    (h : ∀ p ∈ parts, sep ∉ p) : strings.Split (strings.Join parts [sep]) sep = parts := by
  induction parts with
  | nil => exact absurd rfl hne
  | cons p rest ih =>
    cases rest with
    | nil => simpa [strings.Join] using Split_no_sep p sep (h p (List.mem_cons_self _ _))
    | cons q rest2 =>
      simp only [strings.Join, List.singleton_append]
      rw [Split_append p _ sep (h p (List.mem_cons_self _ _))]
      rw [ih (List.cons_ne_nil _ _) (fun x hx => h x (List.mem_cons_of_mem _ hx))]

theorem foldr_append_singletons (x : GoString) (f : Byte → GoString) (h : ∀ b ∈ x, f b = [b]) :
    (x.map f).foldr (fun e acc => e ++ acc) [] = x := by
  induction x with
  | nil => rfl
  | cons b rest ih =>
    simp only [List.map_cons, List.foldr_cons]
    rw [h b (List.mem_cons_self _ _), ih (fun c hc => h c (List.mem_cons_of_mem _ hc))]
    rfl

theorem jsonString_plain (x : GoString) (h : image.PlainArg x) :
    image.jsonString x = byte 34 :: (x ++ [byte 34]) := by
  unfold image.jsonString
  rw [foldr_append_singletons x image.jsonEscape]
  · rfl
  · intro b hb
    obtain ⟨h1, h2, h3, h4⟩ := h.2.1 b hb
    unfold image.jsonEscape
    rw [if_neg h2, if_neg h3, if_neg (by omega)]

theorem Trim_wrapped (q z : Byte) (x cutset : GoString) (hq : q ∈ cutset) (hz : z ∈ cutset)
    (hne : x ≠ []) (hh : ∀ b, x.head? = some b → b ∉ cutset)
    (hl : ∀ b, x.getLast? = some b → b ∉ cutset) :
    strings.Trim (q :: (x ++ [z])) cutset = x := by
  unfold strings.Trim
  obtain ⟨a, rest, hx⟩ := List.exists_cons_of_ne_nil hne
  have ha : a ∉ cutset := hh a (by rw [hx]; rfl)
  have h1 : (q :: (x ++ [z])).dropWhile (fun b => decide (b ∈ cutset)) = x ++ [z] := by
    rw [List.dropWhile_cons_of_pos (by simpa using hq), hx, List.cons_append,
      List.dropWhile_cons_of_neg (by simpa using ha)]
  rw [h1, List.reverse_append, List.reverse_singleton, List.singleton_append,
    List.dropWhile_cons_of_pos (by simpa using hz)]
  have hrev : x.reverse ≠ [] := by simpa using hne
  obtain ⟨c, rest2, hx2⟩ := List.exists_cons_of_ne_nil hrev
  have hc : c ∉ cutset := by
    apply hl c
    rw [List.getLast?_eq_head?_reverse, hx2]
    rfl
  rw [hx2, List.dropWhile_cons_of_neg (by simpa using hc), ← hx2, List.reverse_reverse]
theorem TrimSpace_quoted (x : GoString) :
    strings.TrimSpace (byte 34 :: (x ++ [byte 34])) = byte 34 :: (x ++ [byte 34]) := by
  apply TrimSpace_of_ends (byte 34) (byte 34) (x ++ [byte 34]) (x.reverse ++ [byte 34]) _ rfl
  · simp
  · decide
  · decide
  · decide
  · decide

theorem cmdLoop_plain (l : List GoString) (args : List GoString)
    (h : ∀ x ∈ l, image.PlainArg x) :
    image.cmdLoop (l.map image.jsonString) args = args ++ l := by
  induction l generalizing args with
  | nil => simp [image.cmdLoop]
  | cons x rest ih =>
    have hx := h x (List.mem_cons_self _ _)
    simp only [List.map_cons, image.cmdLoop]
    rw [jsonString_plain x hx, TrimSpace_quoted]
    have ht : strings.Trim (byte 34 :: (x ++ [byte 34])) [byte 39, byte 34] = x := by
      apply Trim_wrapped
      · decide
      · decide
      · exact hx.1
      · intro b hb hmem
        simp only [List.mem_cons, List.mem_singleton, List.not_mem_nil, or_false] at hmem
        rcases hmem with h1 | h1
        · subst h1; exact hx.2.2.1 hb
        · subst h1
          have := (hx.2.1 (byte 34) (List.mem_of_mem_head? hb)).2.1
          exact this rfl
      · intro b hb hmem
        simp only [List.mem_cons, List.mem_singleton, List.not_mem_nil, or_false] at hmem
        rcases hmem with h1 | h1
        · subst h1; exact hx.2.2.2 hb
        · subst h1
          have := (hx.2.1 (byte 34) (List.mem_of_mem_getLast? hb)).2.1
          exact this rfl
    rw [ht, if_pos hx.1, ih _ (fun y hy => h y (List.mem_cons_of_mem _ hy))]
    simp

theorem Join_quoted (parts : List GoString) (sep : GoString) (hne : parts ≠ [])
    (h : ∀ p ∈ parts, ∃ x, p = byte 34 :: (x ++ [byte 34])) :
    ∃ y, strings.Join parts sep = byte 34 :: (y ++ [byte 34]) := by
  induction parts with
  | nil => exact absurd rfl hne
  | cons p rest ih =>
    obtain ⟨x, hx⟩ := h p (List.mem_cons_self _ _)
    cases rest with
    | nil => exact ⟨x, by simp [strings.Join, hx]⟩
    | cons q rest2 =>
      obtain ⟨y, hy⟩ := ih (List.cons_ne_nil _ _) (fun z hz => h z (List.mem_cons_of_mem _ hz))
      refine ⟨x ++ [byte 34] ++ sep ++ byte 34 :: y, ?_⟩
      simp only [strings.Join]
      rw [hy, hx]
      simp

theorem parseCMDArgs_jsonArray (l : List GoString) (h : ∀ x ∈ l, image.PlainArg x) :
    image.parseCMDArgs (image.jsonArray l) = some l := by
  have hts : strings.TrimSpace (image.jsonArray l) = image.jsonArray l := by
    unfold image.jsonArray
    apply TrimSpace_of_ends (byte 91) (byte 93) _
      ((strings.Join (l.map image.jsonString) [byte 44]).reverse ++ [byte 91]) _ rfl
    · simp
    · decide
    · decide
    · decide
    · decide
  unfold image.parseCMDArgs
  simp only [hts]
  have hsw : strings.startsWith (image.jsonArray l) (str ("[")) = true := by
    simp [image.jsonArray, str, strings.startsWith]
  have hew : strings.endsWith (image.jsonArray l) (str ("]")) = true := by
    simp [image.jsonArray, strings.endsWith, str, strings.startsWith]
  rw [hsw, hew]
  simp only [Bool.and_self, if_true, Option.some.injEq]
  cases l with
  | nil =>
    have : strings.Trim (image.jsonArray []) (str ("[]")) = [] := by decide
    rw [this]
    simp [strings.Split, image.cmdLoop, strings.TrimSpace, strings.trimLeftSpace,
      strings.trimRightSpaceRev, strings.Trim]
  | cons x rest =>
    have hparts : ∀ p ∈ (x :: rest).map image.jsonString, ∃ y, p = byte 34 :: (y ++ [byte 34]) := by
      intro p hp
      obtain ⟨y, hy, hyp⟩ := List.mem_map.mp hp
      exact ⟨y, by rw [← hyp, jsonString_plain y (h y hy)]⟩
    obtain ⟨y, hy⟩ := Join_quoted ((x :: rest).map image.jsonString) [byte 44]
      (by simp) hparts
    have htrim : strings.Trim (image.jsonArray (x :: rest)) (str ("[]"))
        = strings.Join ((x :: rest).map image.jsonString) [byte 44] := by
      unfold image.jsonArray
      apply Trim_wrapped
      · decide
      · decide
      · rw [hy]; exact List.cons_ne_nil _ _
      · intro b hb
        rw [hy] at hb
        simp only [List.head?_cons, Option.some.injEq] at hb
        subst hb
        decide
      · intro b hb
        rw [hy] at hb
        rw [show byte 34 :: (y ++ [byte 34]) = (byte 34 :: y) ++ [byte 34] from rfl,
          List.getLast?_append] at hb
        simp only [List.getLast?_singleton, Option.or] at hb
        cases hb
        decide
    rw [htrim, Split_Join _ _ (by simp)]
    · simpa using cmdLoop_plain (x :: rest) [] h
    · intro p hp
      obtain ⟨z, hz, hzp⟩ := List.mem_map.mp hp
      rw [← hzp, jsonString_plain z (h z hz)]
      intro hmem
      simp only [List.mem_cons, List.mem_append, List.mem_singleton, List.not_mem_nil,
        or_false] at hmem
      rcases hmem with h1 | h1 | h1
      · exact absurd h1 (by decide)
      · exact (h z hz).2.1 (byte 44) h1 |>.1 rfl
      · exact absurd h1 (by decide)
theorem mem_Join (parts : List GoString) (sep : GoString) (b : Byte)
    (h : b ∈ strings.Join parts sep) : b ∈ sep ∨ ∃ p ∈ parts, b ∈ p := by
  induction parts with
  | nil => simp [strings.Join] at h
  | cons p rest ih =>
    cases rest with
    | nil => exact Or.inr ⟨p, List.mem_cons_self _ _, by simpa [strings.Join] using h⟩
    | cons q rest2 =>
      simp only [strings.Join, List.mem_append] at h
      rcases h with h | h | h
      · exact Or.inr ⟨p, List.mem_cons_self _ _, h⟩
      · exact Or.inl h
      · rcases ih h with h2 | ⟨x, hx, hbx⟩
        · exact Or.inl h2
        · exact Or.inr ⟨x, List.mem_cons_of_mem _ hx, hbx⟩

theorem jsonArray_printable (l : List GoString) (h : ∀ x ∈ l, image.PlainArg x) (b : Byte)
    (hb : b ∈ image.jsonArray l) : 32 ≤ b.val := by
  unfold image.jsonArray at hb
  simp only [List.mem_append, List.mem_singleton] at hb
  rcases hb with hb | hb | hb
  · subst hb; decide
  · rcases mem_Join _ _ b hb with h1 | ⟨p, hp, hbp⟩
    · simp only [List.mem_singleton] at h1
      subst h1; decide
    · obtain ⟨x, hx, hxp⟩ := List.mem_map.mp hp
      rw [← hxp, jsonString_plain x (h x hx)] at hbp
      simp only [List.mem_cons, List.mem_append, List.mem_singleton, List.not_mem_nil,
        or_false] at hbp
      rcases hbp with h1 | h1 | h1
      · subst h1; decide
      · exact ((h x hx).2.1 b h1).2.2.2
      · subst h1; decide
  · subst hb; decide

theorem parseLine_CMD_jsonArray (contextPath : GoString) (l : List GoString)
    (h : ∀ x ∈ l, image.PlainArg x) :
    image.parseLine contextPath (str ("CMD ") ++ image.jsonArray l)
      = some ⟨str ("CMD"), l, str ("CMD ") ++ image.jsonArray l⟩ := by
  have hnl : byte 10 ∉ image.jsonArray l := by
    intro hmem
    have := jsonArray_printable l h _ hmem
    exact absurd this (by decide)
  have hj : image.jsonArray l
      = byte 91 :: (strings.Join (l.map image.jsonString) [byte 44] ++ [byte 93]) := rfl
  have hm : regexp.lineMatch (str ("CMD ") ++ image.jsonArray l)
      = some (str ("CMD"), image.jsonArray l) := by
    have h1 : str ("CMD ") ++ image.jsonArray l
        = byte 67 :: byte 77 :: byte 68 :: byte 32 :: image.jsonArray l := rfl
    unfold regexp.lineMatch
    rw [h1]
    have hw : (byte 67 :: byte 77 :: byte 68 :: byte 32 :: image.jsonArray l).takeWhile
        regexp.isWord = str ("CMD") := by
      rw [List.takeWhile_cons_of_pos (by decide), List.takeWhile_cons_of_pos (by decide),
        List.takeWhile_cons_of_pos (by decide), List.takeWhile_cons_of_neg (by decide)]
      rfl
    have hd : (byte 67 :: byte 77 :: byte 68 :: byte 32 :: image.jsonArray l).dropWhile
        regexp.isWord = byte 32 :: image.jsonArray l := by
      rw [List.dropWhile_cons_of_pos (by decide), List.dropWhile_cons_of_pos (by decide),
        List.dropWhile_cons_of_pos (by decide), List.dropWhile_cons_of_neg (by decide)]
    simp only [hw, hd]
    have hg : (byte 32 :: image.jsonArray l).takeWhile regexp.isSpace = [byte 32] := by
      rw [hj, List.takeWhile_cons_of_pos (by decide), List.takeWhile_cons_of_neg (by decide)]
    have ha : (byte 32 :: image.jsonArray l).dropWhile regexp.isSpace = image.jsonArray l := by
      rw [hj, List.dropWhile_cons_of_pos (by decide), List.dropWhile_cons_of_neg (by decide)]
    simp only [hg, ha]
    rw [if_neg]
    simp only [not_or]
    exact ⟨by decide, by decide, hnl⟩
  have hts : strings.TrimSpace (image.jsonArray l) = image.jsonArray l := by
    rw [hj]
    apply TrimSpace_of_ends (byte 91) (byte 93) _
      ((strings.Join (l.map image.jsonString) [byte 44]).reverse ++ [byte 91]) _ rfl
    · simp
    · decide
    · decide
    · decide
    · decide
  unfold image.parseLine
  rw [hm]
  simp only [hts]
  have hup : strings.ToUpper (str ("CMD")) = str ("CMD") := by decide
  rw [hup]
  have hsup : image.isCommandSupported (str ("CMD")) = true := by decide
  rw [hsup]
  have hpc : image.parseCommand contextPath (str ("CMD")) (image.jsonArray l)
      = image.parseCMDArgs (image.jsonArray l) := by
    unfold image.parseCommand
    rw [if_pos rfl]
  rw [hpc, parseCMDArgs_jsonArray l h]
  rfl

set_option maxRecDepth 100000 in
/-- C19 (counterexample): for the list `sh`, `-c`, `echo a,b` the CMD
directive with the JSON array encoding of the list yields four arguments,
the last element being cut at its comma, and `execute` sets the command to
these four. -/
theorem CMD_comma_element_is_split :
    ¬ image.PlainArg (str ("echo a,b"))
      ∧ (image.parseLine (str ("/ctx"))
          (str ("CMD ") ++ image.jsonArray [str ("sh"), str ("-c"), str ("echo a,b")])).map
          (fun inst => inst.args)
        = some [str ("sh"), str ("-c"), str ("echo a"), str ("b")]
      ∧ ((image.NewBuilder image.sampleBase (str ("demo")) none).execute
          ⟨str ("CMD"), [str ("sh"), str ("-c"), str ("echo a"), str ("b")], []⟩ none).map
          (fun b => b.opts.Cmd)
        = some [str ("sh"), str ("-c"), str ("echo a"), str ("b")] := by
  refine ⟨by decide, by decide, by decide⟩

/-- C19 (amended): for every list of strings that are not empty, hold no
comma, double quote, backslash or control byte and neither begin nor end
with a single quote, the CMD directive whose argument is the JSON array
encoding of the list parses to the instruction with exactly that list as
arguments, and `execute` sets the default command to exactly that list. -/
theorem CMD_plain_list_intact (contextPath : GoString) (l : List GoString) (b : image.Builder)
    (made : Option image.layer) (h : ∀ x ∈ l, image.PlainArg x) :
    image.parseLine contextPath (str ("CMD ") ++ image.jsonArray l)
        = some ⟨str ("CMD"), l, str ("CMD ") ++ image.jsonArray l⟩
      ∧ (b.execute ⟨str ("CMD"), l, str ("CMD ") ++ image.jsonArray l⟩ made).map
          (fun b => b.opts.Cmd) = some l := by
  refine ⟨parseLine_CMD_jsonArray contextPath l h, ?_⟩
  have h1 : str ("CMD") ≠ str ("FROM") := by decide
  have h2 : str ("CMD") ≠ str ("WORKDIR") := by decide
  have h3 : str ("CMD") ≠ str ("ENV") := by decide
  have h4 : str ("CMD") ≠ str ("EXPOSE") := by decide
  unfold image.Builder.execute
  dsimp only
  rw [if_neg h1, if_neg h2, if_neg h3, if_neg h4, if_pos rfl]
  rfl

set_option maxRecDepth 100000 in
theorem CMD_plain_list_intact_witness :
    (∀ x ∈ [str ("sh"), str ("-c"), str ("echo hi")], image.PlainArg x)
      ∧ image.parseLine (str ("/ctx"))
          (str ("CMD ") ++ image.jsonArray [str ("sh"), str ("-c"), str ("echo hi")])
        = some ⟨str ("CMD"), [str ("sh"), str ("-c"), str ("echo hi")],
            str ("CMD ") ++ image.jsonArray [str ("sh"), str ("-c"), str ("echo hi")]⟩ :=
  ⟨by decide,
    (CMD_plain_list_intact (str ("/ctx")) [str ("sh"), str ("-c"), str ("echo hi")]
      (image.NewBuilder image.sampleBase (str ("demo")) none) none (by decide)).1⟩
theorem decodeRune_high_bytes (b : Byte) (rest : GoString) (hb : ¬ b.val < 0x80) :
    ∀ x ∈ (b :: rest).take (util.decodeRune b rest).2, 0x80 ≤ x.val := by
  have hb0 : 0x80 ≤ b.val := by omega
  unfold util.decodeRune
  rw [if_neg hb]
  split_ifs with h1 h2 h3
  · cases rest with
    | nil => intro x hx; simp at hx; subst hx; exact hb0
    | cons b1 r1 =>
      dsimp only
      split_ifs with hc
      · intro x hx
        simp only [List.take_succ_cons, List.take_zero, List.mem_cons, List.not_mem_nil, or_false] at hx
        rcases hx with hx | hx
        · subst hx; exact hb0
        · subst hx
          have := hc.1
          simp only [util.isCont, Bool.and_eq_true, decide_eq_true_eq] at this
          exact this.1
      · intro x hx; simp at hx; subst hx; exact hb0
  · rcases rest with _ | ⟨b1, _ | ⟨b2, r2⟩⟩
    · intro x hx; simp at hx; subst hx; exact hb0
    · intro x hx; simp at hx; subst hx; exact hb0
    · dsimp only
      split_ifs with hc
      · intro x hx
        simp only [List.take_succ_cons, List.take_zero, List.mem_cons, List.not_mem_nil, or_false] at hx
        have c1 := hc.1
        have c2 := hc.2.1
        simp only [util.isCont, Bool.and_eq_true, decide_eq_true_eq] at c1 c2
        rcases hx with hx | hx | hx
        · subst hx; exact hb0
        · subst hx; exact c1.1
        · subst hx; exact c2.1
      · intro x hx; simp at hx; subst hx; exact hb0
  · rcases rest with _ | ⟨b1, _ | ⟨b2, _ | ⟨b3, r3⟩⟩⟩
    · intro x hx; simp at hx; subst hx; exact hb0
    · intro x hx; simp at hx; subst hx; exact hb0
    · intro x hx; simp at hx; subst hx; exact hb0
    · dsimp only
      split_ifs with hc
      · intro x hx
        simp only [List.take_succ_cons, List.take_zero, List.mem_cons, List.not_mem_nil, or_false] at hx
        have c1 := hc.1
        have c2 := hc.2.1
        have c3 := hc.2.2.1
        simp only [util.isCont, Bool.and_eq_true, decide_eq_true_eq] at c1 c2 c3
        rcases hx with hx | hx | hx | hx
        · subst hx; exact hb0
        · subst hx; exact c1.1
        · subst hx; exact c2.1
        · subst hx; exact c3.1
      · intro x hx; simp at hx; subst hx; exact hb0
  · intro x hx; simp at hx; subst hx; exact hb0

theorem decodeRune_space_bytes (b : Byte) (rest : GoString)
    (hsp : unicode.IsSpace (util.decodeRune b rest).1 = true) :
    ∀ x ∈ (b :: rest).take (util.decodeRune b rest).2, x.val ≠ 61 := by
  by_cases hb : b.val < 0x80
  · have hd : util.decodeRune b rest = (b.val, 1) := by
      unfold util.decodeRune
      rw [if_pos hb]
    rw [hd] at hsp ⊢
    intro x hx hx61
    simp at hx
    subst hx
    simp only at hsp
    rw [hx61] at hsp
    exact absurd hsp (by decide)
  · intro x hx
    have := decodeRune_high_bytes b rest hb x hx
    omega
theorem IsSpace_runeError : unicode.IsSpace util.runeError = false := by decide

theorem decodeRune_wide_start (h : Byte) (t : GoString) (hw : (util.decodeRune h t).2 ≠ 1) :
    0x80 ≤ h.val := by
  by_contra hlt
  apply hw
  unfold util.decodeRune
  rw [if_pos (by omega)]

theorem decodeWhole_space (seg : GoString) (h : Byte) (t : GoString) (hseg : seg = h :: t)
    (hsp : unicode.IsSpace (utf8.decodeWhole seg).1 = true) (hlen : seg.length ≠ 1) :
    (utf8.decodeWhole seg).2 = seg.length ∧ 0x80 ≤ h.val := by
  subst hseg
  unfold utf8.decodeWhole at hsp ⊢
  dsimp only at hsp ⊢
  split_ifs at hsp ⊢ with hw
  · refine ⟨hw, decodeRune_wide_start h t ?_⟩
    rw [hw]
    exact hlen
  · rw [IsSpace_runeError] at hsp
    exact Bool.noConfusion hsp

theorem not_RuneStart_high (p : Byte) (h : utf8.RuneStart p = false) : 0x80 ≤ p.val := by
  unfold utf8.RuneStart at h
  simp only [ne_eq, decide_not, Bool.not_eq_false', decide_eq_true_eq] at h
  omega

theorem decodeLast_space_bytes (b : Byte) (prev : GoString)
    (hsp : unicode.IsSpace (utf8.decodeLast b prev).1 = true) :
    ∀ x ∈ (b :: prev).take (utf8.decodeLast b prev).2, x.val ≠ 61 := by
  by_cases hb : b.val < 0x80
  · have hd : utf8.decodeLast b prev = (b.val, 1) := by
      unfold utf8.decodeLast
      rw [if_pos hb]
    rw [hd] at hsp ⊢
    intro x hx hx61
    simp at hx
    subst hx
    simp only at hsp
    rw [hx61] at hsp
    exact absurd hsp (by decide)
  · have hb0 : 0x80 ≤ b.val := by omega
    unfold utf8.decodeLast at hsp ⊢
    rw [if_neg hb] at hsp ⊢
    rcases prev with _ | ⟨p1, prev1⟩
    · exact absurd hsp (by simp [IsSpace_runeError])
    · dsimp only at hsp ⊢
      by_cases h1 : utf8.RuneStart p1 = true
      · rw [if_pos h1] at hsp ⊢
        obtain ⟨hw, hp⟩ := decodeWhole_space [p1, b] p1 [b] rfl hsp (by simp)
        rw [hw]
        intro x hx
        simp only [List.length_cons, List.length_nil, List.take_succ_cons, List.take_zero,
          List.mem_cons, List.not_mem_nil, or_false] at hx
        rcases hx with hx | hx <;> subst hx <;> omega
      · rw [if_neg h1] at hsp ⊢
        have hp1 := not_RuneStart_high p1 (by simpa using h1)
        rcases prev1 with _ | ⟨p2, prev2⟩
        · exact absurd hsp (by simp [IsSpace_runeError])
        · dsimp only at hsp ⊢
          by_cases h2 : utf8.RuneStart p2 = true
          · rw [if_pos h2] at hsp ⊢
            obtain ⟨hw, hp⟩ := decodeWhole_space [p2, p1, b] p2 [p1, b] rfl hsp (by simp)
            rw [hw]
            intro x hx
            simp only [List.length_cons, List.length_nil, List.take_succ_cons, List.take_zero,
              List.mem_cons, List.not_mem_nil, or_false] at hx
            rcases hx with hx | hx | hx <;> subst hx <;> omega
          · rw [if_neg h2] at hsp ⊢
            have hp2 := not_RuneStart_high p2 (by simpa using h2)
            rcases prev2 with _ | ⟨p3, prev3⟩
            · exact absurd hsp (by simp [IsSpace_runeError])
            · dsimp only at hsp ⊢
              by_cases h3 : utf8.RuneStart p3 = true
              · rw [if_pos h3] at hsp ⊢
                obtain ⟨hw, hp⟩ :=
                  decodeWhole_space [p3, p2, p1, b] p3 [p2, p1, b] rfl hsp (by simp)
                rw [hw]
                intro x hx
                simp only [List.length_cons, List.length_nil, List.take_succ_cons,
                  List.take_zero, List.mem_cons, List.not_mem_nil, or_false] at hx
                rcases hx with hx | hx | hx | hx <;> subst hx <;> omega
              · rw [if_neg h3] at hsp
                exact absurd hsp (by simp [IsSpace_runeError])

theorem mem_drop_of_not_mem_take (s : GoString) (n : Nat) (c : Byte)
    (h : ∀ x ∈ s.take n, x ≠ c) : c ∈ s.drop n ↔ c ∈ s := by
  constructor
  · exact fun hc => List.mem_of_mem_drop hc
  · intro hc
    rw [← List.take_append_drop n s, List.mem_append] at hc
    rcases hc with hc | hc
    · exact absurd rfl (h c hc)
    · exact hc

theorem mem_trimLeftSpace (fuel : Nat) (s : GoString) :
    byte 61 ∈ strings.trimLeftSpace fuel s ↔ byte 61 ∈ s := by
  induction fuel generalizing s with
  | zero => simp [strings.trimLeftSpace]
  | succ n ih =>
    cases s with
    | nil => simp [strings.trimLeftSpace]
    | cons b rest =>
      unfold strings.trimLeftSpace
      split_ifs with hsp
      · rw [ih]
        apply mem_drop_of_not_mem_take
        intro x hx hx61
        have := decodeRune_space_bytes b rest hsp x hx
        rw [hx61] at this
        exact this (by decide)
      · rfl

theorem mem_trimRightSpaceRev (fuel : Nat) (s : GoString) :
    byte 61 ∈ strings.trimRightSpaceRev fuel s ↔ byte 61 ∈ s := by
  induction fuel generalizing s with
  | zero => simp [strings.trimRightSpaceRev]
  | succ n ih =>
    cases s with
    | nil => simp [strings.trimRightSpaceRev]
    | cons b rest =>
      unfold strings.trimRightSpaceRev
      split_ifs with hsp
      · rw [ih]
        apply mem_drop_of_not_mem_take
        intro x hx hx61
        have := decodeLast_space_bytes b rest hsp x hx
        rw [hx61] at this
        exact this (by decide)
      · rfl

/-- The function `strings.TrimSpace` neither removes nor adds an equals
sign. -/
theorem mem_TrimSpace (s : GoString) : byte 61 ∈ strings.TrimSpace s ↔ byte 61 ∈ s := by
  unfold strings.TrimSpace
  dsimp only
  rw [List.mem_reverse, mem_trimRightSpaceRev, List.mem_reverse, mem_trimLeftSpace]

theorem envLoop_iff (parts : List GoString) :
    image.envLoop parts = true ↔ ∀ p ∈ parts, byte 61 ∈ p := by
  induction parts with
  | nil => simp [image.envLoop]
  | cons p rest ih =>
    unfold image.envLoop
    dsimp only
    have hc : strings.Contains (strings.TrimSpace p) (str ("=")) = true ↔ byte 61 ∈ p := by
      rw [show str ("=") = [byte 61] from rfl, Contains_singleton, mem_TrimSpace]
    by_cases hp : byte 61 ∈ p
    · have := hc.mpr hp
      rw [this]
      simp only [Bool.not_true, Bool.false_eq_true, if_false, ih, List.mem_cons,
        forall_eq_or_imp, hp, true_and]
    · have : strings.Contains (strings.TrimSpace p) (str ("=")) = false := by
        cases hcc : strings.Contains (strings.TrimSpace p) (str ("=")) with
        | false => rfl
        | true => exact absurd (hc.mp hcc) hp
      rw [this]
      simp only [Bool.not_false, if_true, Bool.false_eq_true, List.mem_cons, forall_eq_or_imp,
        hp, false_and]
theorem parseLine_ENV (contextPath line word rest : GoString)
    (hm : regexp.lineMatch line = some (word, rest))
    (hw : strings.ToUpper word = str ("ENV")) :
    image.parseLine contextPath line
      = if image.envLoop (strings.Fields (strings.TrimSpace rest)) = true then
          some ⟨str ("ENV"), strings.Fields (strings.TrimSpace rest), line⟩
        else none := by
  have hsup : image.isCommandSupported (str ("ENV")) = true := by decide
  have h1 : str ("ENV") ≠ str ("CMD") := by decide
  unfold image.parseLine
  rw [hm]
  dsimp only
  rw [hw, hsup]
  unfold image.parseCommand image.parseEnvArgs
  rw [if_neg h1, if_pos rfl]
  simp only [Bool.not_true, Bool.false_eq_true, if_false]
  split_ifs <;> rfl

theorem lineMatch_head (line word rest : GoString)
    (hm : regexp.lineMatch line = some (word, rest)) :
    line ≠ [] ∧ strings.startsWith line (str ("#")) = false := by
  unfold regexp.lineMatch at hm
  dsimp only at hm
  split_ifs at hm with h
  simp only [not_or] at h
  cases line with
  | nil => exact absurd rfl h.1
  | cons c tl =>
    refine ⟨List.cons_ne_nil _ _, ?_⟩
    have hc : regexp.isWord c = true := by
      by_contra hc
      exact h.1 (List.takeWhile_cons_of_neg hc)
    have hne : c ≠ byte 35 := by
      intro hc2
      rw [hc2] at hc
      exact absurd hc (by decide)
    show strings.startsWith (c :: tl) [byte 35] = false
    simp [strings.startsWith, hne]

theorem parseLoop_fails (contextPath text : GoString) (more pre : List GoString)
    (st : GoString × List image.instruction)
    (hne : strings.TrimSpace text ≠ [])
    (hc : strings.startsWith (strings.TrimSpace text) (str ("#")) = false)
    (hp : image.parseLine contextPath (strings.TrimSpace text) = none) :
    image.parseLoop contextPath (pre ++ text :: more) st = none := by
  induction pre generalizing st with
  | nil =>
    obtain ⟨tag, insts⟩ := st
    simp only [List.nil_append, image.parseLoop]
    rw [if_neg (by simp [hne, hc]), hp]
  | cons t rest ih =>
    obtain ⟨tag, insts⟩ := st
    simp only [List.cons_append, image.parseLoop]
    split_ifs
    · exact ih _
    · cases image.parseLine contextPath (strings.TrimSpace t) with
      | none => rfl
      | some inst => exact ih _

/-- C20 (counterexample): the line `ENV =v`, whose token has an empty `KEY`,
is accepted: `parseLine` returns the instruction with the argument `=v`. -/
theorem ENV_empty_key_accepted :
    ¬ image.IsKeyValue (str ("=v"))
      ∧ image.parseLine (str ("/ctx")) (str ("ENV =v"))
        = some ⟨str ("ENV"), [str ("=v")], str ("ENV =v")⟩ := by
  refine ⟨by decide, by decide⟩

/-- C20 (amended): an ENV line is accepted exactly when each of its
whitespace-separated tokens holds an equals sign (the key before it may be
empty); when accepted the instruction carries the tokens in order and
`execute` appends them to the default environment; when a token holds no
equals sign `parseLine` returns an error and no instruction, and the parse
of a file that reaches the line fails. -/
theorem ENV_tokens (contextPath line word rest : GoString)
    (hm : regexp.lineMatch line = some (word, rest))
    (hw : strings.ToUpper word = str ("ENV")) :
    ((image.parseLine contextPath line).isSome = true
        ↔ ∀ t ∈ strings.Fields (strings.TrimSpace rest), byte 61 ∈ t)
      ∧ (∀ inst, image.parseLine contextPath line = some inst →
          inst.command = str ("ENV") ∧ inst.args = strings.Fields (strings.TrimSpace rest)
            ∧ ∀ (b : image.Builder) (made : Option image.layer),
                (b.execute inst made).map (fun b2 => b2.opts.Env)
                  = some (b.opts.Env ++ inst.args))
      ∧ ((∃ t ∈ strings.Fields (strings.TrimSpace rest), byte 61 ∉ t) →
          image.parseLine contextPath line = none
            ∧ ∀ (text : GoString) (pre more : List GoString)
                (st : GoString × List image.instruction),
                strings.TrimSpace text = line →
                image.parseLoop contextPath (pre ++ text :: more) st = none) := by
  have hpl := parseLine_ENV contextPath line word rest hm hw
  have hiff := envLoop_iff (strings.Fields (strings.TrimSpace rest))
  refine ⟨?_, ?_, ?_⟩
  · rw [hpl]
    split_ifs with he
    · simp only [Option.isSome_some, true_iff]
      exact hiff.mp he
    · simp only [Option.isSome_none, Bool.false_eq_true, false_iff]
      exact fun hall => he (hiff.mpr hall)
  · intro inst hinst
    rw [hpl] at hinst
    split_ifs at hinst with he
    cases hinst
    refine ⟨rfl, rfl, ?_⟩
    intro b made
    have h1 : str ("ENV") ≠ str ("FROM") := by decide
    have h2 : str ("ENV") ≠ str ("WORKDIR") := by decide
    unfold image.Builder.execute
    dsimp only
    rw [if_neg h1, if_neg h2, if_pos rfl]
    rfl
  · rintro ⟨t, ht, hteq⟩
    have hnone : image.parseLine contextPath line = none := by
      rw [hpl, if_neg]
      intro he
      exact hteq (hiff.mp he t ht)
    refine ⟨hnone, ?_⟩
    intro text pre more st htext
    obtain ⟨hne, hc⟩ := lineMatch_head line word rest hm
    apply parseLoop_fails
    · rw [htext]; exact hne
    · rw [htext]; exact hc
    · rw [htext]; exact hnone

theorem ENV_tokens_witness :
    regexp.lineMatch (str ("env A=1  B=2")) = some (str ("env"), str ("A=1  B=2"))
      ∧ strings.ToUpper (str ("env")) = str ("ENV")
      ∧ strings.Fields (strings.TrimSpace (str ("A=1  B=2"))) = [str ("A=1"), str ("B=2")]
      ∧ (image.parseLine (str ("/ctx")) (str ("env A=1  B=2"))).isSome = true :=
  ⟨by decide, by decide, by decide,
    (ENV_tokens (str ("/ctx")) (str ("env A=1  B=2")) (str ("env")) (str ("A=1  B=2"))
      (by decide) (by decide)).1.mpr (by decide)⟩

/-! ### COPY lines -/

theorem Split_length (s : GoString) (sep : Byte) :
    (strings.Split s sep).length = s.count sep + 1 := by
  induction s with
  | nil => rfl
  | cons c rest ih =>
    by_cases hc : c = sep
    · subst hc
      simp only [strings.Split, if_true, List.length_cons, ih, List.count_cons_self]
    · have hne : (c == sep) = false := by simpa using hc
      simp only [strings.Split, if_neg hc, List.count_cons, hne]
      cases hs : strings.Split rest sep with
      | nil => rw [hs] at ih; simp at ih
      | cons p ps => rw [hs] at ih; simpa using ih

/-- The method `parseCopyArgs` accepts exactly the arguments with one space
byte, whatever else they hold: the argument `src dst` gives `src` itself when
it is absolute and the context path joined with it otherwise, followed by
`dst`. -/
theorem parseCopyArgs_iff (contextPath argsStr : GoString) :
    ((image.parseCopyArgs contextPath argsStr).isSome = true ↔ argsStr.count (byte 32) = 1)
      ∧ ∀ src dst : GoString, byte 32 ∉ src → byte 32 ∉ dst →
          image.parseCopyArgs contextPath (src ++ byte 32 :: dst)
            = some [if filepath.IsAbs src = true then src
                    else filepath.Join2 contextPath src, dst] := by
  constructor
  · have hlen := Split_length argsStr (byte 32)
    unfold image.parseCopyArgs
    dsimp only
    generalize strings.Split argsStr (byte 32) = parts at hlen
    rcases parts with _ | ⟨a, _ | ⟨b, _ | ⟨c, r⟩⟩⟩
    · simp at hlen
    · simp only [List.length_singleton] at hlen
      simp only [Option.isSome_none, Bool.false_eq_true, false_iff]
      omega
    · simp only [List.length_cons, List.length_nil] at hlen
      constructor
      · intro _; omega
      · intro _; dsimp only; split_ifs <;> rfl
    · simp only [List.length_cons] at hlen
      simp only [Option.isSome_none, Bool.false_eq_true, false_iff]
      omega
  · intro src dst hs hd
    unfold image.parseCopyArgs
    dsimp only
    rw [Split_append src dst (byte 32) hs, Split_no_sep dst (byte 32) hd]
    dsimp only
    split_ifs <;> rfl

set_option maxRecDepth 100000 in
/-- C21: the line `COPY a  b`, whose argument is the two tokens `a` and `b`
separated by two spaces, is rejected, and so is `COPY a<tab>b`; the line
`COPY a<tab>x b`, whose argument has three tokens, is accepted with the
source `a<tab>x`.  The line `COPY a b` is accepted with the source joined to
the context path. -/
theorem COPY_needs_one_space :
    strings.Fields (str ("a  b")) = [str ("a"), str ("b")]
      ∧ image.parseLine (str ("/ctx")) (str ("COPY a  b")) = none
      ∧ strings.Fields (str ("a") ++ byte 9 :: str ("b")) = [str ("a"), str ("b")]
      ∧ image.parseLine (str ("/ctx")) (str ("COPY a") ++ byte 9 :: str ("b")) = none
      ∧ strings.Fields (str ("a") ++ byte 9 :: str ("x b")) = [str ("a"), str ("x"), str ("b")]
      ∧ (image.parseLine (str ("/ctx")) (str ("COPY a") ++ byte 9 :: str ("x b"))).map
          (fun inst => inst.args)
        = some [str ("/ctx/a") ++ byte 9 :: str ("x"), str ("b")]
      ∧ (image.parseLine (str ("/ctx")) (str ("COPY a b"))).map (fun inst => inst.args)
        = some [str ("/ctx/a"), str ("b")]
      ∧ (image.parseLine (str ("/ctx")) (str ("COPY /a b"))).map (fun inst => inst.args)
        = some [str ("/a"), str ("b")] := by
  refine ⟨by decide, by decide, by decide, by decide, by decide, by decide, by decide,
    by decide⟩

/-! ### Options after a recipe -/

theorem optionsAfter_nil (o : image.RunOptions) : image.optionsAfter o [] = o := by
  cases o
  simp [image.optionsAfter, image.directives, image.allArgs]

theorem optionsAfter_cons (o : image.RunOptions) (inst : image.instruction)
    (rest : List image.instruction) :
    image.optionsAfter o (inst :: rest)
      = image.optionsAfter
          (if inst.command = str ("WORKDIR") then { o with WorkDir := inst.args.headD [] }
           else if inst.command = str ("ENV") then { o with Env := o.Env ++ inst.args }
           else if inst.command = str ("EXPOSE") then { o with Port := o.Port ++ inst.args }
           else if inst.command = str ("CMD") then { o with Cmd := inst.args }
           else o) rest := by
  have n1 : str ("WORKDIR") ≠ str ("ENV") := by decide
  have n2 : str ("WORKDIR") ≠ str ("EXPOSE") := by decide
  have n3 : str ("WORKDIR") ≠ str ("CMD") := by decide
  have n4 : str ("ENV") ≠ str ("EXPOSE") := by decide
  have n5 : str ("ENV") ≠ str ("CMD") := by decide
  have n6 : str ("EXPOSE") ≠ str ("CMD") := by decide
  by_cases h1 : inst.command = str ("WORKDIR")
  · rw [if_pos h1]
    simp only [image.optionsAfter, image.directives, List.filter_cons, h1, decide_True, if_true,
      n1, n2, n3, decide_False, Bool.false_eq_true, if_false, List.getLast?_cons]
    cases (List.filter (fun i => decide (i.command = str ("WORKDIR"))) rest).getLast? <;> rfl
  · rw [if_neg h1]
    by_cases h2 : inst.command = str ("ENV")
    · rw [if_pos h2]
      simp only [image.optionsAfter, image.directives, List.filter_cons, h2, decide_True,
        if_true, n1.symm, n4, n5, decide_False, Bool.false_eq_true, if_false, image.allArgs,
        List.map_cons, List.foldr_cons, List.append_assoc]
    · rw [if_neg h2]
      by_cases h3 : inst.command = str ("EXPOSE")
      · rw [if_pos h3]
        simp only [image.optionsAfter, image.directives, List.filter_cons, h3, decide_True,
          if_true, n2.symm, n4.symm, n6, decide_False, Bool.false_eq_true, if_false,
          image.allArgs, List.map_cons, List.foldr_cons, List.append_assoc]
      · rw [if_neg h3]
        by_cases h4 : inst.command = str ("CMD")
        · rw [if_pos h4]
          simp only [image.optionsAfter, image.directives, List.filter_cons, h4, decide_True,
            if_true, n3.symm, n5.symm, n6.symm, decide_False, Bool.false_eq_true, if_false,
            List.getLast?_cons]
          cases (List.filter (fun i => decide (i.command = str ("CMD"))) rest).getLast? <;> rfl
        · rw [if_neg h4]
          simp only [image.optionsAfter, image.directives, List.filter_cons, h1, h2, h3, h4,
            decide_False, Bool.false_eq_true, if_false]

theorem applyLoop_options (made : Nat → Option image.layer) (k : Nat)
    (insts : List image.instruction) (b : image.Builder)
    (hcmd : ∀ i ∈ insts, i.command ∈ [str ("FROM"), str ("WORKDIR"), str ("ENV"),
      str ("EXPOSE"), str ("CMD")])
    (hw : ∀ i ∈ insts, i.command = str ("WORKDIR") → i.args ≠ []) :
    image.Builder.applyLoop made k insts b
      = some { b with opts := image.optionsAfter b.opts insts } := by
  induction insts generalizing b k with
  | nil =>
    simp only [image.Builder.applyLoop, optionsAfter_nil]
  | cons inst rest ih =>
    have hc := hcmd inst (List.mem_cons_self _ _)
    have hwi := hw inst (List.mem_cons_self _ _)
    have ih2 := fun (b2 : image.Builder) => ih (k + 1) b2
      (fun i hi => hcmd i (List.mem_cons_of_mem _ hi))
      (fun i hi => hw i (List.mem_cons_of_mem _ hi))
    rw [optionsAfter_cons b.opts inst rest]
    have n0 : str ("WORKDIR") ≠ str ("FROM") := by decide
    have n1 : str ("ENV") ≠ str ("FROM") := by decide
    have n2 : str ("EXPOSE") ≠ str ("FROM") := by decide
    have n3 : str ("CMD") ≠ str ("FROM") := by decide
    have m1 : str ("FROM") ≠ str ("WORKDIR") := by decide
    have m2 : str ("FROM") ≠ str ("ENV") := by decide
    have m3 : str ("FROM") ≠ str ("EXPOSE") := by decide
    have m4 : str ("FROM") ≠ str ("CMD") := by decide
    have e1 : str ("ENV") ≠ str ("WORKDIR") := by decide
    have e2 : str ("EXPOSE") ≠ str ("WORKDIR") := by decide
    have e3 : str ("CMD") ≠ str ("WORKDIR") := by decide
    have e4 : str ("EXPOSE") ≠ str ("ENV") := by decide
    have e5 : str ("CMD") ≠ str ("ENV") := by decide
    have e6 : str ("CMD") ≠ str ("EXPOSE") := by decide
    simp only [List.mem_cons, List.mem_singleton, List.not_mem_nil, or_false] at hc
    unfold image.Builder.applyLoop image.Builder.execute
    rcases hc with h | h | h | h | h
    · rw [h]
      simp only [if_true, if_neg m1, if_neg m2, if_neg m3, if_neg m4]
      exact ih2 b
    · rw [h] at hwi ⊢
      obtain ⟨a, tl, ha⟩ := List.exists_cons_of_ne_nil (hwi rfl)
      simp only [if_neg n0, if_true, ha, List.headD_cons]
      exact ih2 _
    · rw [h]
      simp only [if_neg n1, if_neg e1, if_true]
      exact ih2 _
    · rw [h]
      simp only [if_neg n2, if_neg e2, if_neg e4, if_true]
      exact ih2 _
    · rw [h]
      simp only [if_neg n3, if_neg e3, if_neg e5, if_neg e6, if_true]
      exact ih2 _

theorem parseLine_WORKDIR (contextPath line : GoString) (inst : image.instruction)
    (h : image.parseLine contextPath line = some inst)
    (hc : inst.command = str ("WORKDIR")) : inst.args ≠ [] := by
  unfold image.parseLine at h
  split at h
  · exact Option.noConfusion h
  · rename_i word rest _
    dsimp only at h
    split_ifs at h
    cases hp : image.parseCommand contextPath (strings.ToUpper word) (strings.TrimSpace rest) with
    | none => rw [hp] at h; exact Option.noConfusion h
    | some args =>
      rw [hp] at h
      cases h
      simp only at hc
      rw [hc] at hp
      have n1 : str ("WORKDIR") ≠ str ("CMD") := by decide
      have n2 : str ("WORKDIR") ≠ str ("ENV") := by decide
      have n3 : str ("WORKDIR") ≠ str ("COPY") := by decide
      have n4 : str ("WORKDIR") ≠ str ("EXPOSE") := by decide
      unfold image.parseCommand at hp
      rw [if_neg n1, if_neg n2, if_neg n3, if_neg n4] at hp
      cases hp
      exact List.cons_ne_nil _ _

theorem parseLoop_mem (contextPath : GoString) (texts : List GoString)
    (st out : GoString × List image.instruction)
    (h : image.parseLoop contextPath texts st = some out) :
    ∀ i ∈ out.2, i ∈ st.2 ∨ ∃ line, image.parseLine contextPath line = some i := by
  induction texts generalizing st with
  | nil =>
    obtain ⟨t, acc⟩ := st
    simp only [image.parseLoop, Option.some.injEq] at h
    subst h
    exact fun i hi => Or.inl hi
  | cons text rest ih =>
    obtain ⟨t, acc⟩ := st
    simp only [image.parseLoop] at h
    split_ifs at h
    · exact ih _ h
    · cases hp : image.parseLine contextPath (strings.TrimSpace text) with
      | none => rw [hp] at h; exact Option.noConfusion h
      | some inst =>
        rw [hp] at h
        intro i hi
        rcases ih _ h i hi with hmem | hex
        · simp only [List.mem_append, List.mem_singleton] at hmem
          rcases hmem with hmem | hmem
          · exact Or.inl hmem
          · exact Or.inr ⟨_, hmem ▸ hp⟩
        · exact Or.inr hex

/-- C22: for every base image and every recipe that parses to FROM,
WORKDIR, ENV, EXPOSE and CMD instructions only, `Apply` on the builder
`NewBuilder` makes for the base image returns without error, and the options
of the builder are then: the argument of the last WORKDIR (else the base
image's working directory), the base environment followed by all ENV tokens
in order, the base ports followed by all EXPOSE tokens in order, and the
vector of the last CMD (else the base image's command); FROM has no effect
and no layer is added. -/
theorem Apply_option_recipe (contextPath : GoString) (texts : List GoString)
    (baseTag : GoString) (insts : List image.instruction) (baseImg : image.Image)
    (tag : GoString) (made : Nat → Option image.layer)
    (hparse : image.parseLoop contextPath texts ([], []) = some (baseTag, insts))
    (hcmd : ∀ i ∈ insts, i.command ∈ [str ("FROM"), str ("WORKDIR"), str ("ENV"),
      str ("EXPOSE"), str ("CMD")]) :
    ∃ b2, (image.NewBuilder baseImg tag none).Apply insts made = some b2
      ∧ b2.opts = image.optionsAfter (baseImg.RunOptions.getD ⟨[], [], [], []⟩) insts
      ∧ b2.layers = [] ∧ b2.baseImg = baseImg ∧ b2.tag = image.normalizeTag tag
      ∧ image.optionsAfter (baseImg.RunOptions.getD ⟨[], [], [], []⟩)
          (insts.filter (fun i => decide (i.command ≠ str ("FROM"))))
        = image.optionsAfter (baseImg.RunOptions.getD ⟨[], [], [], []⟩) insts := by
  have hw : ∀ i ∈ insts, i.command = str ("WORKDIR") → i.args ≠ [] := by
    intro i hi hc
    rcases parseLoop_mem contextPath texts _ _ hparse i hi with hmem | ⟨line, hl⟩
    · exact absurd hmem (List.not_mem_nil _)
    · exact parseLine_WORKDIR contextPath line i hl hc
  have hopts : (image.NewBuilder baseImg tag none).opts
      = baseImg.RunOptions.getD ⟨[], [], [], []⟩ := by
    unfold image.NewBuilder
    cases baseImg.RunOptions <;> rfl
  refine ⟨_, applyLoop_options made 0 insts _ hcmd hw, ?_, rfl, rfl, rfl, ?_⟩
  · simp only [hopts]
  · have n1 : str ("WORKDIR") ≠ str ("FROM") := by decide
    have n2 : str ("ENV") ≠ str ("FROM") := by decide
    have n3 : str ("EXPOSE") ≠ str ("FROM") := by decide
    have n4 : str ("CMD") ≠ str ("FROM") := by decide
    have hf : ∀ c : GoString, c ≠ str ("FROM") →
        image.directives c (insts.filter (fun i => decide (i.command ≠ str ("FROM"))))
          = image.directives c insts := by
      intro c hc
      unfold image.directives
      rw [List.filter_filter]
      apply List.filter_congr
      intro i _
      by_cases hic : i.command = c
      · simp [hic, hc]
      · simp [hic]
    unfold image.optionsAfter
    rw [hf _ n1, hf _ n2, hf _ n3, hf _ n4]

set_option maxRecDepth 100000 in
theorem Apply_option_recipe_witness :
    image.parseLoop (str ("/ctx")) image.sampleRecipe ([], [])
        = some (str ("alpine"), image.sampleInstructions)
      ∧ (∀ i ∈ image.sampleInstructions, i.command ∈ [str ("FROM"), str ("WORKDIR"),
          str ("ENV"), str ("EXPOSE"), str ("CMD")])
      ∧ image.optionsAfter (image.sampleBase.RunOptions.getD ⟨[], [], [], []⟩)
          image.sampleInstructions
        = ⟨str ("/srv"), [str ("A=1"), str ("B=2"), str ("C=3")], [str ("80")], [str ("a")]⟩
      ∧ ∃ b2, (image.NewBuilder image.sampleBase (str ("demo")) none).Apply
            image.sampleInstructions (fun _ => none) = some b2
          ∧ b2.opts = image.optionsAfter (image.sampleBase.RunOptions.getD ⟨[], [], [], []⟩)
              image.sampleInstructions
          ∧ b2.layers = [] :=
  ⟨by decide, by decide, by decide,
    (Apply_option_recipe (str ("/ctx")) image.sampleRecipe (str ("alpine"))
      image.sampleInstructions image.sampleBase (str ("demo")) (fun _ => none) (by decide)
      (by decide)).imp (fun _ h => ⟨h.1, h.2.1, h.2.2.1⟩)⟩

/-! ### Copying between a container and the host -/

namespace container

theorem Split_two_iff (s : GoString) (sep : Byte) :
    decide ((strings.Split s sep).length = 2) = decide (s.count sep = 1) := by
  rw [Split_length]
  by_cases h : s.count sep = 1
  · simp [h]
  · have : ¬ (s.count sep + 1 = 2) := by omega
    simp [h, this]

set_option maxRecDepth 100000 in
/-- C23 (counterexample): the source `web:/a:b` has the form of a container
name, a colon and a path, the destination `/tmp/x` has no colon, yet `Copy`
fails with the format error; and with the source `web:/a` and the
destination `c:d:e`, which both have that form, `Copy` does not fail with
the format error but copies to the host path `c:d:e`. -/
theorem Copy_second_colon :
    byte 58 ∈ str ("web:/a:b") ∧ byte 58 ∉ str ("/tmp/x")
      ∧ Copy exitedStore (str ("web:/a:b")) (str ("/tmp/x")) 0 0 true true
        = CopyOutcome.cpFormat
      ∧ byte 58 ∈ str ("web:/a") ∧ byte 58 ∈ str ("c:d:e")
      ∧ Copy exitedStore (str ("web:/a")) (str ("c:d:e")) 0 0 true true
        = CopyOutcome.copied (str ("/var/lib/ducker/containers/2567a5ec9705/merged/a"))
            (str ("c:d:e")) := by
  refine ⟨by decide, by decide, by decide, by decide, by decide, by decide⟩

/-- C23 (amended): `Copy` fails with the format error, whatever the store
holds, unless exactly one of its two arguments contains exactly one colon;
when exactly one does, the container named before the colon is looked up,
and `copy` on a container that is not running copies with that side replaced
by the merged directory joined with the text after the colon and the other
argument unchanged. -/
theorem Copy_one_colon (store : Store) (src dst : GoString) (now rnd : Int)
    (ensureOk copyOk : Bool) :
    ((src.count (byte 58) = 1 ↔ dst.count (byte 58) = 1) →
        Copy store src dst now rnd ensureOk copyOk = CopyOutcome.cpFormat)
      ∧ (∀ name path, src = name ++ byte 58 :: path → byte 58 ∉ name → byte 58 ∉ path →
          dst.count (byte 58) ≠ 1 →
          Copy store src dst now rnd ensureOk copyOk
            = match Get store name now rnd with
              | none => CopyOutcome.notFound
              | some c => c.copy path dst true ensureOk copyOk)
      ∧ (∀ name path, dst = name ++ byte 58 :: path → byte 58 ∉ name → byte 58 ∉ path →
          src.count (byte 58) ≠ 1 →
          Copy store src dst now rnd ensureOk copyOk
            = match Get store name now rnd with
              | none => CopyOutcome.notFound
              | some c => c.copy src path false ensureOk copyOk)
      ∧ (∀ (c : container) (p other : GoString), c.Status ≠ StatusRunning →
          c.copy p other true true true
              = CopyOutcome.copied (filepath.Join2 (util.GetContainerMergedDir c.ID) p) other
            ∧ c.copy other p false true true
              = CopyOutcome.copied other
                  (filepath.Join2 (util.GetContainerMergedDir c.ID) p)) := by
  refine ⟨?_, ?_, ?_, ?_⟩
  · intro h
    unfold Copy
    dsimp only
    rw [Split_two_iff, Split_two_iff, if_pos]
    by_cases hs : src.count (byte 58) = 1
    · simp [hs, h.mp hs]
    · have hd : ¬ dst.count (byte 58) = 1 := fun hd => hs (h.mpr hd)
      simp [hs, hd]
  · intro name path hsrc hn hp hd
    have hsplit : strings.Split src (byte 58) = [name, path] := by
      rw [hsrc, Split_append name path (byte 58) hn, Split_no_sep path (byte 58) hp]
    unfold Copy
    dsimp only
    rw [Split_two_iff dst, hsplit]
    simp only [List.length_cons, List.length_nil, hd, decide_True, decide_False,
      Bool.true_eq_false, if_false, if_true, List.headD_cons]
    rfl
  · intro name path hdst hn hp hs
    have hsplit : strings.Split dst (byte 58) = [name, path] := by
      rw [hdst, Split_append name path (byte 58) hn, Split_no_sep path (byte 58) hp]
    unfold Copy
    dsimp only
    rw [Split_two_iff src, hsplit]
    simp only [List.length_cons, List.length_nil, hs, decide_True, decide_False,
      Bool.false_eq_true, if_false, List.headD_cons]
    rfl
  · intro c p other hrun
    unfold container.copy
    simp [hrun]

set_option maxRecDepth 100000 in
theorem Copy_one_colon_witness :
    (str ("/tmp/x")).count (byte 58) ≠ 1
      ∧ Copy exitedStore (str ("web:/etc/hosts")) (str ("/tmp/x")) 0 0 true true
        = match Get exitedStore (str ("web")) 0 0 with
          | none => CopyOutcome.notFound
          | some c => c.copy (str ("/etc/hosts")) (str ("/tmp/x")) true true true :=
  ⟨by decide,
    (Copy_one_colon exitedStore (str ("web:/etc/hosts")) (str ("/tmp/x")) 0 0 true true).2.1
      (str ("web")) (str ("/etc/hosts")) (by decide) (by decide) (by decide) (by decide)⟩

end container

/-! ### Paths below the merged directory -/

theorem Split_cat (a b : GoString) (sep : Byte) :
    strings.Split (a ++ sep :: b) sep = strings.Split a sep ++ strings.Split b sep := by
  induction a with
  | nil => simp [strings.Split]
  | cons c rest ih =>
    show strings.Split (c :: (rest ++ sep :: b)) sep = _
    by_cases hc : c = sep
    · simp only [strings.Split, if_pos hc, ih, List.cons_append]
    · simp only [strings.Split, if_neg hc, ih]
      cases hs : strings.Split rest sep with
      | nil =>
        have := Split_length rest sep
        rw [hs] at this
        simp at this
      | cons p ps => rfl

theorem Join_cons_cons (p q : GoString) (t : List GoString) (sep : GoString) :
    strings.Join (p :: q :: t) sep = p ++ (sep ++ strings.Join (q :: t) sep) := rfl

theorem Join_append (a b : List GoString) (sep : GoString) (ha : a ≠ []) (hb : b ≠ []) :
    strings.Join (a ++ b) sep = strings.Join a sep ++ (sep ++ strings.Join b sep) := by
  induction a with
  | nil => exact absurd rfl ha
  | cons p rest ih =>
    cases rest with
    | nil =>
      obtain ⟨q, b2, hq⟩ := List.exists_cons_of_ne_nil hb
      subst hq
      rfl
    | cons q rest2 =>
      have h1 := ih (List.cons_ne_nil _ _)
      rw [List.cons_append] at h1
      rw [List.cons_append, List.cons_append, Join_cons_cons, h1, Join_cons_cons]
      simp only [List.append_assoc]

theorem cleanLoop_cons_name (rooted : Bool) (e : GoString) (es out : List GoString)
    (h : filepath.IsName e) :
    filepath.cleanLoop rooted (e :: es) out = filepath.cleanLoop rooted es (e :: out) := by
  obtain ⟨h1, _, h3, h4⟩ := h
  have h13 : ¬ (e = [] ∨ e = str (".")) := by simp [h1, h3]
  simp only [filepath.cleanLoop, if_neg h13, if_neg h4]

theorem cleanLoop_names (rooted : Bool) (names es out : List GoString)
    (h : ∀ e ∈ names, filepath.IsName e) :
    filepath.cleanLoop rooted (names ++ es) out
      = filepath.cleanLoop rooted es (names.reverse ++ out) := by
  induction names generalizing out with
  | nil => rfl
  | cons e rest ih =>
    rw [List.cons_append, cleanLoop_cons_name rooted e _ out (h e (List.mem_cons_self _ _)),
      ih (e :: out) (fun x hx => h x (List.mem_cons_of_mem _ hx))]
    simp

theorem cleanLoop_below (es s base : List GoString)
    (hinv : ∀ e ∈ s ++ base, e ≠ str (".."))
    (hd : filepath.depthOk es s.length = true) :
    ∃ s2, filepath.cleanLoop true es (s ++ base) = s2 ++ base := by
  induction es generalizing s with
  | nil => exact ⟨s, rfl⟩
  | cons e rest ih =>
    rw [filepath.depthOk] at hd
    simp only [filepath.cleanLoop]
    by_cases h1 : e = [] ∨ e = str (".")
    · rw [if_pos h1] at hd ⊢
      exact ih s hinv hd
    · rw [if_neg h1] at hd ⊢
      by_cases h2 : e = str ("..")
      · rw [if_pos h2] at hd ⊢
        simp only [Bool.and_eq_true, decide_eq_true_eq] at hd
        cases s with
        | nil => exact absurd rfl hd.1
        | cons top s2 =>
          have htop : top ≠ str ("..") := hinv top (by simp)
          rw [List.cons_append]
          dsimp only
          rw [if_neg htop]
          apply ih s2
          · intro x hx
            exact hinv x (by rw [List.cons_append]; exact List.mem_cons_of_mem _ hx)
          · simpa using hd.2
      · rw [if_neg h2] at hd ⊢
        have h3 := ih (e :: s) (by
          intro x hx
          rw [List.cons_append] at hx
          rcases List.mem_cons.mp hx with hx | hx
          · rw [hx]; exact h2
          · exact hinv x hx) (by simpa using hd)
        obtain ⟨s2, hs2⟩ := h3
        exact ⟨s2, hs2⟩

theorem startsWith_append (a b : GoString) : strings.startsWith (a ++ b) a = true := by
  induction a with
  | nil => cases b <;> rfl
  | cons c rest ih => simp [strings.startsWith, ih]

theorem Split_rooted_names (names : List GoString) (hne : names ≠ [])
    (h : ∀ e ∈ names, filepath.IsName e) :
    strings.Split (byte 47 :: strings.Join names [byte 47]) (byte 47) = [] :: names := by
  have := Split_cat [] (strings.Join names [byte 47]) (byte 47)
  simp only [List.nil_append] at this
  rw [this, Split_Join names (byte 47) hne (fun p hp => (h p hp).2.1)]
  rfl

theorem Clean_rooted_names (names : List GoString) (hne : names ≠ [])
    (h : ∀ e ∈ names, filepath.IsName e) :
    filepath.Clean (byte 47 :: strings.Join names [byte 47])
      = byte 47 :: strings.Join names [byte 47] := by
  unfold filepath.Clean
  have hr : strings.startsWith (byte 47 :: strings.Join names [byte 47]) (str ("/")) = true := by
    simp [strings.startsWith, str]
  simp only [hr, if_true]
  rw [Split_rooted_names names hne h]
  have h1 : filepath.cleanLoop true ([] :: names) [] = names.reverse := by
    simp only [filepath.cleanLoop, true_or, if_true]
    have := cleanLoop_names true names [] [] h
    simp only [List.append_nil] at this
    rw [this]
    rfl
  rw [h1, List.reverse_reverse]
  rfl

theorem Clean_below (names : List GoString) (p : GoString) (hne : names ≠ [])
    (h : ∀ e ∈ names, filepath.IsName e) (hp : filepath.staysBelow p = true) :
    filepath.IsWithin (byte 47 :: strings.Join names [byte 47])
      (filepath.Clean (byte 47 :: (strings.Join names [byte 47] ++ byte 47 :: p))) := by
  unfold filepath.Clean
  have hr : strings.startsWith (byte 47 :: (strings.Join names [byte 47] ++ byte 47 :: p))
      (str ("/")) = true := by
    simp [strings.startsWith, str]
  simp only [hr, if_true]
  have hsplit : strings.Split (byte 47 :: (strings.Join names [byte 47] ++ byte 47 :: p))
      (byte 47) = [] :: (names ++ strings.Split p (byte 47)) := by
    have h1 := Split_cat [] (strings.Join names [byte 47] ++ byte 47 :: p) (byte 47)
    simp only [List.nil_append] at h1
    rw [h1, Split_cat, Split_Join names (byte 47) hne (fun q hq => (h q hq).2.1)]
    rfl
  rw [hsplit]
  have h1 : filepath.cleanLoop true ([] :: (names ++ strings.Split p (byte 47))) []
      = filepath.cleanLoop true (strings.Split p (byte 47)) ([] ++ names.reverse) := by
    simp only [filepath.cleanLoop, true_or, if_true]
    have := cleanLoop_names true names (strings.Split p (byte 47)) [] h
    simp only [List.append_nil] at this
    rw [this]
    rfl
  rw [h1]
  obtain ⟨s2, hs2⟩ := cleanLoop_below (strings.Split p (byte 47)) [] names.reverse
    (by
      intro e he
      simp only [List.nil_append, List.mem_reverse] at he
      exact (h e he).2.2.2) hp
  rw [hs2, List.reverse_append, List.reverse_reverse]
  unfold filepath.IsWithin
  by_cases hs : s2 = []
  · left
    subst hs
    simp
    rfl
  · right
    have hrev : s2.reverse ≠ [] := by simpa using hs
    have hsl : str ("/") = [byte 47] := rfl
    rw [hsl, Join_append names s2.reverse [byte 47] hne hrev]
    have e1 : [byte 47] ++ (strings.Join names [byte 47]
          ++ ([byte 47] ++ strings.Join s2.reverse [byte 47]))
        = (byte 47 :: strings.Join names [byte 47] ++ [byte 47])
          ++ strings.Join s2.reverse [byte 47] := by
      simp
    rw [e1]
    exact startsWith_append _ _

theorem GetContainerMergedDir_eq (id : GoString) (h : filepath.IsName id) :
    util.GetContainerMergedDir id
      = byte 47 :: strings.Join [str ("var"), str ("lib"), str ("ducker"), str ("containers"),
          id, str ("merged")] [byte 47] := by
  have hn : ∀ e ∈ [str ("var"), str ("lib"), str ("ducker"), str ("containers"), id],
      filepath.IsName e := by
    intro e he
    simp only [List.mem_cons, List.mem_singleton, List.not_mem_nil, or_false] at he
    rcases he with he | he | he | he | he
    · subst he; decide
    · subst he; decide
    · subst he; decide
    · subst he; decide
    · subst he; exact h
  have hn2 : ∀ e ∈ [str ("var"), str ("lib"), str ("ducker"), str ("containers"), id,
      str ("merged")], filepath.IsName e := by
    intro e he
    simp only [List.mem_cons, List.mem_singleton, List.not_mem_nil, or_false] at he
    rcases he with he | he | he | he | he | he
    · subst he; decide
    · subst he; decide
    · subst he; decide
    · subst he; decide
    · subst he; exact h
    · subst he; decide
  have hdir : util.GetContainerDir id
      = byte 47 :: strings.Join [str ("var"), str ("lib"), str ("ducker"), str ("containers"),
          id] [byte 47] := by
    unfold util.GetContainerDir filepath.Join2
    rw [if_neg (by decide), if_neg h.1]
    have e1 : str ("/var/lib/ducker/containers") ++ str ("/") ++ id
        = byte 47 :: strings.Join [str ("var"), str ("lib"), str ("ducker"),
            str ("containers"), id] [byte 47] := by
      have e2 : str ("/var/lib/ducker/containers") ++ str ("/")
          = byte 47 :: (str ("var") ++ ([byte 47] ++ (str ("lib") ++ ([byte 47]
              ++ (str ("ducker") ++ ([byte 47] ++ (str ("containers") ++ [byte 47]))))))) := by
        decide
      rw [e2]
      simp only [strings.Join, List.cons_append, List.append_assoc, List.nil_append]
    rw [e1]
    exact Clean_rooted_names _ (List.cons_ne_nil _ _) hn
  unfold util.GetContainerMergedDir filepath.Join2
  rw [hdir, if_neg (List.cons_ne_nil _ _), if_neg (by decide)]
  have e3 : byte 47 :: strings.Join [str ("var"), str ("lib"), str ("ducker"),
        str ("containers"), id] [byte 47] ++ str ("/") ++ str ("merged")
      = byte 47 :: strings.Join ([str ("var"), str ("lib"), str ("ducker"),
          str ("containers"), id] ++ [str ("merged")]) [byte 47] := by
    rw [Join_append _ _ [byte 47] (List.cons_ne_nil _ _) (List.cons_ne_nil _ _)]
    simp only [List.cons_append, List.append_assoc]
    rfl
  rw [e3]
  exact Clean_rooted_names _ (List.cons_ne_nil _ _) hn2

theorem Join2_merged_within (id p : GoString) (h : filepath.IsName id)
    (hp : filepath.staysBelow p = true) :
    filepath.IsWithin (util.GetContainerMergedDir id)
      (filepath.Join2 (util.GetContainerMergedDir id) p) := by
  have hn2 : ∀ e ∈ [str ("var"), str ("lib"), str ("ducker"), str ("containers"), id,
      str ("merged")], filepath.IsName e := by
    intro e he
    simp only [List.mem_cons, List.mem_singleton, List.not_mem_nil, or_false] at he
    rcases he with he | he | he | he | he | he
    · subst he; decide
    · subst he; decide
    · subst he; decide
    · subst he; decide
    · subst he; exact h
    · subst he; decide
  rw [GetContainerMergedDir_eq id h]
  unfold filepath.Join2
  rw [if_neg (List.cons_ne_nil _ _)]
  by_cases hpe : p = []
  · rw [if_pos hpe, Clean_rooted_names _ (List.cons_ne_nil _ _) hn2]
    exact Or.inl rfl
  · rw [if_neg hpe]
    have := Clean_below _ p (List.cons_ne_nil _ _) hn2 hp
    simpa [str, List.append_assoc] using this

namespace container

set_option maxRecDepth 100000 in
/-- C28 (counterexample): for the container `2567a5ec9705`, the path
`../../etc/passwd` given as `web:../../etc/passwd` makes `Copy` read from
`/var/lib/ducker/containers/etc/passwd`, which is not below the merged
directory of the container; the absolute path `/../../../x` leaves it as
well. -/
theorem copy_dotdot_leaves_merged :
    util.GetContainerMergedDir (str ("2567a5ec9705"))
        = str ("/var/lib/ducker/containers/2567a5ec9705/merged")
      ∧ Copy exitedStore (str ("web:../../etc/passwd")) (str ("/tmp/x")) 0 0 true true
        = CopyOutcome.copied (str ("/var/lib/ducker/containers/etc/passwd")) (str ("/tmp/x"))
      ∧ ¬ filepath.IsWithin (util.GetContainerMergedDir (str ("2567a5ec9705")))
          (str ("/var/lib/ducker/containers/etc/passwd"))
      ∧ filepath.Join2 (util.GetContainerMergedDir (str ("2567a5ec9705")))
          (str ("/../../../x")) = str ("/var/lib/ducker/x")
      ∧ ¬ filepath.IsWithin (util.GetContainerMergedDir (str ("2567a5ec9705")))
          (str ("/var/lib/ducker/x")) := by
  refine ⟨by decide, by decide, by decide, by decide, by decide⟩

/-- C28 (amended): for every container whose ID is an ordinary path element
(as every 12-hex ID is) and every path `p` whose `..` elements never
climb above the point where `p` starts, among them every `p` without `..`,
absolute or not, the host path `copy` reads from or writes to for `p` is the
merged directory of the container or lies below it. -/
theorem copy_stays_in_merged (c : container) (p other : GoString) (ensureOk copyOk : Bool)
    (hid : filepath.IsName c.ID) (hp : filepath.staysBelow p = true) :
    filepath.IsWithin (util.GetContainerMergedDir c.ID)
        (filepath.Join2 (util.GetContainerMergedDir c.ID) p)
      ∧ (∀ src dst, c.copy p other true ensureOk copyOk = CopyOutcome.copied src dst →
          filepath.IsWithin (util.GetContainerMergedDir c.ID) src ∧ dst = other)
      ∧ (∀ src dst, c.copy other p false ensureOk copyOk = CopyOutcome.copied src dst →
          filepath.IsWithin (util.GetContainerMergedDir c.ID) dst ∧ src = other) := by
  have hw := Join2_merged_within c.ID p hid hp
  refine ⟨hw, ?_, ?_⟩
  · intro src dst h
    unfold container.copy at h
    simp only [eq_self_iff_true, if_true] at h
    split_ifs at h
    cases h
    exact ⟨hw, rfl⟩
  · intro src dst h
    unfold container.copy at h
    simp only [Bool.false_eq_true, if_false] at h
    split_ifs at h
    cases h
    exact ⟨hw, rfl⟩

set_option maxRecDepth 100000 in
theorem copy_stays_in_merged_witness :
    filepath.IsName (str ("2567a5ec9705"))
      ∧ filepath.staysBelow (str ("/etc/../var/log")) = true
      ∧ filepath.IsWithin (util.GetContainerMergedDir (str ("2567a5ec9705")))
          (filepath.Join2 (util.GetContainerMergedDir (str ("2567a5ec9705")))
            (str ("/etc/../var/log"))) :=
  ⟨by decide, by decide,
    (copy_stays_in_merged { sampleRunning with PID := 0, Status := StatusExited }
      (str ("/etc/../var/log")) (str ("/tmp/x")) true true (by decide) (by decide)).1⟩

end container

/-! ## Port strings and port rules -/

theorem ToLower_of_lower (s : GoString) (h : ∀ b ∈ s, ¬ (65 ≤ b.val ∧ b.val ≤ 90)) :
    strings.ToLower s = s := by
  induction s with
  | nil => rfl
  | cons c rest ih =>
    have hc := h c (List.mem_cons_self _ _)
    have hr := ih (fun b hb => h b (List.mem_cons_of_mem _ hb))
    unfold strings.ToLower at hr ⊢
    rw [List.map_cons, hr, if_neg hc]

theorem parsePort_no_slash (s : GoString) (h : byte 47 ∉ s) :
    net.parsePort s = (s, str ("tcp")) := by
  unfold net.parsePort
  rw [Split_no_sep s (byte 47) h]

theorem parsePort_one_slash (port proto : GoString) (h1 : byte 47 ∉ port)
    (h2 : byte 47 ∉ proto) :
    net.parsePort (port ++ byte 47 :: proto) = (port, strings.ToLower proto) := by
  unfold net.parsePort
  rw [Split_append port proto (byte 47) h1, Split_no_sep proto (byte 47) h2]

theorem parsePort_more_slashes (s : GoString) (h : 2 ≤ s.count (byte 47)) :
    net.parsePort s = (s, str ("tcp")) := by
  have hl := Split_length s (byte 47)
  unfold net.parsePort
  match hs : strings.Split s (byte 47) with
  | [] => rfl
  | [_] => rfl
  | [_, _] => rw [hs] at hl; simp at hl; omega
  | _ :: _ :: _ :: _ => rfl

theorem count_one_split (s : GoString) (sep : Byte) (h : s.count sep = 1) :
    ∃ a b : GoString, sep ∉ a ∧ sep ∉ b ∧ s = a ++ sep :: b := by
  induction s with
  | nil => simp at h
  | cons c rest ih =>
    by_cases hc : c = sep
    · subst hc
      rw [List.count_cons_self] at h
      have h0 : rest.count c = 0 := by omega
      exact ⟨[], rest, by simp, List.count_eq_zero.mp h0, rfl⟩
    · rw [List.count_cons_of_ne (fun e => hc e.symm)] at h
      obtain ⟨a, b, ha, hb, hab⟩ := ih h
      refine ⟨c :: a, b, ?_, hb, by rw [hab]; rfl⟩
      intro hm
      rcases List.mem_cons.mp hm with e | e
      · exact hc e.symm
      · exact ha e

/-- C24 (counterexample): the port string `80/tcp/x` has two slashes, so it
is not split: the parsed port is the whole string, which contains slashes,
and the protocol is `tcp`; and `80/UDP` parses to the protocol `udp`, not the
text after the slash. -/
theorem parsePort_two_slashes :
    net.parsePort (str ("80/tcp/x")) = (str ("80/tcp/x"), str ("tcp"))
      ∧ byte 47 ∈ (net.parsePort (str ("80/tcp/x"))).1
      ∧ net.parsePort (str ("80/UDP")) = (str ("80"), str ("udp")) := by
  decide

/-- C24 (amended): a port string without a slash parses to itself and
`tcp`; a string `PORT/proto` with exactly one slash parses to `PORT` and the
protocol in lower case, which is `proto` itself when it has no upper-case
letter; in both cases the parsed port is free of slashes; a string with two
or more slashes parses to itself and `tcp`. -/
theorem parsePort_spec (s : GoString) :
    (byte 47 ∉ s → net.parsePort s = (s, str ("tcp")))
      ∧ (∀ port proto : GoString, byte 47 ∉ port → byte 47 ∉ proto →
          s = port ++ byte 47 :: proto →
            net.parsePort s = (port, strings.ToLower proto)
              ∧ ((∀ b ∈ proto, ¬ (65 ≤ b.val ∧ b.val ≤ 90)) →
                  net.parsePort s = (port, proto)))
      ∧ (s.count (byte 47) ≤ 1 → byte 47 ∉ (net.parsePort s).1)
      ∧ (2 ≤ s.count (byte 47) → net.parsePort s = (s, str ("tcp"))) := by
  refine ⟨parsePort_no_slash s, ?_, ?_, parsePort_more_slashes s⟩
  · intro port proto h1 h2 hs
    subst hs
    refine ⟨parsePort_one_slash port proto h1 h2, fun hl => ?_⟩
    rw [parsePort_one_slash port proto h1 h2, ToLower_of_lower proto hl]
  · intro hc
    by_cases h0 : s.count (byte 47) = 0
    · have hn : byte 47 ∉ s := List.count_eq_zero.mp h0
      rw [parsePort_no_slash s hn]
      exact hn
    · have h1 : s.count (byte 47) = 1 := by omega
      obtain ⟨a, b, ha, hb, hab⟩ := count_one_split s (byte 47) h1
      rw [hab, parsePort_one_slash a b ha hb]
      exact ha

set_option maxRecDepth 100000 in
theorem parsePort_spec_witness :
    net.parsePort (str ("8080")) = (str ("8080"), str ("tcp"))
      ∧ net.parsePort (str ("53/udp")) = (str ("53"), str ("udp"))
      ∧ byte 47 ∉ (net.parsePort (str ("53/udp"))).1
      ∧ net.parsePort (str ("1/2/3")) = (str ("1/2/3"), str ("tcp")) :=
  ⟨(parsePort_spec (str ("8080"))).1 (by decide),
    ((parsePort_spec (str ("53/udp"))).2.1 (str ("53")) (str ("udp")) (by decide) (by decide)
      (by decide)).2 (by decide),
    (parsePort_spec (str ("53/udp"))).2.2.1 (by decide),
    (parsePort_spec (str ("1/2/3"))).2.2.2 (by decide)⟩

theorem iptablesNAT_delete (accepts : net.Rule → Bool) (table : List net.Rule)
    (chain : GoString) (spec : List GoString) :
    (net.iptablesNAT accepts table (str ("-D")) chain spec).2 = table.erase ⟨chain, spec⟩ := by
  have hne : ¬ (str ("-D") = str ("-A")) := by decide
  unfold net.iptablesNAT
  rw [if_neg hne]
  by_cases hm : (⟨chain, spec⟩ : net.Rule) ∈ table
  · rw [if_pos hm]
  · rw [if_neg hm, List.erase_of_not_mem hm]

/-- The arguments the two functions pass to iptables for one entry are the
rule of the table in the spec. -/
theorem dnatSpec_specRule (chain ip hostPort containerPort : GoString) :
    (⟨chain, net.dnatSpec ip hostPort containerPort⟩ : net.Rule)
      = net.specRule chain (net.parsePort hostPort).2 (net.parsePort hostPort).1 ip
          (net.parsePort containerPort).1 := by
  unfold net.dnatSpec net.specRule
  have hc : str (":") = [byte 58] := rfl
  rw [hc, List.append_assoc, List.singleton_append]

theorem portRules_cons (ip : GoString) (e : GoString × GoString)
    (rest : List (GoString × GoString)) :
    net.portRules ip (e :: rest)
      = ⟨str ("PREROUTING"), net.dnatSpec ip e.1 e.2⟩
          :: ⟨str ("OUTPUT"), net.dnatSpec ip e.1 e.2⟩ :: net.portRules ip rest := by
  rw [dnatSpec_specRule, dnatSpec_specRule]
  rfl

theorem Setup_appends (accepts : net.Rule → Bool) (ip : GoString)
    (ports : List (GoString × GoString)) :
    ∀ (table t1 : List net.Rule),
      net.SetupPortMapping accepts table ip ports = (false, t1) →
        t1 = table ++ net.portRules ip ports := by
  induction ports with
  | nil =>
    intro table t1 h
    simp only [net.SetupPortMapping, Prod.mk.injEq, true_and] at h
    rw [← h]
    simp [net.portRules]
  | cons e rest ih =>
    intro table t1 h
    obtain ⟨hp, cp⟩ := e
    have hA : str ("-A") = str ("-A") := rfl
    rw [portRules_cons]
    unfold net.SetupPortMapping at h
    dsimp only at h
    unfold net.iptablesNAT at h
    rw [if_pos hA, if_pos hA] at h
    by_cases a1 : accepts ⟨str ("PREROUTING"), net.dnatSpec ip hp cp⟩ = true
    · rw [if_pos a1] at h
      by_cases a2 : accepts ⟨str ("OUTPUT"), net.dnatSpec ip hp cp⟩ = true
      · rw [if_pos a2] at h
        simp only [Bool.not_true, Bool.false_eq_true, if_false] at h
        rw [ih _ _ h]
        simp
      · rw [if_neg a2] at h
        simp at h
    · rw [if_neg a1] at h
      simp at h

theorem Clean_diff (accepts : net.Rule → Bool) (ip : GoString)
    (ports : List (GoString × GoString)) :
    ∀ table : List net.Rule,
      net.CleanPortMapping accepts table ip ports = table.diff (net.portRules ip ports) := by
  induction ports with
  | nil => intro table; simp [net.CleanPortMapping, net.portRules]
  | cons e rest ih =>
    intro table
    obtain ⟨hp, cp⟩ := e
    rw [portRules_cons, List.diff_cons, List.diff_cons]
    unfold net.CleanPortMapping
    dsimp only
    rw [iptablesNAT_delete, iptablesNAT_delete, ih]

theorem portRules_perm (ip : GoString) (ports ports2 : List (GoString × GoString))
    (h : ports2.Perm ports) : (net.portRules ip ports2).Perm (net.portRules ip ports) := by
  induction h with
  | nil => exact List.Perm.refl _
  | cons x _ ih => rw [portRules_cons, portRules_cons]; exact (ih.cons _).cons _
  | swap x y l =>
    simp only [portRules_cons]
    refine List.perm_iff_count.mpr (fun a => ?_)
    simp only [List.count_cons]
    omega
  | trans _ _ ih1 ih2 => exact ih1.trans ih2

/-- The rules of an entry `host -> guest` without protocol: the protocol is
`tcp`. -/
theorem portRules_plain (ip host guest : GoString) (h1 : byte 47 ∉ host)
    (h2 : byte 47 ∉ guest) :
    net.portRules ip [(host, guest)]
      = [⟨str ("PREROUTING"), [str ("-p"), str ("tcp"), str ("--dport"), host, str ("-j"),
            str ("DNAT"), str ("--to-destination"), ip ++ str (":") ++ guest]⟩,
          ⟨str ("OUTPUT"), [str ("-p"), str ("tcp"), str ("--dport"), host, str ("-j"),
            str ("DNAT"), str ("--to-destination"), ip ++ str (":") ++ guest]⟩] := by
  have hc : str (":") = [byte 58] := rfl
  unfold net.portRules net.portRules net.specRule
  dsimp only
  rw [parsePort_no_slash host h1, parsePort_no_slash guest h2, hc, List.append_assoc,
    List.singleton_append]

/-- The rules of an entry `host/proto -> guest/proto` for a protocol in
lower case. -/
theorem portRules_proto (ip host guest proto : GoString) (h1 : byte 47 ∉ host)
    (h2 : byte 47 ∉ guest) (h3 : byte 47 ∉ proto)
    (h4 : ∀ b ∈ proto, ¬ (65 ≤ b.val ∧ b.val ≤ 90)) :
    net.portRules ip [(host ++ str ("/") ++ proto, guest ++ str ("/") ++ proto)]
      = [⟨str ("PREROUTING"), [str ("-p"), proto, str ("--dport"), host, str ("-j"),
            str ("DNAT"), str ("--to-destination"), ip ++ str (":") ++ guest]⟩,
          ⟨str ("OUTPUT"), [str ("-p"), proto, str ("--dport"), host, str ("-j"),
            str ("DNAT"), str ("--to-destination"), ip ++ str (":") ++ guest]⟩] := by
  have hc : str (":") = [byte 58] := rfl
  have hs : str ("/") = [byte 47] := rfl
  unfold net.portRules net.portRules net.specRule
  dsimp only
  rw [hs, List.append_assoc, List.singleton_append, List.append_assoc, List.singleton_append,
    parsePort_one_slash host proto h1 h3, parsePort_one_slash guest proto h2 h3,
    ToLower_of_lower proto h4, hc, List.append_assoc, List.singleton_append]

/-- C25: a successful `SetupPortMapping` leaves the nat table with the
rules of the port map appended, per entry the rule `-p <proto> --dport <host>
-j DNAT --to-destination <ip>:<guest>` in PREROUTING and in OUTPUT;
`CleanPortMapping` with the same address and the same map, visited in any
order, deletes one rule of each of those specifications; and the table after
the two is the table before them as a multiset.  The rules are written out
for an entry `host -> guest`, whose protocol is `tcp`, and for an entry
`host/proto -> guest/proto`. -/
theorem Setup_Clean_restores (accepts : net.Rule → Bool) (table t1 : List net.Rule)
    (ip : GoString) (ports ports2 : List (GoString × GoString))
    (hperm : ports2.Perm ports)
    (h : net.SetupPortMapping accepts table ip ports = (false, t1)) :
    t1 = table ++ net.portRules ip ports
      ∧ net.CleanPortMapping accepts t1 ip ports2 = t1.diff (net.portRules ip ports2)
      ∧ (net.CleanPortMapping accepts t1 ip ports2).Perm table
      ∧ (∀ host guest : GoString, byte 47 ∉ host → byte 47 ∉ guest →
          net.portRules ip [(host, guest)]
            = [⟨str ("PREROUTING"), [str ("-p"), str ("tcp"), str ("--dport"), host,
                  str ("-j"), str ("DNAT"), str ("--to-destination"),
                  ip ++ str (":") ++ guest]⟩,
                ⟨str ("OUTPUT"), [str ("-p"), str ("tcp"), str ("--dport"), host,
                  str ("-j"), str ("DNAT"), str ("--to-destination"),
                  ip ++ str (":") ++ guest]⟩])
      ∧ (∀ host guest proto : GoString, byte 47 ∉ host → byte 47 ∉ guest →
          byte 47 ∉ proto → (∀ b ∈ proto, ¬ (65 ≤ b.val ∧ b.val ≤ 90)) →
          net.portRules ip [(host ++ str ("/") ++ proto, guest ++ str ("/") ++ proto)]
            = [⟨str ("PREROUTING"), [str ("-p"), proto, str ("--dport"), host,
                  str ("-j"), str ("DNAT"), str ("--to-destination"),
                  ip ++ str (":") ++ guest]⟩,
                ⟨str ("OUTPUT"), [str ("-p"), proto, str ("--dport"), host,
                  str ("-j"), str ("DNAT"), str ("--to-destination"),
                  ip ++ str (":") ++ guest]⟩]) := by
  have h1 := Setup_appends accepts ip ports table t1 h
  refine ⟨h1, Clean_diff accepts ip ports2 t1, ?_, portRules_plain ip,
    fun host guest proto => portRules_proto ip host guest proto⟩
  rw [Clean_diff, h1]
  have hp := portRules_perm ip ports ports2 hperm
  rw [List.Perm.diff_left _ hp]
  apply Multiset.coe_eq_coe.mp
  rw [← Multiset.coe_sub, ← Multiset.coe_add]
  exact add_tsub_cancel_right _ _

set_option maxRecDepth 100000 in
theorem Setup_Clean_restores_witness :
    net.SetupPortMapping (fun _ => true) net.sampleTable (str ("172.18.0.2"))
        [(str ("18080"), str ("80")), (str ("53/udp"), str ("53/udp"))]
      = (false, net.sampleTable ++
          [⟨str ("PREROUTING"), [str ("-p"), str ("tcp"), str ("--dport"), str ("18080"),
              str ("-j"), str ("DNAT"), str ("--to-destination"), str ("172.18.0.2:80")]⟩,
            ⟨str ("OUTPUT"), [str ("-p"), str ("tcp"), str ("--dport"), str ("18080"),
              str ("-j"), str ("DNAT"), str ("--to-destination"), str ("172.18.0.2:80")]⟩,
            ⟨str ("PREROUTING"), [str ("-p"), str ("udp"), str ("--dport"), str ("53"),
              str ("-j"), str ("DNAT"), str ("--to-destination"), str ("172.18.0.2:53")]⟩,
            ⟨str ("OUTPUT"), [str ("-p"), str ("udp"), str ("--dport"), str ("53"),
              str ("-j"), str ("DNAT"), str ("--to-destination"), str ("172.18.0.2:53")]⟩])
      ∧ net.portRules (str ("172.18.0.2"))
          [(str ("18080"), str ("80")), (str ("53/udp"), str ("53/udp"))]
        = [⟨str ("PREROUTING"), [str ("-p"), str ("tcp"), str ("--dport"), str ("18080"),
              str ("-j"), str ("DNAT"), str ("--to-destination"), str ("172.18.0.2:80")]⟩,
            ⟨str ("OUTPUT"), [str ("-p"), str ("tcp"), str ("--dport"), str ("18080"),
              str ("-j"), str ("DNAT"), str ("--to-destination"), str ("172.18.0.2:80")]⟩,
            ⟨str ("PREROUTING"), [str ("-p"), str ("udp"), str ("--dport"), str ("53"),
              str ("-j"), str ("DNAT"), str ("--to-destination"), str ("172.18.0.2:53")]⟩,
            ⟨str ("OUTPUT"), [str ("-p"), str ("udp"), str ("--dport"), str ("53"),
              str ("-j"), str ("DNAT"), str ("--to-destination"), str ("172.18.0.2:53")]⟩]
      ∧ (net.CleanPortMapping (fun _ => true)
          (net.sampleTable ++
            [⟨str ("PREROUTING"), [str ("-p"), str ("tcp"), str ("--dport"), str ("18080"),
                str ("-j"), str ("DNAT"), str ("--to-destination"), str ("172.18.0.2:80")]⟩,
              ⟨str ("OUTPUT"), [str ("-p"), str ("tcp"), str ("--dport"), str ("18080"),
                str ("-j"), str ("DNAT"), str ("--to-destination"), str ("172.18.0.2:80")]⟩,
              ⟨str ("PREROUTING"), [str ("-p"), str ("udp"), str ("--dport"), str ("53"),
                str ("-j"), str ("DNAT"), str ("--to-destination"), str ("172.18.0.2:53")]⟩,
              ⟨str ("OUTPUT"), [str ("-p"), str ("udp"), str ("--dport"), str ("53"),
                str ("-j"), str ("DNAT"), str ("--to-destination"), str ("172.18.0.2:53")]⟩])
          (str ("172.18.0.2"))
          [(str ("53/udp"), str ("53/udp")), (str ("18080"), str ("80"))]).Perm
        net.sampleTable :=
  ⟨by decide, by decide,
    (Setup_Clean_restores (fun _ => true) net.sampleTable _
      (str ("172.18.0.2")) [(str ("18080"), str ("80")), (str ("53/udp"), str ("53/udp"))]
      [(str ("53/udp"), str ("53/udp")), (str ("18080"), str ("80"))]
      (List.Perm.swap _ _ _) (by decide)).2.2.1⟩

/-! ## The memory option -/

theorem foldl_decimal_ge (s : GoString) :
    ∀ n : Nat, n ≤ s.foldl (fun n c => n * 10 + (c.val - 48)) n := by
  induction s with
  | nil => intro n; exact Nat.le_refl _
  | cons c rest ih =>
    intro n
    rw [List.foldl_cons]
    exact Nat.le_trans (by omega) (ih _)

theorem parseUintLoop_eq (s : GoString) :
    ∀ n : Nat, (∀ c ∈ s, 48 ≤ c.val ∧ c.val ≤ 57) →
      s.foldl (fun n c => n * 10 + (c.val - 48)) n < 2 ^ 64 →
        strconv.parseUintLoop n s = some (s.foldl (fun n c => n * 10 + (c.val - 48)) n) := by
  induction s with
  | nil => intro n _ _; rfl
  | cons c rest ih =>
    intro n hd hlt
    rw [List.foldl_cons] at hlt ⊢
    have hc := hd c (List.mem_cons_self _ _)
    have hge := foldl_decimal_ge rest (n * 10 + (c.val - 48))
    have h64 : (2 : Nat) ^ 64 = 18446744073709551616 := by norm_num
    rw [h64] at hlt
    have hn1 : n * 10 + (c.val - 48) < 18446744073709551616 := Nat.lt_of_le_of_lt hge hlt
    have hcut : ¬ (n ≥ 18446744073709551615 / 10 + 1) := by
      have : 18446744073709551615 / 10 + 1 = 1844674407370955162 := by norm_num
      rw [this]
      omega
    have hm10 : (n * 10) % 2 ^ 64 = n * 10 := by
      rw [h64]; exact Nat.mod_eq_of_lt (by omega)
    have hm1 : (n * 10 + (c.val - 48)) % 2 ^ 64 = n * 10 + (c.val - 48) := by
      rw [h64]; exact Nat.mod_eq_of_lt hn1
    have hno : ¬ (n * 10 + (c.val - 48) < n * 10
        ∨ n * 10 + (c.val - 48) > 18446744073709551615) := by omega
    unfold strconv.parseUintLoop
    rw [if_pos hc, if_neg hcut]
    dsimp only
    rw [hm10, hm1, if_neg hno]
    exact ih _ (fun b hb => hd b (List.mem_cons_of_mem _ hb)) (by rw [h64]; exact hlt)

theorem ParseUint_decimal (s : GoString) (hs : strconv.IsDecimal s)
    (hlt : strconv.decimalValue s < 2 ^ 64) :
    strconv.ParseUint s = some (strconv.decimalValue s) := by
  unfold strconv.ParseUint
  rw [if_neg hs.1]
  exact parseUintLoop_eq s 0 hs.2 hlt

theorem IsSpace_digit (v : Nat) (h : 48 ≤ v ∧ v ≤ 57) : unicode.IsSpace v = false := by
  obtain ⟨h1, h2⟩ := h
  interval_cases v <;> rfl

theorem TrimSpace_numeral (s suf : GoString) (hs : strconv.IsDecimal s)
    (hsuf : ∀ b ∈ suf, b.val < 128 ∧ unicode.IsSpace b.val = false) :
    strings.TrimSpace (s ++ suf) = s ++ suf := by
  obtain ⟨hne, hd⟩ := hs
  cases s with
  | nil => exact absurd rfl hne
  | cons a rest =>
    have ha := hd a (List.mem_cons_self _ _)
    have hrev : (a :: rest ++ suf).reverse ≠ [] := by simp
    cases hr : (a :: rest ++ suf).reverse with
    | nil => exact absurd hr hrev
    | cons z prev =>
      have hz : z ∈ a :: rest ++ suf := by
        rw [← List.mem_reverse, hr]; exact List.mem_cons_self _ _
      have hzp : z.val < 128 ∧ unicode.IsSpace z.val = false := by
        rcases List.mem_append.mp hz with h | h
        · exact ⟨by have := hd z h; omega, IsSpace_digit _ (hd z h)⟩
        · exact hsuf z h
      exact TrimSpace_of_ends a z (rest ++ suf) prev (a :: rest ++ suf) rfl hr
        (by omega) hzp.1 (IsSpace_digit _ ha) hzp.2

theorem parseMemoryString_plain (s : GoString) (hs : strconv.IsDecimal s)
    (hlt : strconv.decimalValue s < 2 ^ 64) :
    cmd.parseMemoryString s = strconv.decimalValue s := by
  have ht : strings.TrimSpace s = s := by
    have := TrimSpace_numeral s [] hs (fun b hb => absurd hb (List.not_mem_nil _))
    rwa [List.append_nil] at this
  have hl : strings.ToLower s = s :=
    ToLower_of_lower s (fun b hb h => by have := hs.2 b hb; omega)
  unfold cmd.parseMemoryString
  rw [if_neg hs.1]
  dsimp only
  rw [ht, hl]
  cases hg : s.getLast? with
  | none => exact absurd (List.getLast?_eq_none_iff.mp hg) hs.1
  | some z =>
    have hz := hs.2 z (List.mem_of_mem_getLast? hg)
    have h1 : ¬ z = byte 107 := fun e => by rw [e] at hz; revert hz; decide
    have h2 : ¬ z = byte 109 := fun e => by rw [e] at hz; revert hz; decide
    have h3 : ¬ z = byte 103 := fun e => by rw [e] at hz; revert hz; decide
    dsimp only
    rw [if_neg h1, if_neg h2, if_neg h3]
    dsimp only
    rw [ParseUint_decimal s hs hlt]
    dsimp only
    rw [Nat.mul_one]
    exact Nat.mod_eq_of_lt hlt

theorem parseMemoryString_suffix (s : GoString) (b : Byte) (mult : Nat)
    (hs : strconv.IsDecimal s)
    (hb : (b = byte 107 ∧ mult = 1024) ∨ (b = byte 109 ∧ mult = 1024 * 1024)
      ∨ (b = byte 103 ∧ mult = 1024 * 1024 * 1024))
    (hlt : strconv.decimalValue s * mult < 2 ^ 64) :
    cmd.parseMemoryString (s ++ [b]) = strconv.decimalValue s * mult := by
  have hbp : b.val < 128 ∧ unicode.IsSpace b.val = false ∧ ¬ (65 ≤ b.val ∧ b.val ≤ 90) := by
    rcases hb with ⟨e, _⟩ | ⟨e, _⟩ | ⟨e, _⟩ <;> (rw [e]; decide)
  have ht : strings.TrimSpace (s ++ [b]) = s ++ [b] :=
    TrimSpace_numeral s [b] hs (fun c hc => by
      rw [List.mem_singleton.mp hc]; exact ⟨hbp.1, hbp.2.1⟩)
  have hl : strings.ToLower (s ++ [b]) = s ++ [b] :=
    ToLower_of_lower _ (fun c hc h => by
      rcases List.mem_append.mp hc with h1 | h1
      · have := hs.2 c h1; omega
      · rw [List.mem_singleton.mp h1] at h; exact hbp.2.2 h)
  have hne : ¬ (s ++ [b] = []) := by simp
  have hpos : 0 < mult := by rcases hb with ⟨_, e⟩ | ⟨_, e⟩ | ⟨_, e⟩ <;> (rw [e]; decide)
  have hv : strconv.decimalValue s < 2 ^ 64 :=
    Nat.lt_of_le_of_lt (Nat.le_mul_of_pos_right _ hpos) hlt
  unfold cmd.parseMemoryString
  rw [if_neg hne]
  dsimp only
  rw [ht, hl, List.getLast?_concat, List.dropLast_concat]
  dsimp only
  have n1 : ¬ (byte 109 = byte 107) := by decide
  have n2 : ¬ (byte 103 = byte 107) := by decide
  have n3 : ¬ (byte 103 = byte 109) := by decide
  rcases hb with ⟨e, em⟩ | ⟨e, em⟩ | ⟨e, em⟩
  · rw [e, if_pos rfl]
    dsimp only
    rw [ParseUint_decimal s hs hv]
    dsimp only
    rw [← em]
    exact Nat.mod_eq_of_lt hlt
  · rw [e, if_neg n1, if_pos rfl]
    dsimp only
    rw [ParseUint_decimal s hs hv]
    dsimp only
    rw [← em]
    exact Nat.mod_eq_of_lt hlt
  · rw [e, if_neg n2, if_neg n3, if_pos rfl]
    dsimp only
    rw [ParseUint_decimal s hs hv]
    dsimp only
    rw [← em]
    exact Nat.mod_eq_of_lt hlt

set_option maxRecDepth 100000 in
/-- The product of the value and the multiplier is a `uint64`: with the
suffix `k` the numeral of 2^54 gives the limit zero. -/
theorem parseMemoryString_product_wraps :
    cmd.parseMemoryString (str ("18014398509481984k")) = 0 := by
  decide

set_option maxRecDepth 100000 in
/-- C26 (counterexample): the decimal numeral of 2^64 denotes a number
other than zero, and the memory option written with it parses to zero,
because `strconv.ParseUint` reports a range error. -/
theorem parseMemoryString_out_of_range :
    strconv.IsDecimal (str ("18446744073709551616"))
      ∧ strconv.decimalValue (str ("18446744073709551616")) = 2 ^ 64
      ∧ strconv.ParseUint (str ("18446744073709551616")) = none
      ∧ cmd.parseMemoryString (str ("18446744073709551616")) = 0 := by
  decide

theorem parseUintLoop_range (s : GoString) :
    ∀ n : Nat, n < 2 ^ 64 → (∀ c ∈ s, 48 ≤ c.val ∧ c.val ≤ 57) →
      2 ^ 64 ≤ s.foldl (fun n c => n * 10 + (c.val - 48)) n →
        strconv.parseUintLoop n s = none := by
  induction s with
  | nil =>
    intro n hn _ hge
    rw [List.foldl_nil] at hge
    omega
  | cons c rest ih =>
    intro n hn hd hge
    rw [List.foldl_cons] at hge
    have hc := hd c (List.mem_cons_self _ _)
    have hc9 : c.val - 48 ≤ 9 := by omega
    have h64 : (2 : Nat) ^ 64 = 18446744073709551616 := by norm_num
    have hcutv : 18446744073709551615 / 10 + 1 = 1844674407370955162 := by norm_num
    unfold strconv.parseUintLoop
    rw [if_pos hc]
    by_cases hcut : n ≥ 18446744073709551615 / 10 + 1
    · rw [if_pos hcut]
    · rw [if_neg hcut]
      rw [hcutv] at hcut
      have hm10 : (n * 10) % 2 ^ 64 = n * 10 := by
        rw [h64]; exact Nat.mod_eq_of_lt (by omega)
      dsimp only
      rw [hm10]
      by_cases hbig : 2 ^ 64 ≤ n * 10 + (c.val - 48)
      · have hmod : (n * 10 + (c.val - 48)) % 2 ^ 64 = n * 10 + (c.val - 48) - 2 ^ 64 := by
          rw [h64] at hbig ⊢
          rw [Nat.mod_eq_sub_mod hbig]
          exact Nat.mod_eq_of_lt (by omega)
        have hlt : (n * 10 + (c.val - 48)) % 2 ^ 64 < n * 10
            ∨ (n * 10 + (c.val - 48)) % 2 ^ 64 > 18446744073709551615 := by
          left
          rw [hmod]
          rw [h64] at hbig ⊢
          omega
        rw [if_pos hlt]
      · have hsmall : n * 10 + (c.val - 48) < 2 ^ 64 := by omega
        have hm1 : (n * 10 + (c.val - 48)) % 2 ^ 64 = n * 10 + (c.val - 48) :=
          Nat.mod_eq_of_lt hsmall
        have hno : ¬ (n * 10 + (c.val - 48) < n * 10
            ∨ n * 10 + (c.val - 48) > 18446744073709551615) := by
          rw [h64] at hsmall
          omega
        rw [hm1, if_neg hno]
        exact ih _ hsmall (fun b hb => hd b (List.mem_cons_of_mem _ hb)) hge

theorem ParseUint_range (s : GoString) (hs : strconv.IsDecimal s)
    (hge : 2 ^ 64 ≤ strconv.decimalValue s) : strconv.ParseUint s = none := by
  unfold strconv.ParseUint
  rw [if_neg hs.1]
  exact parseUintLoop_range s 0 (by norm_num) hs.2 hge

theorem parseMemoryString_plain_range (s : GoString) (hs : strconv.IsDecimal s)
    (hge : 2 ^ 64 ≤ strconv.decimalValue s) : cmd.parseMemoryString s = 0 := by
  have ht : strings.TrimSpace s = s := by
    have := TrimSpace_numeral s [] hs (fun b hb => absurd hb (List.not_mem_nil _))
    rwa [List.append_nil] at this
  have hl : strings.ToLower s = s :=
    ToLower_of_lower s (fun b hb h => by have := hs.2 b hb; omega)
  unfold cmd.parseMemoryString
  rw [if_neg hs.1]
  dsimp only
  rw [ht, hl]
  cases hg : s.getLast? with
  | none => exact absurd (List.getLast?_eq_none_iff.mp hg) hs.1
  | some z =>
    have hz := hs.2 z (List.mem_of_mem_getLast? hg)
    have h1 : ¬ z = byte 107 := fun e => by rw [e] at hz; revert hz; decide
    have h2 : ¬ z = byte 109 := fun e => by rw [e] at hz; revert hz; decide
    have h3 : ¬ z = byte 103 := fun e => by rw [e] at hz; revert hz; decide
    dsimp only
    rw [if_neg h1, if_neg h2, if_neg h3]
    dsimp only
    rw [ParseUint_range s hs hge]

theorem parseMemoryString_suffix_range (s : GoString) (b : Byte) (hs : strconv.IsDecimal s)
    (hb : b = byte 107 ∨ b = byte 109 ∨ b = byte 103)
    (hge : 2 ^ 64 ≤ strconv.decimalValue s) : cmd.parseMemoryString (s ++ [b]) = 0 := by
  have hbp : b.val < 128 ∧ unicode.IsSpace b.val = false ∧ ¬ (65 ≤ b.val ∧ b.val ≤ 90) := by
    rcases hb with e | e | e <;> (rw [e]; decide)
  have ht : strings.TrimSpace (s ++ [b]) = s ++ [b] :=
    TrimSpace_numeral s [b] hs (fun c hc => by
      rw [List.mem_singleton.mp hc]; exact ⟨hbp.1, hbp.2.1⟩)
  have hl : strings.ToLower (s ++ [b]) = s ++ [b] :=
    ToLower_of_lower _ (fun c hc h => by
      rcases List.mem_append.mp hc with h1 | h1
      · have := hs.2 c h1; omega
      · rw [List.mem_singleton.mp h1] at h; exact hbp.2.2 h)
  have hne : ¬ (s ++ [b] = []) := by simp
  unfold cmd.parseMemoryString
  rw [if_neg hne]
  dsimp only
  rw [ht, hl, List.getLast?_concat, List.dropLast_concat]
  dsimp only
  have n1 : ¬ (byte 109 = byte 107) := by decide
  have n2 : ¬ (byte 103 = byte 107) := by decide
  have n3 : ¬ (byte 103 = byte 109) := by decide
  rcases hb with e | e | e
  · rw [e, if_pos rfl]
    dsimp only
    rw [ParseUint_range s hs hge]
  · rw [e, if_neg n1, if_pos rfl]
    dsimp only
    rw [ParseUint_range s hs hge]
  · rw [e, if_neg n2, if_neg n3, if_pos rfl]
    dsimp only
    rw [ParseUint_range s hs hge]

/-- C26 (amended): for a decimal numeral of the number n, the memory option
parses to n without suffix and to n x 1024, n x 1048576 and n x 1073741824
with the suffix k, m and g, whenever that product is below 2^64; the parsed
limit is then zero only when n is zero.  When n itself is 2^64 or more,
`strconv.ParseUint` reports an error and the option parses to zero, with or
without a suffix. -/
theorem parseMemoryString_decimal (s : GoString) (hs : strconv.IsDecimal s) :
    (strconv.decimalValue s < 2 ^ 64 →
        cmd.parseMemoryString s = strconv.decimalValue s)
      ∧ (strconv.decimalValue s * 1024 < 2 ^ 64 →
          cmd.parseMemoryString (s ++ str ("k")) = strconv.decimalValue s * 1024)
      ∧ (strconv.decimalValue s * 1048576 < 2 ^ 64 →
          cmd.parseMemoryString (s ++ str ("m")) = strconv.decimalValue s * 1048576)
      ∧ (strconv.decimalValue s * 1073741824 < 2 ^ 64 →
          cmd.parseMemoryString (s ++ str ("g")) = strconv.decimalValue s * 1073741824)
      ∧ (∀ suffix : GoString, ∀ mult : Nat,
          (suffix = [] ∧ mult = 1) ∨ (suffix = str ("k") ∧ mult = 1024)
              ∨ (suffix = str ("m") ∧ mult = 1048576)
              ∨ (suffix = str ("g") ∧ mult = 1073741824) →
            strconv.decimalValue s * mult < 2 ^ 64 →
              (cmd.parseMemoryString (s ++ suffix) = 0 ↔ strconv.decimalValue s = 0))
      ∧ (2 ^ 64 ≤ strconv.decimalValue s →
          strconv.ParseUint s = none
            ∧ cmd.parseMemoryString s = 0
            ∧ cmd.parseMemoryString (s ++ str ("k")) = 0
            ∧ cmd.parseMemoryString (s ++ str ("m")) = 0
            ∧ cmd.parseMemoryString (s ++ str ("g")) = 0) := by
  have hk : strconv.decimalValue s * 1024 < 2 ^ 64 →
      cmd.parseMemoryString (s ++ str ("k")) = strconv.decimalValue s * 1024 :=
    fun h => parseMemoryString_suffix s (byte 107) 1024 hs (Or.inl ⟨rfl, rfl⟩) h
  have hm : strconv.decimalValue s * 1048576 < 2 ^ 64 →
      cmd.parseMemoryString (s ++ str ("m")) = strconv.decimalValue s * 1048576 :=
    fun h => parseMemoryString_suffix s (byte 109) 1048576 hs
      (Or.inr (Or.inl ⟨rfl, rfl⟩)) h
  have hg : strconv.decimalValue s * 1073741824 < 2 ^ 64 →
      cmd.parseMemoryString (s ++ str ("g")) = strconv.decimalValue s * 1073741824 :=
    fun h => parseMemoryString_suffix s (byte 103) 1073741824 hs
      (Or.inr (Or.inr ⟨rfl, rfl⟩)) h
  refine ⟨parseMemoryString_plain s hs, hk, hm, hg, ?_, ?_⟩
  · intro suffix mult hc hlt
    rcases hc with ⟨e1, e2⟩ | ⟨e1, e2⟩ | ⟨e1, e2⟩ | ⟨e1, e2⟩
    · subst e1 e2
      rw [List.append_nil, parseMemoryString_plain s hs (by simpa using hlt)]
    · subst e1 e2
      rw [hk hlt]; omega
    · subst e1 e2
      rw [hm hlt]; omega
    · subst e1 e2
      rw [hg hlt]; omega
  · intro hge
    exact ⟨ParseUint_range s hs hge, parseMemoryString_plain_range s hs hge,
      parseMemoryString_suffix_range s (byte 107) hs (Or.inl rfl) hge,
      parseMemoryString_suffix_range s (byte 109) hs (Or.inr (Or.inl rfl)) hge,
      parseMemoryString_suffix_range s (byte 103) hs (Or.inr (Or.inr rfl)) hge⟩

set_option maxRecDepth 100000 in
theorem parseMemoryString_decimal_witness :
    cmd.parseMemoryString (str ("512") ++ str ("m")) = strconv.decimalValue (str ("512")) * 1048576
      ∧ (cmd.parseMemoryString (str ("0") ++ str ("g")) = 0
          ↔ strconv.decimalValue (str ("0")) = 0)
      ∧ cmd.parseMemoryString (str ("99999999999999999999") ++ str ("k")) = 0 :=
  ⟨(parseMemoryString_decimal (str ("512")) (by decide)).2.2.1 (by decide),
    (parseMemoryString_decimal (str ("0")) (by decide)).2.2.2.2.1 (str ("g")) 1073741824
      (by decide) (by decide),
    ((parseMemoryString_decimal (str ("99999999999999999999")) (by decide)).2.2.2.2.2
      (by decide)).2.2.1⟩

/-! ## The window of a /32 network -/

set_option maxRecDepth 100000 in
/-- C27: on the network `0.0.0.0/32` the subtraction `broadcast - 1` of
`setRange` wraps around to 4294967295, so the window is 1 .. 4294967295 and
`Allocate` returns `0.0.0.2/32`, an address outside the network; on
`255.255.255.255/32` the addition `networkIP + 1` wraps around to 0, the
window is 0 .. 4294967294 and `Allocate` returns `0.0.0.1/32`, outside the
network as well. -/
theorem setRange_wraps_on_slash32 :
    (net.newIPManager (str ("0.0.0.0/32")) [] []).map (fun m => (m.rangeMin, m.rangeMax))
        = some (1, 4294967295)
      ∧ ((net.newIPManager (str ("0.0.0.0/32")) [] []).bind
            (fun m => m.Allocate)).map (fun r => r.1) = some (some (str ("0.0.0.2/32")))
      ∧ net.ParseCIDR (str ("0.0.0.0/32")) = some (0, ⟨0, 32⟩)
      ∧ net.ParseCIDR (str ("0.0.0.2/32")) = some (2, ⟨2, 32⟩)
      ∧ net.maskIP 2 32 ≠ 0
      ∧ (net.newIPManager (str ("255.255.255.255/32")) [] []).map
          (fun m => (m.rangeMin, m.rangeMax)) = some (0, 4294967294)
      ∧ ((net.newIPManager (str ("255.255.255.255/32")) [] []).bind
            (fun m => m.Allocate)).map (fun r => r.1) = some (some (str ("0.0.0.1/32")))
      ∧ net.ParseCIDR (str ("255.255.255.255/32")) = some (4294967295, ⟨4294967295, 32⟩)
      ∧ net.maskIP 1 32 ≠ 4294967295 := by
  decide

/-! ## Removing the default network -/

namespace net

/-- The guard of `Remove`: the argument `ducker` is refused before anything
is looked up or torn down. -/
theorem Remove_default_name (w : World) (bridgeDelOk removeAllOk : Bool) :
    (Remove w (str ("ducker")) bridgeDelOk removeAllOk).out = Outcome.error
      ∧ (Remove w (str ("ducker")) bridgeDelOk removeAllOk).natCleaned = false
      ∧ (Remove w (str ("ducker")) bridgeDelOk removeAllOk).bridgeDeleted = false
      ∧ (Remove w (str ("ducker")) bridgeDelOk removeAllOk).world.store = w.store := by
  have h : str ("ducker") = DefaultNetworkName := rfl
  unfold Remove
  rw [if_pos h]
  exact ⟨rfl, rfl, rfl, rfl⟩

set_option maxRecDepth 100000 in
/-- C29: the argument `cf064a7be1cc` is the ID `GenerateID("ducker")`, and
`get` resolves it to the network named `ducker`; `Remove` of that argument is
not stopped by the comparison with the default name: it returns nil, the NAT
rules are cleaned, the bridge is deleted and the manifest of the default
network is gone, so that `get` of the name `ducker` fails afterwards. -/
theorem Remove_default_by_ID :
    util.IsValidID (str ("cf064a7be1cc")) = true
      ∧ util.GenerateID (str ("ducker")) 0 0 = str ("cf064a7be1cc")
      ∧ (get newWorld.store (str ("cf064a7be1cc")) 0 0).map (fun d => d.Name)
          = some (str ("ducker"))
      ∧ (Remove newWorld (str ("cf064a7be1cc")) true true).out = Outcome.ok
      ∧ (Remove newWorld (str ("cf064a7be1cc")) true true).natCleaned = true
      ∧ (Remove newWorld (str ("cf064a7be1cc")) true true).bridgeDeleted = true
      ∧ (get (Remove newWorld (str ("cf064a7be1cc")) true true).world.store
          (str ("ducker")) 0 0).isSome = false
      ∧ (get newWorld.store (str ("ducker")) 0 0).isSome = true := by
  refine ⟨by decide, by decide, by decide, by decide, by decide, by decide, by decide,
    by decide⟩

end net

/-! ## Limits on a second start -/

namespace limit

theorem mkdir_existing (dirs : List GoString) (path : GoString) (host : FsHost)
    (h : path ∈ dirs) : mkdir dirs path host = (false, dirs) := by
  unfold mkdir
  rw [if_pos h]

/-- A cgroup directory that exists makes `Apply` return an error, whatever
the host answers: the directory of the CPU controller when the CPU limit is
positive, the one of the memory controller when only the memory limit is. -/
theorem Apply_existing_fails (dirs : List GoString) (containerID : GoString) (pid : Int)
    (cpuLimit : ℚ) (memoryLimit : Nat) (host : FsHost)
    (h : (cpuLimit > 0 ∧ util.GetCgroupCPUPath containerID ∈ dirs)
      ∨ (¬ cpuLimit > 0 ∧ memoryLimit > 0 ∧ util.GetCgroupMemoryPath containerID ∈ dirs)) :
    Apply dirs containerID pid cpuLimit memoryLimit host = (false, dirs) := by
  unfold Apply
  by_cases h1 : containerID = []
  · rw [if_pos h1]
  · rw [if_neg h1]
    by_cases h2 : pid ≤ 0
    · rw [if_pos h2]
    · rw [if_neg h2]
      rcases h with ⟨hc, hd⟩ | ⟨hc, hm, hd⟩
      · dsimp only
        rw [if_pos hc]
        unfold applyCPULimit
        dsimp only
        rw [mkdir_existing dirs _ host hd]
        rfl
      · dsimp only
        rw [if_neg hc, if_pos hm]
        unfold applyMemoryLimit
        dsimp only
        rw [mkdir_existing dirs _ host hd]
        rfl

/-- On a host where the file calls succeed, `Apply` with a positive CPU
limit creates the directory of the CPU controller when it does not exist. -/
theorem Apply_cpu_creates (dirs : List GoString) (containerID : GoString) (pid : Int)
    (cpuLimit : ℚ) (h1 : containerID ≠ []) (h2 : 0 < pid) (hc : cpuLimit > 0)
    (hd : util.GetCgroupCPUPath containerID ∉ dirs) :
    Apply dirs containerID pid cpuLimit 0 okHost
      = (true, dirs ++ [util.GetCgroupCPUPath containerID]) := by
  have h2n : ¬ pid ≤ 0 := by omega
  have h0 : ¬ (0 : Nat) > 0 := by decide
  unfold Apply
  rw [if_neg h1, if_neg h2n]
  dsimp only
  rw [if_pos hc, if_neg h0]
  unfold applyCPULimit mkdir
  dsimp only
  rw [if_neg hd]
  rfl

set_option maxRecDepth 100000 in
/-- C30: for the container `2567a5ec9705` with the CPU limit one half the
first `Apply` creates `/sys/fs/cgroup/cpu/2567a5ec9705` and returns nil; the
directory is still there at the next start, and `Apply` for the same
container with the PID of the new process returns an error although every
write would succeed.  The same holds for a memory limit alone.  After
`Remove` the call succeeds again. -/
theorem Apply_again_fails :
    Apply [] (str ("2567a5ec9705")) 4242 (1 / 2) 0 okHost
        = (true, [str ("/sys/fs/cgroup/cpu/2567a5ec9705")])
      ∧ Apply [str ("/sys/fs/cgroup/cpu/2567a5ec9705")] (str ("2567a5ec9705")) 4243 (1 / 2) 0
          okHost = (false, [str ("/sys/fs/cgroup/cpu/2567a5ec9705")])
      ∧ Apply [] (str ("2567a5ec9705")) 4242 0 536870912 okHost
          = (true, [str ("/sys/fs/cgroup/memory/2567a5ec9705")])
      ∧ Apply [str ("/sys/fs/cgroup/memory/2567a5ec9705")] (str ("2567a5ec9705")) 4243 0
          536870912 okHost = (false, [str ("/sys/fs/cgroup/memory/2567a5ec9705")])
      ∧ Apply (Remove [str ("/sys/fs/cgroup/cpu/2567a5ec9705")] (str ("2567a5ec9705")))
          (str ("2567a5ec9705")) 4243 (1 / 2) 0 okHost
          = (true, [str ("/sys/fs/cgroup/cpu/2567a5ec9705")]) := by
  have hp : util.GetCgroupCPUPath (str ("2567a5ec9705"))
      = str ("/sys/fs/cgroup/cpu/2567a5ec9705") := by decide
  have hm : util.GetCgroupMemoryPath (str ("2567a5ec9705"))
      = str ("/sys/fs/cgroup/memory/2567a5ec9705") := by decide
  have hid : str ("2567a5ec9705") ≠ [] := by decide
  have hhalf : (1 / 2 : ℚ) > 0 := by norm_num
  have hzero : ¬ (0 : ℚ) > 0 := by norm_num
  have hrem : Remove [str ("/sys/fs/cgroup/cpu/2567a5ec9705")] (str ("2567a5ec9705")) = [] := by
    unfold Remove
    rw [hp, hm]
    decide
  refine ⟨?_, ?_, ?_, ?_, ?_⟩
  · have := Apply_cpu_creates [] (str ("2567a5ec9705")) 4242 (1 / 2) hid (by decide) hhalf
      (List.not_mem_nil _)
    rw [hp] at this
    exact this
  · exact Apply_existing_fails _ _ _ _ _ _
      (Or.inl ⟨hhalf, by rw [hp]; exact List.mem_singleton.mpr rfl⟩)
  · unfold Apply
    rw [if_neg hid, if_neg (by decide : ¬ ((4242 : Int) ≤ 0))]
    dsimp only
    rw [if_neg hzero, if_pos (by decide : 536870912 > 0)]
    unfold applyMemoryLimit mkdir
    dsimp only
    rw [hm, if_neg (List.not_mem_nil _)]
    rfl
  · exact Apply_existing_fails _ _ _ _ _ _
      (Or.inr ⟨hzero, by decide, by rw [hm]; exact List.mem_singleton.mpr rfl⟩)
  · rw [hrem]
    have := Apply_cpu_creates [] (str ("2567a5ec9705")) 4243 (1 / 2) hid (by decide) hhalf
      (List.not_mem_nil _)
    rw [hp] at this
    exact this

end limit

end Ducker
